import Mathlib

/-!
Shallow embedding of the export engine of cvs-fast-export (the file
`src/export.c` and the unnamed export source `src/unnamed/part_000`),
used to check the specification claims C1..C10 of `spec.md`.

Modelling conventions:

* Interned strings (atoms, produced by the external `atom` interner) are
  natural numbers; pointer equality on interned names is equality of these
  numbers.  The Bloom fingerprint of an atom is supplied by an external
  oracle, modelled as a function argument.
* `time_t` arithmetic is exact (`Int`); the implicit truncation to `int`
  at `return timediff` in `compare_commit` is modelled by
  `Int.bmod _ (2 ^ 32)` (value of `8 * sizeof(int)` on the reference
  platform).
* Pointer graphs: a `git_commit` is an inductive value carrying its parent
  as a subterm; the `cid` field models the node identity (pointer), so
  pointer comparisons in the source become `cid` comparisons.
* The output stream is modelled as a list of abstract records mirroring
  the record groups the code prints (`blob`+`mark`+`data`,
  `commit`+`mark`+`committer`+`data`+`from`+fileops, the incremental
  `from ...^0` anchor line, `reset refs/tags/...`+`from`,
  `reset <branch>`+`from`, and the final `done`).  The `cid` fields on
  commit and tag-reset records are ghost identities used to state claims;
  they carry no stream bytes.
* Global mutable state (`seqno`, `mark`, `markmap`, the per-commit
  `serial` fields, the per-revision `emitted` flags, the static
  `need_ignores`) is carried in an explicit `ExpState`; `markmap` is an
  association list (first binding wins, so prepending models overwriting),
  and every read or write of the `markmap` array is additionally logged in
  an access trace used by the array-bounds claim C9.
* The options `reposurgeon`, `embed_ids` and `revision_map` only add
  auxiliary payload (revision-pair text) and are modelled as switched off;
  no claim mentions them.  Progress reporting, the blob spill files'
  on-disk layout, and `export_authors` are outside the claims.
-/

namespace CFE

/-- Interned name (the external `atom` interner): pointer identity is
numeric equality. -/
abbrev Atom := Nat

/-- Bloom fingerprint: the `bloom_t` word array (`el[BLOOMLENGTH]`). -/
structure Bloom where
  el : List Nat
deriving DecidableEq

/-- The word-wise test in `compute_parent_links`
(`if (bloom->el[k] & parent->bloom.el[k]) goto next;`): true when some
word pair has a non-empty bitwise intersection. -/
def bloomOverlap (a b : Bloom) : Bool :=
  (a.el.zip b.el).any (fun p => p.1 &&& p.2 != 0)

/-- A path, split at the directory separators. -/
abbrev Path := List String

/-- One `cvs_commit` (a file-revision snapshot).  `fid` is the node
identity (pointer); `name` the interned master name used by the
parent-link oracle; `mode` the master's POSIX mode bits; `path` the
master name as a path (input of `fileop_name`).  The mutable `serial`
field lives in the export state, keyed by `fid`. -/
structure FileRev where
  fid : Nat
  name : Atom
  mode : Nat
  path : Path
deriving DecidableEq

/-- One `git_commit` node of the merged DAG.  `cid` is the node identity
(pointer); `parentC` the parent link; `dirs` the directory buckets of
file revisions; `tail` the branch-graft flag.  The mutable `serial`
field lives in the export state, keyed by `cid`. -/
inductive GitCommit : Type where
  | node (cid : Nat) (parentC : Option GitCommit) (date : Int)
      (author : String) (log : String) (bloom : Bloom)
      (dirs : List (List FileRev)) (tail : Bool) : GitCommit

def GitCommit.cid : GitCommit → Nat
  | .node c _ _ _ _ _ _ _ => c

def GitCommit.parentC : GitCommit → Option GitCommit
  | .node _ p _ _ _ _ _ _ => p

def GitCommit.date : GitCommit → Int
  | .node _ _ d _ _ _ _ _ => d

def GitCommit.author : GitCommit → String
  | .node _ _ _ a _ _ _ _ => a

def GitCommit.log : GitCommit → String
  | .node _ _ _ _ l _ _ _ => l

def GitCommit.bloom : GitCommit → Bloom
  | .node _ _ _ _ _ b _ _ => b

def GitCommit.dirs : GitCommit → List (List FileRev)
  | .node _ _ _ _ _ _ ds _ => ds

def GitCommit.tail : GitCommit → Bool
  | .node _ _ _ _ _ _ _ t => t

/-- The flattened file sequence of a commit, in the traversal order of
`file_iter_start`/`file_iter_next` (directory buckets in order, files of
each bucket in order). -/
def GitCommit.files (c : GitCommit) : List FileRev := c.dirs.flatten

/-- A branch head (`rev_ref`). -/
structure Head where
  refName : String
  commit : GitCommit
  tail : Bool

/-- A tag (`tag_t`): name and the identity of its target commit. -/
structure Tag where
  name : String
  cid : Nat
deriving DecidableEq

/-- The reporting modes of `export_options_t`. -/
inductive RMode : Type where
  | adaptive | fast | canonical
deriving DecidableEq

/-- The export options the claims touch.  `branchPfx` models
`branch_prefix`. -/
structure Opts where
  reportmode : RMode
  branchPfx : String
  force_dates : Bool
  fromtime : Int

/-- `#define SMALL_REPOSITORY 1000000` -/
def SMALL_REPOSITORY : Nat := 1000000

/-- The mode-selection prologue of `export_commits`:
`fromtime > 0` forces canonical; otherwise `adaptive` resolves by
comparing `forest->textsize` with `SMALL_REPOSITORY`. -/
def resolveMode (fromtime : Int) (rm : RMode) (textsize : Nat) : RMode :=
  if fromtime > 0 then RMode.canonical
  else if rm = RMode.adaptive then
    (if textsize ≤ SMALL_REPOSITORY then RMode.canonical else RMode.fast)
  else rm

/-- Width of the C `int` return value of `compare_commit` on the
reference platform (`8 * sizeof(int)` bits). -/
def INT_WIDTH : Nat := 32

/-- Truncation of a `time_t`-wide value to `int` (two's complement),
as performed by `return timediff;` in `compare_commit`. -/
def truncToInt (x : Int) : Int := Int.bmod x (2 ^ INT_WIDTH)

/-- Sign of `strcmp` (the exact magnitude of the C return value is
implementation-defined; only its sign is ever used). -/
def strcmpSign (a b : String) : Int :=
  if a < b then -1 else if b < a then 1 else 0

/-- `bc == ac->parent` (pointer comparison). -/
def parentIs (ac bc : GitCommit) : Bool :=
  match ac.parentC with
  | some p => p.cid = bc.cid
  | none => false

/-- `ac->parent != NULL && bc == ac->parent->parent` (pointer
comparison with the grandparent). -/
def grandparentIs (ac bc : GitCommit) : Bool :=
  match ac.parentC with
  | some p =>
    match p.parentC with
    | some gp => gp.cid = bc.cid
    | none => false
  | none => false

/-- `compare_commit`: the attempted total order on commits.  The
timestamp step computes `ac->date - bc->date` into a `time_t`, tests it
at full width, and returns it truncated to `int` (the test is textually
duplicated in the source; both copies are kept). -/
def compare_commit (ac bc : GitCommit) : Int :=
  let timediff : Int := ac.date - bc.date
  if timediff ≠ 0 then truncToInt timediff
  else
    let timediff2 : Int := ac.date - bc.date
    if timediff2 ≠ 0 then truncToInt timediff2
    else if parentIs ac bc || grandparentIs ac bc then 1
    else if parentIs bc ac || grandparentIs bc ac then -1
    else
      let cmp := strcmpSign ac.author bc.author
      if cmp ≠ 0 then cmp
      else strcmpSign ac.log bc.log

/-- `sort_by_date`: ties chase both parent chains in lock step; a
pointer-equal pair compares equal. -/
def sort_by_date : GitCommit → GitCommit → Int
  | GitCommit.node cid1 pc1 d1 a1 l1 b1 ds1 t1, bc =>
    if (GitCommit.node cid1 pc1 d1 a1 l1 b1 ds1 t1).cid = bc.cid then 0
    else
      let cmp :=
        compare_commit (GitCommit.node cid1 pc1 d1 a1 l1 b1 ds1 t1) bc
      if cmp ≠ 0 then cmp
      else
        match pc1, bc.parentC with
        | some ap, some bp => sort_by_date ap bp
        | _, _ => 0

/-- Character order used by the path comparator (byte order of
`strcmp`, stated on code points). -/
def charLt (a b : Char) : Bool := a.toNat < b.toNat

/-- Lexicographic comparison of character lists (plain `strcmp` order,
used within one path segment). -/
def charsCompare : List Char → List Char → Ordering
  | [], [] => Ordering.eq
  | [], _ :: _ => Ordering.lt
  | _ :: _, [] => Ordering.gt
  | a :: as, b :: bs =>
    if charLt a b then Ordering.lt
    else if charLt b a then Ordering.gt
    else charsCompare as bs

/-- Comparison of two path segments. -/
def segCompare (a b : String) : Ordering := charsCompare a.data b.data

/-- Modelled from the spec: `path_deep_compare` (defined in this
repository outside the provided sources; `fileop_sort` delegates to it).
Spec 4.3 step 5: compare paths segment by segment; at the first
differing position order by the segment; a strict prefix-equal shorter
path sorts after the longer one (the sentinel trick of the source
comment, giving `a/b/c < a/b < a`). -/
def path_deep_compare : Path → Path → Ordering
  | [], [] => Ordering.eq
  | [], _ :: _ => Ordering.gt
  | _ :: _, [] => Ordering.lt
  | a :: as, b :: bs =>
    match segCompare a b with
    | Ordering.lt => Ordering.lt
    | Ordering.gt => Ordering.gt
    | Ordering.eq => path_deep_compare as bs

/-- Reciprocal parent links computed by `compute_parent_links`
(the mutable `other` fields): `cfOther` indexes the commit's file
sequence, `pfOther` the parent's; a link holds the position of the
matched revision on the other side. -/
structure Links where
  cfOther : List (Option Nat)
  pfOther : List (Option Nat)
deriving DecidableEq

/-- Scan of the parent file sequence from the cursor position `pos`
(the restarted iterator `it`): first position at or after `pos` whose
interned name equals `target`. -/
def cplScan (pnames : List Atom) (target : Atom) (pos : Nat) : Option Nat :=
  match (pnames.drop pos).findIdx? (fun n => n = target) with
  | some k => some (pos + k)
  | none => none

/-- The main loop of `compute_parent_links` over the commit's file
sequence (paired with positions).  `pos` is the parent-side cursor
(advanced past each successful match), `maxm` the remaining `maxmatch`
budget; when a match brings the budget to zero the function returns at
once, leaving the remaining commit files untouched.  The Bloom word
test at the top of the loop body skips the scan whenever some word of
the file name's fingerprint intersects the parent's filter. -/
def cplLoop (ab : Atom → Bloom) (pbloom : Bloom) (pnames : List Atom) :
    List (Atom × Nat) → Nat → Nat → Links → Links
  | [], _, _, acc => acc
  | (nm, i) :: rest, pos, maxm, acc =>
    if bloomOverlap (ab nm) pbloom then
      cplLoop ab pbloom pnames rest pos maxm acc
    else
      match cplScan pnames nm pos with
      | none => cplLoop ab pbloom pnames rest pos maxm acc
      | some j =>
        let acc2 : Links :=
          ⟨acc.cfOther.set i (some j), acc.pfOther.set j (some i)⟩
        if maxm = 1 then acc2
        else cplLoop ab pbloom pnames rest (j + 1) (maxm - 1) acc2

/-- `compute_parent_links(commit)`: clear both sides' links, compute
`maxmatch = min(nparent, ncommit)`, then run the matching loop. -/
def compute_parent_links (ab : Atom → Bloom) (commit parent : GitCommit) :
    Links :=
  let cfiles := commit.files
  let pfiles := parent.files
  let maxmatch := min pfiles.length cfiles.length
  cplLoop ab parent.bloom (pfiles.map FileRev.name)
    (cfiles.enum.map (fun p => (p.2.name, p.1))) 0 maxmatch
    ⟨List.replicate cfiles.length none, List.replicate pfiles.length none⟩

/-- A file operation as built by `export_commit` before emission
(`struct fileop`): a modify keeps the revision it refers to. -/
inductive BOp : Type where
  | M (mode : Nat) (rev : FileRev) (path : Path)
  | D (path : Path)
deriving DecidableEq

/-- The path of a built file operation (`op->path`). -/
def BOp.opath : BOp → Path
  | .M _ _ p => p
  | .D p => p

/-- `fileop_sort` as a boolean "less or equal" for sorting: the
comparator delegates to `path_deep_compare` on the paths. -/
def bopLE (a b : BOp) : Bool := path_deep_compare a.opath b.opath ≠ Ordering.gt

/-- The string constant for the translated ignore-file name. -/
def gitignoreStr : String := ".gitignore"

/-- The string constant for the CVS ignore-file name suffix. -/
def cvsignoreStr : String := ".cvsignore"

/-- The character constants of the two ignore-file names. -/
def cvsignoreChars : List Char := cvsignoreStr.data

def gitignoreChars : List Char := gitignoreStr.data

/-- `fileop_name`: copy the rectified master name, and when it is at
least 10 characters long and ends in `.cvsignore` rewrite the three
characters `cvs` to `git`, yielding a `.gitignore` suffix.  On
segmented paths the suffix test concerns the last segment. -/
def fileop_name (p : Path) : Path :=
  match p.getLast? with
  | none => p
  | some s =>
    if cvsignoreChars.length ≤ s.data.length ∧
        s.data.drop (s.data.length - cvsignoreChars.length) = cvsignoreChars
    then
      p.dropLast ++
        [String.mk (s.data.take (s.data.length - cvsignoreChars.length) ++
          gitignoreChars)]
    else p

/-- The mode clamp of `export_commit`:
`if (cc->master->mode & 0100) op->mode = 0755; else op->mode = 0644;`
(the printed line prepends the literal `100`). -/
def fileMode (masterMode : Nat) : Nat :=
  if masterMode &&& 0o100 ≠ 0 then 0o755 else 0o644

/-- An emitted file-operation line: `M <mode> :<mark> <path>`,
`D <path>`, or the synthetic `M 100644 inline .gitignore` block. -/
inductive FOp : Type where
  | M (mode : Nat) (mark : Nat) (path : Path)
  | D (path : Path)
  | Minline (path : Path)
deriving DecidableEq

/-- The path of an emitted file operation. -/
def FOp.fpath : FOp → Path
  | .M _ _ p => p
  | .D p => p
  | .Minline p => p

/-- An abstract output record.  `blob` covers `blob`+`mark`+`data`;
`commitRec` covers one whole commit record (its `from :N` line as
`fromMark`, its fileop lines as `ops`); `anchor b` is the synthetic
incremental line `from <b>^0`; `tagReset`/`branchReset` cover
`reset ...`+`from :N`; `done` is the closing record.  The `cid` fields
are ghost identities of the commit the record belongs to or targets. -/
inductive Rec : Type where
  | blob (mark : Nat)
  | commitRec (cid : Nat) (branch : String) (mark : Nat)
      (fromMark : Option Nat) (ops : List FOp)
  | anchor (branch : String)
  | tagReset (tag : String) (cid : Nat) (fromMark : Nat)
  | branchReset (branch : String) (fromMark : Nat)
  | done
deriving DecidableEq

/-- The mutable export state: the sequence and mark counters, the
`markmap` array (association list; the most recent binding is first and
wins, unbound slots read as the `calloc` value 0), the per-commit
`serial` fields (`serialC`, keyed by commit identity), the set of file
revisions whose blob was already emitted (`emitted`, keyed by revision
identity), the static `need_ignores` of `export_commit`, and the trace
of `markmap` accesses (`(isWrite, index)`), kept for the bounds claim. -/
structure ExpState where
  seqno : Nat
  mark : Nat
  markmap : List (Nat × Nat)
  serialC : List (Nat × Nat)
  emitted : List Nat
  needIgnores : Bool
  accesses : List (Bool × Nat)

/-- The value held by a `markmap` slot. -/
def mmLookup (st : ExpState) (i : Nat) : Nat :=
  (st.markmap.lookup i).getD 0

/-- A logged read of `markmap[i]`. -/
def mmRead (st : ExpState) (i : Nat) : Nat × ExpState :=
  (mmLookup st i, { st with accesses := st.accesses ++ [(false, i)] })

/-- A logged write `markmap[i] = v`. -/
def mmWrite (st : ExpState) (i v : Nat) : ExpState :=
  { st with markmap := (i, v) :: st.markmap,
            accesses := st.accesses ++ [(true, i)] }

/-- The `serial` field of the commit with identity `cid` (0 when never
assigned, as left by the earlier phases). -/
def scLookup (st : ExpState) (cid : Nat) : Nat :=
  (st.serialC.lookup cid).getD 0

/-- The context threaded through an export run: the Bloom oracle, the
revision serials assigned during generation, the set of generated
revisions (whose spill/blob exists), the external constants
`RCS_EPOCH` and `commit_time_window`, and the resolved options. -/
structure Ctx where
  ab : Atom → Bloom
  serialOfRev : Nat → Nat
  genFids : List Nat
  rcsEpoch : Int
  ctw : Nat
  opts : Opts

/-- The `display_date` macro: a synthetic monotone date when
`force_dates` is set, else the commit date shifted by `RCS_EPOCH`. -/
def displayDate (ctx : Ctx) (c : GitCommit) (m : Nat) : Int :=
  if ctx.opts.force_dates then
    (100000 : Int) + (m * ctx.ctw * 2 : Nat)
  else c.date + ctx.rcsEpoch

/-- Evaluation of a `markmap[...]` argument inside the `display_date`
macro: the array read happens only when `force_dates` is set (otherwise
the macro's conditional never evaluates its `m` argument). -/
def ddArg (st : ExpState) (force : Bool) (i : Nat) : Nat × ExpState :=
  if force then mmRead st i else (0, st)

/-- The modify operations built by `export_commit` over the commit's
own file sequence: with no parent every revision is new; with a parent,
a modify is kept when the reciprocal link is absent (`!present`) or the
linked revisions' serials differ (`changed`). -/
def buildMops (ctx : Ctx) (c : GitCommit) (links : Links)
    (pfiles : List FileRev) : List BOp :=
  c.files.enum.filterMap (fun pr =>
    let cf := pr.2
    let o : Option Nat := (links.cfOther.getD pr.1 none)
    let present : Bool := c.parentC.isSome && o.isSome
    let changed : Bool := present &&
      (match o with
       | some j =>
         decide (((pfiles.get? j).map (fun pf => ctx.serialOfRev pf.fid)) ≠
           some (ctx.serialOfRev cf.fid))
       | none => false)
    if !present || changed then
      some (BOp.M (fileMode cf.mode) cf (fileop_name cf.path))
    else none)

/-- The delete operations built by `export_commit` over the parent's
file sequence: a delete for every parent revision with no reciprocal
link. -/
def buildDops (links : Links) (pfiles : List FileRev) : List BOp :=
  pfiles.enum.filterMap (fun pr =>
    if (links.pfOther.getD pr.1 none).isNone then
      some (BOp.D (fileop_name pr.2.path))
    else none)

/-- The blob pass of `export_commit` (the loop over the unsorted
operations): for each modify whose revision is not yet emitted, in
canonical mode allocate the next mark into `markmap[serial]`
(unconditionally), and when reporting stream the spilled blob (if its
file exists, i.e. the revision was generated), unlink it and set the
`emitted` flag.  In fast mode the loop body does nothing. -/
def blobPass (ctx : Ctx) (report : Bool) :
    List BOp → ExpState → ExpState × List Rec
  | [], st => (st, [])
  | BOp.D _ :: rest, st => blobPass ctx report rest st
  | BOp.M _ rev _ :: rest, st =>
    if rev.fid ∈ st.emitted then blobPass ctx report rest st
    else
      let st1 :=
        if ctx.opts.reportmode = RMode.canonical then
          let stw := mmWrite st (ctx.serialOfRev rev.fid) (st.mark + 1)
          { stw with mark := st.mark + 1 }
        else st
      if report ∧ ctx.opts.reportmode = RMode.canonical then
        if rev.fid ∈ ctx.genFids then
          let st2 := { st1 with emitted := st1.emitted ++ [rev.fid] }
          let res := blobPass ctx report rest st2
          (res.1, Rec.blob st1.mark :: res.2)
        else blobPass ctx report rest st1
      else blobPass ctx report rest st1

/-- The fileop emission loop of `export_commit` (inside `if (report)`):
a modify line reads `markmap[op->rev->serial]`; any op whose path is the
interned `.gitignore` clears `need_ignores`. -/
def emitOps (ctx : Ctx) : List BOp → ExpState → ExpState × List FOp
  | [], st => (st, [])
  | BOp.M mode rev path :: rest, st =>
    let r := mmRead st (ctx.serialOfRev rev.fid)
    let st2 :=
      if path = [gitignoreStr] then { r.2 with needIgnores := false }
      else r.2
    let res := emitOps ctx rest st2
    (res.1, FOp.M mode r.1 path :: res.2)
  | BOp.D path :: rest, st =>
    let st2 :=
      if path = [gitignoreStr] then { st with needIgnores := false }
      else st
    let res := emitOps ctx rest st2
    (res.1, FOp.D path :: res.2)

/-- Insertion into a sorted list.  The source's `qsort` calls guarantee
only an order consistent with the comparator (`qsort` is unstable and
otherwise unspecified); the model uses a structural insertion sort so
that runs evaluate inside the kernel. -/
def insertSorted {α : Type} (le : α → α → Bool) (x : α) :
    List α → List α
  | [] => [x]
  | y :: ys => if le x y then x :: y :: ys else y :: insertSorted le x ys

/-- Sorting by a boolean comparator (the model of `qsort`). -/
def sortByB {α : Type} (le : α → α → Bool) : List α → List α
  | [] => []
  | x :: xs => insertSorted le x (sortByB le xs)

/-- The parent's file sequence as seen by `export_commit` (empty when
there is no parent). -/
def pfilesOf (c : GitCommit) : List FileRev :=
  match c.parentC with
  | some p => p.files
  | none => []

/-- The reciprocal links as seen by `export_commit` (empty when there
is no parent; `compute_parent_links` is only called with a parent). -/
def linksOf (ctx : Ctx) (c : GitCommit) : Links :=
  match c.parentC with
  | some p => compute_parent_links ctx.ab c p
  | none => ⟨[], []⟩

/-- The operation list of `export_commit` in build (pre-sort) order:
modifies over the commit's files, then deletes over the parent's. -/
def opsPreOf (ctx : Ctx) (c : GitCommit) : List BOp :=
  buildMops ctx c (linksOf ctx c) (pfilesOf c) ++
    buildDops (linksOf ctx c) (pfilesOf c)

/-- The serial/mark assignment of `export_commit`
(`commit->serial = ++seqno; here = markmap[commit->serial] = ++mark;`),
performed whether or not the commit is reported. -/
def commitSerialize (c : GitCommit) (st : ExpState) : ExpState :=
  let seq2 := st.seqno + 1
  let st3 := { st with seqno := seq2, serialC := (c.cid, seq2) :: st.serialC }
  let st4 := mmWrite st3 seq2 (st3.mark + 1)
  { st4 with mark := st3.mark + 1 }

/-- The reported part of the commit record: the `from :N` read when
there is a parent, the sorted fileop lines, and the synthetic inline
`.gitignore` when `need_ignores` is still set.  `st` is the state right
after `commitSerialize`, so `st.mark` is the commit's own mark. -/
def commitRecordOf (ctx : Ctx) (c : GitCommit) (branch : String)
    (st : ExpState) : ExpState × Rec :=
  let fromRes : Option Nat × ExpState :=
    match c.parentC with
    | some p =>
      let r := mmRead st (scLookup st p.cid)
      (some r.1, r.2)
    | none => (none, st)
  let eo := emitOps ctx (sortByB bopLE (opsPreOf ctx c)) fromRes.2
  let st6 := eo.1
  let withIgn : ExpState × List FOp :=
    if st6.needIgnores then
      ({ st6 with needIgnores := false },
       eo.2 ++ [FOp.Minline [gitignoreStr]])
    else (st6, eo.2)
  (withIgn.1,
   Rec.commitRec c.cid (ctx.opts.branchPfx ++ branch) st.mark
     fromRes.1 withIgn.2)

/-- `export_commit`: precompute the reciprocal parent links, build the
modify and delete operations, run the blob pass over them (pre-sort
order), sort them with `fileop_sort`, assign the commit's serial and
mark (unconditionally), and when reporting emit the commit record
(with its `from :N` line when there is a parent, the sorted fileop
lines, and the synthetic inline `.gitignore` when still needed). -/
def export_commit (ctx : Ctx) (c : GitCommit) (branch : String)
    (report : Bool) (st : ExpState) : ExpState × List Rec :=
  let bp := blobPass ctx report (opsPreOf ctx c) st
  let st5 := commitSerialize c bp.1
  if report then
    let cr := commitRecordOf ctx c branch st5
    (cr.1, bp.2 ++ [cr.2])
  else (st5, bp.2)

/-- The tag loop run after each exported commit: for every tag whose
target is this commit and whose display date clears the cutoff, emit a
`reset refs/tags/...` record referencing `markmap[commit->serial]`. -/
def tagEmit (ctx : Ctx) (c : GitCommit) :
    List Tag → ExpState → ExpState × List Rec
  | [], st => (st, [])
  | t :: rest, st =>
    if t.cid = c.cid then
      let dr := ddArg st ctx.opts.force_dates (scLookup st c.cid)
      if displayDate ctx c dr.1 > ctx.opts.fromtime then
        let mr := mmRead dr.2 (scLookup dr.2 c.cid)
        let res := tagEmit ctx c rest mr.2
        (res.1, Rec.tagReset t.name t.cid mr.1 :: res.2)
      else tagEmit ctx c rest dr.2
    else tagEmit ctx c rest st

/-- The branch walk `for (c = h->commit; c; c = (c->tail ? NULL : c->parent))`:
the chain from a head toward the root, stopping at (and including) a
commit whose `tail` flag is set. -/
def chainOf : GitCommit → List GitCommit
  | GitCommit.node cid pc d a l b ds t =>
    GitCommit.node cid pc d a l b ds t ::
      (if t then []
       else
         match pc with
         | none => []
         | some p => chainOf p)

/-- One planned commit of the canonical history array
(`struct commit_seq` minus its `realized` flag, which the loop state
carries as a set of realized head indices). -/
structure CSeq where
  commit : GitCommit
  headIdx : Nat
  refName : String

/-- Phase A of `canonicalize`: branches concatenated in head order,
each non-tail branch's chain reversed into root-to-head order. -/
def canonicalize (heads : List Head) : List CSeq :=
  (heads.enum.filter (fun p => !p.2.tail)).flatMap (fun p =>
    (chainOf p.2.commit).reverse.map (fun c => ⟨c, p.1, p.2.refName⟩))

/-- `export_ncommit`: the number of commits reachable from non-tail
heads, stopping at (and including) tail commits. -/
def export_ncommit (heads : List Head) : Nat :=
  ((heads.filter (fun h => !h.tail)).map
    (fun h => (chainOf h.commit).length)).sum

/-- The topological-consistency check of the canonical path: no commit
has a parent dated after it. -/
def sortableB (hist : List CSeq) : Bool :=
  hist.all (fun e =>
    match e.commit.parentC with
    | none => true
    | some p => decide (p.date ≤ e.commit.date))

/-- `sort_by_date` as the boolean order used by the sort. -/
def sort_by_date_le (a b : CSeq) : Bool :=
  decide (sort_by_date a.commit b.commit ≤ 0)

/-- Phase B of the canonical path: when the history is sortable, sort
it by `sort_by_date`; otherwise announce once and keep the Phase-A
order.  The second component counts the announcements. -/
def sortHistory (hist : List CSeq) : List CSeq × Nat :=
  if sortableB hist then (sortByB sort_by_date_le hist, 0)
  else (hist, 1)

/-- The final canonical emission order. -/
def canonHist (heads : List Head) : List CSeq :=
  (sortHistory (canonicalize heads)).1

/-- The canonical main loop (`export_commits`, canonical arm): the
incremental logic computes `report`, possibly emits the synthetic
`from <branch>^0` anchor for the first surviving commit of a branch,
and marks the whole branch realized; then the commit is exported (mark
and serial are assigned even when suppressed) and its tags emitted. -/
def canonDecide (ctx : Ctx) (e : CSeq) (realized : List Nat)
    (st : ExpState) : Bool × List Nat × List Rec × ExpState :=
  if ctx.opts.fromtime > 0 then
    if ctx.opts.fromtime ≥ displayDate ctx e.commit (st.mark + 1) then
      (false, realized, [], st)
    else if e.headIdx ∈ realized then (true, realized, [], st)
    else
      match e.commit.parentC with
      | some p =>
        if displayDate ctx p
            (ddArg st ctx.opts.force_dates (scLookup st p.cid)).1 <
            ctx.opts.fromtime then
          (true, realized ++ [e.headIdx],
           [Rec.anchor (ctx.opts.branchPfx ++ e.refName)],
           (ddArg st ctx.opts.force_dates (scLookup st p.cid)).2)
        else
          (true, realized ++ [e.headIdx], [],
           (ddArg st ctx.opts.force_dates (scLookup st p.cid)).2)
      | none => (true, realized ++ [e.headIdx], [], st)
  else (true, realized, [], st)

def canonLoop (ctx : Ctx) (tags : List Tag) :
    List CSeq → List Nat → ExpState → ExpState × List Rec
  | [], _, st => (st, [])
  | e :: rest, realized, st =>
    let dec := canonDecide ctx e realized st
    let ec := export_commit ctx e.commit e.refName dec.1 dec.2.2.2
    let te := tagEmit ctx e.commit tags ec.1
    let res := canonLoop ctx tags rest dec.2.1 te.1
    (res.1, dec.2.2.1 ++ ec.2 ++ te.2 ++ res.2)

/-- The realized set and state after the canonical loop has processed a
prefix of the history (the loop-carried data of `canonLoop` without the
emitted records). -/
def canonPrefix (ctx : Ctx) (tags : List Tag) :
    List CSeq → List Nat → ExpState → List Nat × ExpState
  | [], realized, st => (realized, st)
  | e :: rest, realized, st =>
    let dec := canonDecide ctx e realized st
    let ec := export_commit ctx e.commit e.refName dec.1 dec.2.2.2
    let te := tagEmit ctx e.commit tags ec.1
    canonPrefix ctx tags rest dec.2.1 te.1

/-- One branch of the fast main loop: the materialized chain is walked
in reverse (root to head), each commit exported and its tags emitted. -/
def fastBranchLoop (ctx : Ctx) (tags : List Tag) (refName : String) :
    List GitCommit → ExpState → ExpState × List Rec
  | [], st => (st, [])
  | c :: rest, st =>
    let ec := export_commit ctx c refName true st
    let te := tagEmit ctx c tags ec.1
    let res := fastBranchLoop ctx tags refName rest te.1
    (res.1, ec.2 ++ te.2 ++ res.2)

/-- The fast main loop (`export_commits`, fast arm): non-tail branches
in head order. -/
def fastLoop (ctx : Ctx) (tags : List Tag) :
    List Head → ExpState → ExpState × List Rec
  | [], st => (st, [])
  | h :: rest, st =>
    if h.tail then fastLoop ctx tags rest st
    else
      let br := fastBranchLoop ctx tags h.refName (chainOf h.commit).reverse st
      let res := fastLoop ctx tags rest br.1
      (res.1, br.2 ++ res.2)

/-- The emission order of the fast arm, flattened (used to state
hypotheses about the fast loop). -/
def fastHist (heads : List Head) : List CSeq :=
  (heads.enum.filter (fun p => !p.2.tail)).flatMap (fun p =>
    (chainOf p.2.commit).reverse.map (fun c => ⟨c, p.1, p.2.refName⟩))

/-- The branch resets written after the main loop: one per head whose
display date clears the cutoff, referencing `markmap[head->serial]`. -/
def branchResets (ctx : Ctx) :
    List Head → ExpState → ExpState × List Rec
  | [], st => (st, [])
  | h :: rest, st =>
    let dr := ddArg st ctx.opts.force_dates (scLookup st h.commit.cid)
    if displayDate ctx h.commit dr.1 > ctx.opts.fromtime then
      let mr := mmRead dr.2 (scLookup dr.2 h.commit.cid)
      let res := branchResets ctx rest mr.2
      (res.1, Rec.branchReset (ctx.opts.branchPfx ++ h.refName) mr.1 :: res.2)
    else
      let res := branchResets ctx rest dr.2
      (res.1, res.2)

/-- The generation phase: each content-generator callback
(`export_blob`) assigns the next serial to its revision; in fast mode
it also allocates the next mark and emits the blob inline; in canonical
mode the blob is spilled to disk instead.  The third component is the
serial assignment, latest first. -/
def generatePhase (mode : RMode) :
    List FileRev → ExpState → ExpState × List Rec × List (Nat × Nat)
  | [], st => (st, [], [])
  | fr :: rest, st =>
    let seq2 := st.seqno + 1
    let st1 := { st with seqno := seq2 }
    if mode = RMode.fast then
      let stw := mmWrite st1 seq2 (st1.mark + 1)
      let st2 := { stw with mark := st1.mark + 1 }
      let res := generatePhase mode rest st2
      (res.1, Rec.blob st2.mark :: res.2.1, res.2.2 ++ [(fr.fid, seq2)])
    else
      let res := generatePhase mode rest st1
      (res.1, res.2.1, res.2.2 ++ [(fr.fid, seq2)])

/-- The forest handed to `export_commits`: branch heads, the global tag
list, the concatenated generator callback sequence, and the total
master byte volume. -/
structure Forest where
  heads : List Head
  tags : List Tag
  genSeq : List FileRev
  textsize : Nat

/-- The initial export state (counters zeroed, `markmap` zeroed by
`calloc`, `need_ignores` true). -/
def initState : ExpState := ⟨0, 0, [], [], [], true, []⟩

/-- `export_commits`: resolve the reporting mode, run the generation
phase, run the fast or canonical main loop, write the branch resets,
and close the stream with `done`. -/
def export_commits (ab : Atom → Bloom) (rcsEpoch : Int) (ctw : Nat)
    (f : Forest) (opts0 : Opts) : ExpState × List Rec :=
  let mode := resolveMode opts0.fromtime opts0.reportmode f.textsize
  let opts := { opts0 with reportmode := mode }
  let gen := generatePhase mode f.genSeq initState
  let ctx : Ctx :=
    { ab := ab,
      serialOfRev := fun fid => ((gen.2.2.lookup fid).getD 0),
      genFids := f.genSeq.map FileRev.fid,
      rcsEpoch := rcsEpoch, ctw := ctw, opts := opts }
  let main :=
    if mode = RMode.fast then fastLoop ctx f.tags f.heads gen.1
    else canonLoop ctx f.tags (canonHist f.heads) [] gen.1
  let br := branchResets ctx f.heads main.1
  (br.1, gen.2.1 ++ main.2 ++ br.2 ++ [Rec.done])

/-- The context built by `export_commits` when the resolved mode is
canonical (which `fromtime > 0` forces). -/
def canonCtx (ab : Atom → Bloom) (rcsEpoch : Int) (ctw : Nat)
    (f : Forest) (opts0 : Opts) : Ctx :=
  { ab := ab,
    serialOfRev := fun fid =>
      (((generatePhase RMode.canonical f.genSeq initState).2.2.lookup
        fid).getD 0),
    genFids := f.genSeq.map FileRev.fid,
    rcsEpoch := rcsEpoch, ctw := ctw,
    opts := { opts0 with reportmode := RMode.canonical } }

/-- The context built by `export_commits` when the resolved mode is
fast. -/
def fastCtx (ab : Atom → Bloom) (rcsEpoch : Int) (ctw : Nat)
    (f : Forest) (opts0 : Opts) : Ctx :=
  { ab := ab,
    serialOfRev := fun fid =>
      (((generatePhase RMode.fast f.genSeq initState).2.2.lookup
        fid).getD 0),
    genFids := f.genSeq.map FileRev.fid,
    rcsEpoch := rcsEpoch, ctw := ctw,
    opts := { opts0 with reportmode := RMode.fast } }

/-- Marks referenced by a record, in the scope of the mark-definedness
claim: the `from :N` line of a commit record and the `:N` marks of its
`M` fileop lines. -/
def refsOfRec : Rec → List Nat
  | Rec.commitRec _ _ _ fm ops =>
    (match fm with
     | some n => [n]
     | none => []) ++
      ops.filterMap (fun op =>
        match op with
        | FOp.M _ m _ => some m
        | _ => none)
  | _ => []

/-- Marks defined by a record (`mark :N` lines of blob and commit
records). -/
def defsOfRec : Rec → List Nat
  | Rec.blob m => [m]
  | Rec.commitRec _ _ m _ _ => [m]
  | _ => []

/-- All marks defined by a record list. -/
def defsOfList (l : List Rec) : List Nat := l.flatMap defsOfRec

/-- Mark definedness of a stream suffix, given the marks already
defined: every reference of every record is covered by a definition
written strictly earlier. -/
def streamOKFrom (defs : List Nat) : List Rec → Bool
  | [] => true
  | r :: rs =>
    (refsOfRec r).all (fun n => defs.contains n) &&
      streamOKFrom (defs ++ defsOfRec r) rs

/-- Mark definedness of a whole stream. -/
def streamOK (l : List Rec) : Bool := streamOKFrom [] l

/-- Topological consistency of an emission order relative to the set of
already-exported commit identities: every commit's parent was exported
(serial-numbered) strictly earlier. -/
def topFromB (seen : List Nat) : List CSeq → Bool
  | [] => true
  | e :: rest =>
    (match e.commit.parentC with
     | none => true
     | some p => seen.contains p.cid) &&
      topFromB (seen ++ [e.commit.cid]) rest

/-- Topological consistency of a raw commit order (the fast loop walks
commits directly, not `commit_seq` entries). -/
def topFromBG (seen : List Nat) : List GitCommit → Bool
  | [] => true
  | c :: rest =>
    (match c.parentC with
     | none => true
     | some p => seen.contains p.cid) &&
      topFromBG (seen ++ [c.cid]) rest

/-- Freshness of a raw commit order: no commit identity exported
twice. -/
def freshCidsG (seen : List Nat) : List GitCommit → Bool
  | [] => true
  | c :: rest =>
    !seen.contains c.cid && freshCidsG (seen ++ [c.cid]) rest

/-- The commits the fast main loop exports, in order: each non-tail
branch's chain walked root to head. -/
def fastOrder (heads : List Head) : List GitCommit :=
  (heads.filter (fun h => !h.tail)).flatMap
    (fun h => (chainOf h.commit).reverse)

/-- Record classifiers. -/
def isCommitOf (cid : Nat) : Rec → Bool
  | Rec.commitRec c _ _ _ _ => c = cid
  | _ => false

def isCommitRec : Rec → Bool
  | Rec.commitRec _ _ _ _ _ => true
  | _ => false

def isBranchReset : Rec → Bool
  | Rec.branchReset _ _ => true
  | _ => false

def isAnchor : Rec → Bool
  | Rec.anchor _ => true
  | _ => false

def isTagReset : Rec → Bool
  | Rec.tagReset _ _ _ => true
  | _ => false

/-- Every tag reset is preceded by the commit record of its target
(`seen` collects the commit identities already written). -/
def tagsPlacedFrom (seen : List Nat) : List Rec → Bool
  | [] => true
  | Rec.tagReset _ cid _ :: rs => seen.contains cid && tagsPlacedFrom seen rs
  | Rec.commitRec cid _ _ _ _ :: rs => tagsPlacedFrom (seen ++ [cid]) rs
  | _ :: rs => tagsPlacedFrom seen rs

/-- The fileop lines of a record (empty for non-commit records). -/
def opsOfRec : Rec → List FOp
  | Rec.commitRec _ _ _ _ ops => ops
  | _ => []

/-- Adjacent-pairs comparator order of a fileop line list (the order the
claim about fileop sorting asserts for emitted commit records). -/
def fopOrdered : List FOp → Bool
  | [] => true
  | [_] => true
  | a :: b :: rest =>
    (path_deep_compare a.fpath b.fpath ≠ Ordering.gt) &&
      fopOrdered (b :: rest)

/-- Mode discipline of an emitted fileop line: every `M <mode> :<N>`
line carries 0644 or 0755 (printed with a literal `100` prefix); the
synthetic inline op prints the constant 100644. -/
def fopModeOK : FOp → Prop
  | FOp.M mode _ _ => mode = 0o644 ∨ mode = 0o755
  | _ => True

/-- The shape of the fileop line list of an emitted commit record: a
comparator-sorted base (the operations built from the commit delta and
sorted by `fileop_sort`) followed by the optional synthetic inline
`.gitignore` op, with every `M` line's mode in {0644, 0755}. -/
def OpsShape (ops : List FOp) : Prop :=
  ∃ base tailI, ops = base ++ tailI ∧
    List.Pairwise
      (fun a b => path_deep_compare a.fpath b.fpath ≠ Ordering.gt) base ∧
    (tailI = [] ∨ tailI = [FOp.Minline [gitignoreStr]]) ∧
    (∀ op ∈ ops, fopModeOK op)

/-- The commit identities of the commit records of a stream segment. -/
def cidsOfRecs (l : List Rec) : List Nat :=
  l.filterMap (fun r =>
    match r with
    | Rec.commitRec cid _ _ _ _ => some cid
    | _ => none)

/-- The well-formedness of the serial assignment produced by the
generation phase: every generated revision has a serial in `[1, R]`,
distinct revisions distinct serials.  This is exactly what one callback
per revision (the precondition of the bounds claim) gives. -/
def SerOK (ctx : Ctx) (R : Nat) : Prop :=
  (∀ fid ∈ ctx.genFids, 1 ≤ ctx.serialOfRev fid ∧ ctx.serialOfRev fid ≤ R) ∧
  (∀ a ∈ ctx.genFids, ∀ b ∈ ctx.genFids,
    ctx.serialOfRev a = ctx.serialOfRev b → a = b)

/-- The mark-definedness invariant carried through the export loops:
`R` generated revisions so far numbered, every emitted revision's
markmap slot holds a mark already defined in the stream (`defs`), in
fast mode every generated revision's slot does, and every exported
commit's serial is a commit slot (above `R`, at most `seqno`) holding a
defined mark. -/
def MInv (ctx : Ctx) (R : Nat) (st : ExpState) (defs : List Nat) : Prop :=
  (R ≤ st.seqno) ∧
  (∀ fid ∈ st.emitted,
    fid ∈ ctx.genFids ∧ mmLookup st (ctx.serialOfRev fid) ∈ defs) ∧
  (ctx.opts.reportmode = RMode.fast →
    ∀ fid ∈ ctx.genFids, mmLookup st (ctx.serialOfRev fid) ∈ defs) ∧
  (∀ cid ∈ st.serialC.map Prod.fst,
    R < scLookup st cid ∧ scLookup st cid ≤ st.seqno ∧
    mmLookup st (scLookup st cid) ∈ defs)

/-- Freshness of the commit identities of an emission order relative to
the already-exported ones: no identity is exported twice. -/
def freshCids (seen : List Nat) : List CSeq → Bool
  | [] => true
  | e :: rest =>
    !seen.contains e.commit.cid && freshCids (seen ++ [e.commit.cid]) rest

/-- Bounds discipline of the markmap access trace: every index is
non-zero and within the allocated extent. -/
def accessesOK (bound : Nat) (l : List (Bool × Nat)) : Bool :=
  l.all (fun a => 1 ≤ a.2 && a.2 ≤ bound)

/-- The bounds invariant carried through the export for the markmap
access-discipline claim: every assigned commit serial lies in
`[1, seqno]`, the serial counter never exceeds the allocated bound, and
every access logged so far hit a slot in `[1, bound]`. -/
def BInv (bound : Nat) (st : ExpState) : Prop :=
  (∀ cid ∈ st.serialC.map Prod.fst,
    1 ≤ scLookup st cid ∧ scLookup st cid ≤ st.seqno) ∧
  st.seqno ≤ bound ∧
  accessesOK bound st.accesses = true

/-- The emission order of a run: the flattened branch order in fast
mode, the canonical history otherwise. -/
def emissionHist (f : Forest) (opts0 : Opts) : List CSeq :=
  if resolveMode opts0.fromtime opts0.reportmode f.textsize = RMode.fast
  then fastHist f.heads
  else canonHist f.heads

/-- Concrete fixtures used by counterexamples and witnesses below: a
two-commit, one-branch repository with one file name shared by both
commits and a tag on the root commit. -/
def fxF1 : FileRev := ⟨1, 1, 0o644, [("f" : String)]⟩

def fxF2 : FileRev := ⟨2, 1, 0o755, [("f" : String)]⟩

def fxP : GitCommit :=
  GitCommit.node 1 none 10 ("au" : String) ("lg" : String) ⟨[1]⟩ [[fxF1]] false

def fxC : GitCommit :=
  GitCommit.node 2 (some fxP) 20 ("au" : String) ("lg2" : String) ⟨[1]⟩
    [[fxF2]] false

def fxHead : Head := ⟨("master" : String), fxC, false⟩

def fxForest : Forest := ⟨[fxHead], [⟨("v1" : String), 1⟩], [fxF1, fxF2], 10⟩

def fxAB : Atom → Bloom := fun _ => ⟨[1]⟩

/-- Options: adaptive small repository, no forced dates, no cutoff. -/
def fxOpts : Opts := ⟨RMode.adaptive, ("refs/heads/" : String), false, 0⟩

/-- The same options with the incremental cutoff `fromtime = 10`,
equal to the root commit's display date. -/
def fxOptsInc : Opts := ⟨RMode.adaptive, ("refs/heads/" : String), false, 10⟩

/-- The same options with the incremental cutoff `fromtime = 15`,
strictly between the two commits' display dates. -/
def fxOptsInc2 : Opts := ⟨RMode.adaptive, ("refs/heads/" : String), false, 15⟩

/-- The plain canonical run over the fixture repository. -/
def fxRun : List Rec := (export_commits fxAB 0 300 fxForest fxOpts).2

/-- The incremental canonical run (cutoff 10) over the fixture
repository. -/
def fxRunInc : List Rec := (export_commits fxAB 0 300 fxForest fxOptsInc).2

/-- A single-commit repository whose only file has mode 0010
(group-execute only). -/
def fxG : FileRev := ⟨1, 1, 0o010, [("g" : String)]⟩

def fxPG : GitCommit :=
  GitCommit.node 1 none 10 ("au" : String) ("lg" : String) ⟨[1]⟩ [[fxG]] false

def fxForestG : Forest := ⟨[⟨("master" : String), fxPG, false⟩], [], [fxG], 10⟩

def fxRunG : List Rec := (export_commits fxAB 0 300 fxForestG fxOpts).2

/-! Theorems.  First the order-theoretic facts about the path
comparator, then the claims C1..C10 with their witnesses and
counterexamples. -/

theorem charLt_irrefl (a : Char) : charLt a a = false := by
  simp [charLt]

theorem char_eq_of_not_lt {a b : Char} (h1 : charLt a b = false)
    (h2 : charLt b a = false) : a = b := by
  simp only [charLt, decide_eq_false_iff_not, not_lt] at h1 h2
  have h : a.toNat = b.toNat := le_antisymm h2 h1
  rw [← Char.ofNat_toNat a, ← Char.ofNat_toNat b, h]

theorem charsCompare_eq_iff : ∀ a b : List Char,
    charsCompare a b = Ordering.eq ↔ a = b := by
  intro a
  induction a with
  | nil =>
    intro b
    cases b <;> simp [charsCompare]
  | cons x xs ih =>
    intro b
    cases b with
    | nil => simp [charsCompare]
    | cons y ys =>
      by_cases h1 : charLt x y = true
      · have hxy : ¬ (x = y) := fun he => by
          rw [he, charLt_irrefl] at h1
          cases h1
        simp [charsCompare, h1, hxy]
      · by_cases h2 : charLt y x = true
        · have hxy : ¬ (x = y) := fun he => by
            rw [he, charLt_irrefl] at h2
            cases h2
          simp [charsCompare, h1, h2, hxy]
        · have hxy : x = y := char_eq_of_not_lt
            (Bool.eq_false_iff.mpr h1) (Bool.eq_false_iff.mpr h2)
          subst hxy
          simp [charsCompare, h1, ih]

theorem charsCompare_swap : ∀ a b : List Char,
    charsCompare b a = (charsCompare a b).swap := by
  intro a
  induction a with
  | nil =>
    intro b
    cases b <;> rfl
  | cons x xs ih =>
    intro b
    cases b with
    | nil => rfl
    | cons y ys =>
      by_cases h1 : charLt x y = true
      · have h2 : charLt y x = false := by
          simp only [charLt, decide_eq_true_eq] at h1
          simp only [charLt, decide_eq_false_iff_not, not_lt]
          omega
        simp [charsCompare, h1, h2, Ordering.swap]
      · by_cases h2 : charLt y x = true
        · simp [charsCompare, h1, h2, Ordering.swap]
        · simp [charsCompare, h1, h2, ih, Ordering.swap]

theorem charsCompare_lt_trans : ∀ {a b c : List Char},
    charsCompare a b = Ordering.lt → charsCompare b c = Ordering.lt →
    charsCompare a c = Ordering.lt := by
  intro a
  induction a with
  | nil =>
    intro b c hab hbc
    cases c with
    | nil =>
      cases b with
      | nil => exact hab
      | cons y ys => simp [charsCompare] at hbc
    | cons z zs => simp [charsCompare]
  | cons x xs ih =>
    intro b c hab hbc
    cases b with
    | nil => simp [charsCompare] at hab
    | cons y ys =>
      cases c with
      | nil => simp [charsCompare] at hbc
      | cons z zs =>
        simp only [charsCompare] at hab hbc ⊢
        by_cases h1 : charLt x y = true
        · by_cases h2 : charLt y z = true
          · have h3 : charLt x z = true := by
              simp only [charLt, decide_eq_true_eq] at h1 h2 ⊢
              omega
            simp [h3]
          · by_cases h3 : charLt z y = true
            · simp [h2, h3] at hbc
            · have hyz : y = z := char_eq_of_not_lt
                (Bool.eq_false_iff.mpr h2) (Bool.eq_false_iff.mpr h3)
              subst hyz
              simp [h1]
        · by_cases h2 : charLt y x = true
          · simp [h1, h2] at hab
          · have hxy : x = y := char_eq_of_not_lt
              (Bool.eq_false_iff.mpr h1) (Bool.eq_false_iff.mpr h2)
            subst hxy
            simp only [charLt_irrefl, Bool.false_eq_true, if_false] at hab hbc ⊢
            by_cases h3 : charLt x z = true
            · simp [h3]
            · by_cases h4 : charLt z x = true
              · simp [h3, h4] at hbc
              · simp only [h3, h4, Bool.false_eq_true, if_false] at hbc ⊢
                exact ih hab hbc

theorem segCompare_eq_iff (a b : String) :
    segCompare a b = Ordering.eq ↔ a = b := by
  unfold segCompare
  rw [charsCompare_eq_iff]
  exact ⟨fun h => String.ext h, fun h => by rw [h]⟩

theorem segCompare_refl (a : String) : segCompare a a = Ordering.eq :=
  (segCompare_eq_iff a a).mpr rfl

theorem segCompare_swap (a b : String) :
    segCompare b a = (segCompare a b).swap :=
  charsCompare_swap a.data b.data

theorem segCompare_lt_trans {a b c : String}
    (hab : segCompare a b = Ordering.lt)
    (hbc : segCompare b c = Ordering.lt) : segCompare a c = Ordering.lt :=
  charsCompare_lt_trans hab hbc

theorem path_deep_compare_eq_iff (a b : Path) :
    path_deep_compare a b = Ordering.eq ↔ a = b := by
  induction a generalizing b with
  | nil =>
    cases b with
    | nil => simp [path_deep_compare]
    | cons y ys => simp [path_deep_compare]
  | cons x xs ih =>
    cases b with
    | nil => simp [path_deep_compare]
    | cons y ys =>
      cases h : segCompare x y with
      | lt =>
        have hxy : ¬ (x = y) := fun he => by
          rw [he, segCompare_refl] at h
          cases h
        simp [path_deep_compare, h, hxy]
      | gt =>
        have hxy : ¬ (x = y) := fun he => by
          rw [he, segCompare_refl] at h
          cases h
        simp [path_deep_compare, h, hxy]
      | eq =>
        have hxy : x = y := (segCompare_eq_iff x y).mp h
        subst hxy
        simp [path_deep_compare, h, ih]

theorem path_deep_compare_swap (a b : Path) :
    path_deep_compare b a = (path_deep_compare a b).swap := by
  induction a generalizing b with
  | nil =>
    cases b with
    | nil => rfl
    | cons y ys => rfl
  | cons x xs ih =>
    cases b with
    | nil => rfl
    | cons y ys =>
      have hsw := segCompare_swap x y
      cases h : segCompare x y with
      | lt =>
        rw [h] at hsw
        simp [path_deep_compare, h, hsw, Ordering.swap]
      | gt =>
        rw [h] at hsw
        simp [path_deep_compare, h, hsw, Ordering.swap]
      | eq =>
        rw [h] at hsw
        simp [path_deep_compare, h, hsw, ih, Ordering.swap]

theorem path_deep_compare_lt_trans {a b c : Path}
    (hab : path_deep_compare a b = Ordering.lt)
    (hbc : path_deep_compare b c = Ordering.lt) :
    path_deep_compare a c = Ordering.lt := by
  induction a generalizing b c with
  | nil =>
    cases b with
    | nil => simp [path_deep_compare] at hab
    | cons y ys => simp [path_deep_compare] at hab
  | cons x xs ih =>
    cases b with
    | nil =>
      cases c with
      | nil => simp [path_deep_compare] at hbc
      | cons z zs => simp [path_deep_compare] at hbc
    | cons y ys =>
      cases c with
      | nil => simp [path_deep_compare]
      | cons z zs =>
        cases h1 : segCompare x y with
        | gt => simp [path_deep_compare, h1] at hab
        | lt =>
          cases h2 : segCompare y z with
          | gt => simp [path_deep_compare, h2] at hbc
          | lt => simp [path_deep_compare, segCompare_lt_trans h1 h2]
          | eq =>
            have hyz : y = z := (segCompare_eq_iff y z).mp h2
            subst hyz
            simp [path_deep_compare, h1]
        | eq =>
          have hxy : x = y := (segCompare_eq_iff x y).mp h1
          subst hxy
          cases h2 : segCompare x z with
          | gt => simp [path_deep_compare, h2] at hbc
          | lt => simp [path_deep_compare, h2]
          | eq =>
            simp only [path_deep_compare, h1] at hab
            simp only [path_deep_compare, h2] at hbc
            simp only [path_deep_compare, h2]
            exact ih hab hbc

theorem path_deep_compare_ne_gt_iff (a b : Path) :
    (path_deep_compare a b ≠ Ordering.gt) ↔
      (path_deep_compare a b = Ordering.lt ∨ a = b) := by
  rw [← path_deep_compare_eq_iff a b]
  cases h : path_deep_compare a b <;> simp

theorem path_deep_compare_le_trans {a b c : Path}
    (hab : path_deep_compare a b ≠ Ordering.gt)
    (hbc : path_deep_compare b c ≠ Ordering.gt) :
    path_deep_compare a c ≠ Ordering.gt := by
  rw [path_deep_compare_ne_gt_iff] at hab hbc ⊢
  rcases hab with hab | rfl
  · rcases hbc with hbc | rfl
    · exact Or.inl (path_deep_compare_lt_trans hab hbc)
    · exact Or.inl hab
  · exact hbc

theorem path_deep_compare_le_total (a b : Path) :
    path_deep_compare a b ≠ Ordering.gt ∨ path_deep_compare b a ≠ Ordering.gt := by
  by_cases h : path_deep_compare a b = Ordering.gt
  · right
    rw [path_deep_compare_swap, h]
    simp [Ordering.swap]
  · exact Or.inl h

/-- A strict directory prefix sorts after the longer path. -/
theorem path_deep_compare_dirchild {pre ext : Path} (h : ext ≠ []) :
    path_deep_compare pre (pre ++ ext) = Ordering.gt := by
  induction pre with
  | nil =>
    cases ext with
    | nil => exact absurd rfl h
    | cons e es => rfl
  | cons x xs ih => simp [path_deep_compare, segCompare_refl, ih]

theorem bopLE_trans (a b c : BOp) (hab : bopLE a b = true)
    (hbc : bopLE b c = true) : bopLE a c = true := by
  simp only [bopLE, ne_eq, decide_eq_true_eq] at hab hbc ⊢
  exact path_deep_compare_le_trans hab hbc

theorem bopLE_total (a b : BOp) : (bopLE a b || bopLE b a) = true := by
  simp only [bopLE, ne_eq, Bool.or_eq_true, decide_eq_true_eq]
  exact path_deep_compare_le_total a.opath b.opath

theorem fileMode_cases (m : Nat) : fileMode m = 0o644 ∨ fileMode m = 0o755 := by
  unfold fileMode
  split <;> simp

theorem blobPass_blobs (ctx : Ctx) (report : Bool) :
    ∀ (ops : List BOp) (st : ExpState),
      ∀ r ∈ (blobPass ctx report ops st).2, ∃ m, r = Rec.blob m := by
  intro ops
  induction ops with
  | nil =>
    intro st r hr
    simp [blobPass] at hr
  | cons op rest ih =>
    intro st r hr
    match op with
    | BOp.D p =>
      exact ih st r (by simpa [blobPass] using hr)
    | BOp.M mode rev path =>
      simp only [blobPass] at hr
      split at hr
      · exact ih st r hr
      · split at hr
        · split at hr
          · simp only [List.mem_cons] at hr
            rcases hr with rfl | hr
            · exact ⟨_, rfl⟩
            · exact ih _ r hr
          · exact ih _ r hr
        · exact ih _ r hr

theorem emitOps_fpaths (ctx : Ctx) :
    ∀ (l : List BOp) (st : ExpState),
      ((emitOps ctx l st).2).map FOp.fpath = l.map BOp.opath := by
  intro l
  induction l with
  | nil =>
    intro st
    simp [emitOps]
  | cons op rest ih =>
    intro st
    match op with
    | BOp.M mode rev path => simp [emitOps, FOp.fpath, BOp.opath, ih]
    | BOp.D path => simp [emitOps, FOp.fpath, BOp.opath, ih]

theorem emitOps_modes (ctx : Ctx) :
    ∀ (l : List BOp) (st : ExpState),
      (∀ b ∈ l, ∀ mode rev p, b = BOp.M mode rev p →
        (mode = 0o644 ∨ mode = 0o755)) →
      ∀ op ∈ (emitOps ctx l st).2, fopModeOK op := by
  intro l
  induction l with
  | nil =>
    intro st _ op hop
    simp [emitOps] at hop
  | cons b rest ih =>
    intro st hl op hop
    match b with
    | BOp.M mode rev path =>
      simp only [emitOps, List.mem_cons] at hop
      rcases hop with rfl | hop
      · exact hl (BOp.M mode rev path) (by simp) mode rev path rfl
      · exact ih _ (fun b hb => hl b (by simp [hb])) op hop
    | BOp.D path =>
      simp only [emitOps, List.mem_cons] at hop
      rcases hop with rfl | hop
      · trivial
      · exact ih _ (fun b hb => hl b (by simp [hb])) op hop

theorem opsPre_modes (ctx : Ctx) (c : GitCommit) :
    ∀ b ∈ opsPreOf ctx c, ∀ mode rev p, b = BOp.M mode rev p →
      mode = 0o644 ∨ mode = 0o755 := by
  intro b hb mode rev p he
  subst he
  rcases List.mem_append.mp hb with h | h
  · simp only [buildMops, List.mem_filterMap] at h
    obtain ⟨pr, _, hf⟩ := h
    split at hf
    · simp only [Option.some.injEq, BOp.M.injEq] at hf
      rcases hf with ⟨hm, _, _⟩
      rw [← hm]
      exact fileMode_cases _
    · simp at hf
  · simp only [buildDops, List.mem_filterMap] at h
    obtain ⟨pr, _, hf⟩ := h
    split at hf
    · simp at hf
    · simp at hf

theorem insertSorted_mem {α : Type} (le : α → α → Bool) (x : α) :
    ∀ (l : List α) (a : α), a ∈ insertSorted le x l ↔ a = x ∨ a ∈ l := by
  intro l
  induction l with
  | nil =>
    intro a
    simp [insertSorted]
  | cons y ys ih =>
    intro a
    by_cases hxy : le x y = true
    · simp only [insertSorted]
      rw [if_pos hxy]
      simp only [List.mem_cons]
    · simp only [insertSorted]
      rw [if_neg hxy]
      simp only [List.mem_cons, ih]
      tauto

theorem sortByB_mem {α : Type} (le : α → α → Bool) :
    ∀ (l : List α) (a : α), a ∈ sortByB le l ↔ a ∈ l := by
  intro l
  induction l with
  | nil =>
    intro a
    simp [sortByB]
  | cons x xs ih =>
    intro a
    simp only [sortByB, insertSorted_mem, ih, List.mem_cons]

theorem insertSorted_pairwise {α : Type} (le : α → α → Bool)
    (htrans : ∀ a b c, le a b = true → le b c = true → le a c = true)
    (htot : ∀ a b, (le a b || le b a) = true) (x : α) :
    ∀ l, List.Pairwise (fun a b => le a b = true) l →
      List.Pairwise (fun a b => le a b = true) (insertSorted le x l) := by
  intro l
  induction l with
  | nil =>
    intro _
    simp [insertSorted]
  | cons y ys ih =>
    intro hp
    rcases List.pairwise_cons.mp hp with ⟨hy, hys⟩
    by_cases hxy : le x y = true
    · simp only [insertSorted]
      rw [if_pos hxy]
      refine List.pairwise_cons.mpr ⟨?_, hp⟩
      intro b hb
      rcases List.mem_cons.mp hb with rfl | hb
      · exact hxy
      · exact htrans x y b hxy (hy b hb)
    · have hyx : le y x = true := by
        rcases Bool.or_eq_true_iff.mp (htot x y) with h | h
        · exact absurd h hxy
        · exact h
      simp only [insertSorted]
      rw [if_neg hxy]
      refine List.pairwise_cons.mpr ⟨?_, ih hys⟩
      intro b hb
      rcases (insertSorted_mem le x ys b).mp hb with rfl | hb
      · exact hyx
      · exact hy b hb

theorem sortByB_pairwise {α : Type} (le : α → α → Bool)
    (htrans : ∀ a b c, le a b = true → le b c = true → le a c = true)
    (htot : ∀ a b, (le a b || le b a) = true) :
    ∀ l, List.Pairwise (fun a b => le a b = true) (sortByB le l) := by
  intro l
  induction l with
  | nil => simp [sortByB]
  | cons x xs ih => exact insertSorted_pairwise le htrans htot x _ ih

theorem mergeSort_bops_pairwise (l : List BOp) :
    List.Pairwise
      (fun a b => path_deep_compare a.opath b.opath ≠ Ordering.gt)
      (sortByB bopLE l) := by
  have h := sortByB_pairwise bopLE bopLE_trans bopLE_total l
  exact h.imp (fun hab => by simpa [bopLE] using hab)

theorem emitOps_pairwise (ctx : Ctx) (l : List BOp) (st : ExpState)
    (hl : List.Pairwise
      (fun a b => path_deep_compare a.opath b.opath ≠ Ordering.gt) l) :
    List.Pairwise
      (fun a b => path_deep_compare a.fpath b.fpath ≠ Ordering.gt)
      (emitOps ctx l st).2 := by
  have h1 : (l.map BOp.opath).Pairwise
      (fun a b => path_deep_compare a b ≠ Ordering.gt) :=
    (List.pairwise_map).mpr hl
  have h2 : (((emitOps ctx l st).2).map FOp.fpath).Pairwise
      (fun a b => path_deep_compare a b ≠ Ordering.gt) := by
    rw [emitOps_fpaths]
    exact h1
  exact (List.pairwise_map).mp h2

theorem emitOps_opsShape (ctx : Ctx) (c : GitCommit) (st2 : ExpState)
    (tailI : List FOp)
    (htail : tailI = [] ∨ tailI = [FOp.Minline [gitignoreStr]]) :
    OpsShape ((emitOps ctx (sortByB bopLE (opsPreOf ctx c)) st2).2 ++ tailI) := by
  refine ⟨(emitOps ctx (sortByB bopLE (opsPreOf ctx c)) st2).2, tailI,
    rfl, ?_, htail, ?_⟩
  · exact emitOps_pairwise ctx _ st2 (mergeSort_bops_pairwise _)
  · intro op hop
    rcases List.mem_append.mp hop with h | h
    · refine emitOps_modes ctx _ st2 ?_ op h
      intro b hb mode rev p he
      exact opsPre_modes ctx c b ((sortByB_mem bopLE _ b).mp hb) mode rev p he
    · rcases htail with rfl | rfl
      · simp at h
      · simp only [List.mem_singleton] at h
        subst h
        trivial

theorem commitRecordOf_shape (ctx : Ctx) (c : GitCommit) (branch : String)
    (st : ExpState) :
    ∃ mk fm ops, (commitRecordOf ctx c branch st).2
      = Rec.commitRec c.cid (ctx.opts.branchPfx ++ branch) mk fm ops ∧
      OpsShape ops := by
  cases hpc : c.parentC with
  | none =>
    simp only [commitRecordOf, hpc]
    split
    · exact ⟨_, _, _, rfl, emitOps_opsShape ctx c _ _ (Or.inr rfl)⟩
    · exact ⟨_, _, _, rfl,
        by simpa using emitOps_opsShape ctx c _ [] (Or.inl rfl)⟩
  | some p =>
    simp only [commitRecordOf, hpc]
    split
    · exact ⟨_, _, _, rfl, emitOps_opsShape ctx c _ _ (Or.inr rfl)⟩
    · exact ⟨_, _, _, rfl,
        by simpa using emitOps_opsShape ctx c _ [] (Or.inl rfl)⟩

theorem export_commit_out_cases (ctx : Ctx) (c : GitCommit) (branch : String)
    (report : Bool) (st : ExpState) :
    ∀ r ∈ (export_commit ctx c branch report st).2,
      (∃ m, r = Rec.blob m) ∨
      (∃ mk fm ops,
        r = Rec.commitRec c.cid (ctx.opts.branchPfx ++ branch) mk fm ops ∧
        OpsShape ops) := by
  intro r hr
  cases report with
  | false =>
    simp only [export_commit, Bool.false_eq_true, if_false] at hr
    exact Or.inl (blobPass_blobs ctx false _ st r hr)
  | true =>
    simp only [export_commit, if_true] at hr
    rcases List.mem_append.mp hr with h | h
    · exact Or.inl (blobPass_blobs ctx true _ st r h)
    · simp only [List.mem_singleton] at h
      subst h
      obtain ⟨mk, fm, ops, heq, hshape⟩ :=
        commitRecordOf_shape ctx c branch (commitSerialize c
          (blobPass ctx true (opsPreOf ctx c) st).1)
      rw [heq]
      exact Or.inr ⟨mk, fm, ops, rfl, hshape⟩

theorem canonDecide_anchors (ctx : Ctx) (e : CSeq) (realized : List Nat)
    (st : ExpState) :
    ∀ r ∈ (canonDecide ctx e realized st).2.2.1,
      r = Rec.anchor (ctx.opts.branchPfx ++ e.refName) := by
  intro r hr
  unfold canonDecide at hr
  split at hr
  · split at hr
    · simp at hr
    · split at hr
      · simp at hr
      · split at hr
        · split at hr
          · simp only [List.mem_singleton] at hr
            exact hr
          · simp at hr
        · simp at hr
  · simp at hr

theorem tagEmit_tags (ctx : Ctx) (c : GitCommit) :
    ∀ (tags : List Tag) (st : ExpState),
      ∀ r ∈ (tagEmit ctx c tags st).2, ∃ nm m, r = Rec.tagReset nm c.cid m := by
  intro tags
  induction tags with
  | nil =>
    intro st r hr
    simp [tagEmit] at hr
  | cons t rest ih =>
    intro st r hr
    by_cases htc : t.cid = c.cid
    · simp only [tagEmit, htc, if_pos] at hr
      split at hr
      · simp only [List.mem_cons] at hr
        rcases hr with rfl | hr
        · exact ⟨t.name, _, rfl⟩
        · exact ih _ r hr
      · exact ih _ r hr
    · simp only [tagEmit, htc, if_false] at hr
      exact ih _ r hr

theorem branchResets_recs (ctx : Ctx) :
    ∀ (heads : List Head) (st : ExpState),
      ∀ r ∈ (branchResets ctx heads st).2, ∃ s m, r = Rec.branchReset s m := by
  intro heads
  induction heads with
  | nil =>
    intro st r hr
    simp [branchResets] at hr
  | cons h rest ih =>
    intro st r hr
    simp only [branchResets] at hr
    split at hr
    · simp only [List.mem_cons] at hr
      rcases hr with rfl | hr
      · exact ⟨_, _, rfl⟩
      · exact ih _ r hr
    · exact ih _ r hr

theorem generatePhase_recs (mode : RMode) :
    ∀ (l : List FileRev) (st : ExpState),
      ∀ r ∈ (generatePhase mode l st).2.1, ∃ m, r = Rec.blob m := by
  intro l
  induction l with
  | nil =>
    intro st r hr
    simp [generatePhase] at hr
  | cons fr rest ih =>
    intro st r hr
    simp only [generatePhase] at hr
    split at hr
    · simp only [List.mem_cons] at hr
      rcases hr with rfl | hr
      · exact ⟨_, rfl⟩
      · exact ih _ r hr
    · exact ih _ r hr

theorem canonLoop_pred (ctx : Ctx) (tags : List Tag) (P : Rec → Prop)
    (hanchor : ∀ s, P (Rec.anchor s))
    (htag : ∀ nm cid m, P (Rec.tagReset nm cid m))
    (hec : ∀ c branch report st2,
      ∀ r ∈ (export_commit ctx c branch report st2).2, P r) :
    ∀ (entries : List CSeq) (realized : List Nat) (st : ExpState),
      ∀ r ∈ (canonLoop ctx tags entries realized st).2, P r := by
  intro entries
  induction entries with
  | nil =>
    intro realized st r hr
    simp [canonLoop] at hr
  | cons e rest ih =>
    intro realized st r hr
    simp only [canonLoop, List.append_assoc, List.mem_append] at hr
    rcases hr with hr | hr | hr | hr
    · rw [canonDecide_anchors ctx e realized st r hr]
      exact hanchor _
    · exact hec _ _ _ _ r hr
    · obtain ⟨nm, m, rfl⟩ := tagEmit_tags ctx e.commit tags _ r hr
      exact htag _ _ _
    · exact ih _ _ r hr

theorem fastBranchLoop_pred (ctx : Ctx) (tags : List Tag) (refName : String)
    (P : Rec → Prop)
    (htag : ∀ nm cid m, P (Rec.tagReset nm cid m))
    (hec : ∀ c branch report st2,
      ∀ r ∈ (export_commit ctx c branch report st2).2, P r) :
    ∀ (chain : List GitCommit) (st : ExpState),
      ∀ r ∈ (fastBranchLoop ctx tags refName chain st).2, P r := by
  intro chain
  induction chain with
  | nil =>
    intro st r hr
    simp [fastBranchLoop] at hr
  | cons c rest ih =>
    intro st r hr
    simp only [fastBranchLoop, List.append_assoc, List.mem_append] at hr
    rcases hr with hr | hr | hr
    · exact hec _ _ _ _ r hr
    · obtain ⟨nm, m, rfl⟩ := tagEmit_tags ctx c tags _ r hr
      exact htag _ _ _
    · exact ih _ r hr

theorem fastLoop_pred (ctx : Ctx) (tags : List Tag) (P : Rec → Prop)
    (htag : ∀ nm cid m, P (Rec.tagReset nm cid m))
    (hec : ∀ c branch report st2,
      ∀ r ∈ (export_commit ctx c branch report st2).2, P r) :
    ∀ (heads : List Head) (st : ExpState),
      ∀ r ∈ (fastLoop ctx tags heads st).2, P r := by
  intro heads
  induction heads with
  | nil =>
    intro st r hr
    simp [fastLoop] at hr
  | cons h rest ih =>
    intro st r hr
    simp only [fastLoop] at hr
    split at hr
    · exact ih _ r hr
    · simp only [List.mem_append] at hr
      rcases hr with hr | hr
      · exact fastBranchLoop_pred ctx tags h.refName P htag hec _ _ r hr
      · exact ih _ r hr

theorem export_commits_pred (P : Rec → Prop)
    (hblob : ∀ m, P (Rec.blob m))
    (hanchor : ∀ s, P (Rec.anchor s))
    (htag : ∀ nm cid m, P (Rec.tagReset nm cid m))
    (hbr : ∀ s m, P (Rec.branchReset s m))
    (hdone : P Rec.done)
    (hec : ∀ ctx c branch report st2,
      ∀ r ∈ (export_commit ctx c branch report st2).2, P r)
    (ab : Atom → Bloom) (rcsEpoch : Int) (ctw : Nat) (f : Forest)
    (opts0 : Opts) :
    ∀ r ∈ (export_commits ab rcsEpoch ctw f opts0).2, P r := by
  intro r hr
  simp only [export_commits, List.append_assoc, List.mem_append,
    List.mem_singleton] at hr
  rcases hr with hr | hr | hr | hr
  · obtain ⟨m, rfl⟩ := generatePhase_recs _ _ _ r hr
    exact hblob _
  · by_cases hm :
      resolveMode opts0.fromtime opts0.reportmode f.textsize = RMode.fast
    · simp only [hm, if_pos] at hr
      exact fastLoop_pred _ _ P htag (hec _) _ _ r hr
    · simp only [hm, if_false] at hr
      exact canonLoop_pred _ _ P hanchor htag (hec _) _ _ _ r hr
  · obtain ⟨s, m, rfl⟩ := branchResets_recs _ _ _ r hr
    exact hbr _ _
  · rw [hr]
    exact hdone

theorem opsShape_nil : OpsShape [] :=
  ⟨[], [], rfl, List.Pairwise.nil, Or.inl rfl, by simp⟩

/-- C5 counterexample: the fixture master has mode 0010 (group-execute
bit set, an execute bit), so the claim demands mode 100755; the emitted
`M` line of the run carries 100644 and no 100755 line exists. -/
theorem export_mode_cex :
    fxG.mode &&& 0o111 ≠ 0 ∧
    opsOfRec (fxRunG.getD 1 Rec.done)
      = [FOp.M 0o644 1 [("g" : String)], FOp.Minline [gitignoreStr]] ∧
    (0o644 : Nat) ≠ 0o755 := by
  refine ⟨?_, ?_, ?_⟩ <;> decide

/-- C5 (amended): an emitted `M` fileop carries mode 0755 exactly when
the source master's owner-execute bit (0100) is set, and 0644 otherwise
(group/other execute bits are ignored); consequently every emitted `M`
fileop line of every run carries a mode in {0644, 0755} (printed with
the literal `100` prefix). -/
theorem export_mode_discipline :
    (∀ m : Nat, (fileMode m = 0o755 ↔ m &&& 0o100 ≠ 0) ∧
      (fileMode m = 0o644 ∨ fileMode m = 0o755)) ∧
    (∀ (ab : Atom → Bloom) (rcsEpoch : Int) (ctw : Nat) (f : Forest)
      (opts0 : Opts), ∀ r ∈ (export_commits ab rcsEpoch ctw f opts0).2,
        ∀ op ∈ opsOfRec r, fopModeOK op) := by
  constructor
  · intro m
    constructor
    · unfold fileMode
      split
      · simp [*]
      · simp only [*]
        simp [*]
    · exact fileMode_cases m
  · intro ab rcsEpoch ctw f opts0
    refine export_commits_pred (fun r => ∀ op ∈ opsOfRec r, fopModeOK op)
      ?_ ?_ ?_ ?_ ?_ ?_ ab rcsEpoch ctw f opts0
    · intro m op hop
      simp [opsOfRec] at hop
    · intro s op hop
      simp [opsOfRec] at hop
    · intro nm cid m op hop
      simp [opsOfRec] at hop
    · intro s m op hop
      simp [opsOfRec] at hop
    · intro op hop
      simp [opsOfRec] at hop
    · intro ctx c branch report st2 r hr op hop
      rcases export_commit_out_cases ctx c branch report st2 r hr with
        ⟨m, rfl⟩ | ⟨mk, fm, ops, rfl, hshape⟩
      · simp [opsOfRec] at hop
      · obtain ⟨base, tailI, heq, hpw, htail, hmodes⟩ := hshape
        simp only [opsOfRec] at hop
        exact hmodes op hop

theorem export_mode_discipline_witness :
    fopModeOK (FOp.M 0o644 1 [("g" : String)]) :=
  export_mode_discipline.2 fxAB 0 300 fxForestG fxOpts
    (fxRunG.getD 1 Rec.done) (List.Mem.tail _ (List.Mem.head _))
    (FOp.M 0o644 1 [("g" : String)]) (List.Mem.head _)

/-- C3 counterexample: in the fixture run the first commit record's
`M` lines are `M ... f` followed by the synthetic
`M 100644 inline .gitignore`; `.gitignore` sorts strictly before `f`
under the path comparator, so the record's fileop lines are not in
comparator order. -/
theorem fileop_sort_cex :
    path_deep_compare [gitignoreStr] [("f" : String)] = Ordering.lt ∧
    (fxRun.getD 1 Rec.done) = Rec.commitRec 1 ("refs/heads/master") 2 none
      [FOp.M 0o644 1 [("f" : String)], FOp.Minline [gitignoreStr]] ∧
    fopOrdered (opsOfRec (fxRun.getD 1 Rec.done)) = false := by
  refine ⟨?_, ?_, ?_⟩ <;> decide

/-- C3 (amended): within every emitted commit record the fileop lines
are the delta operations sorted by the path comparator, followed by the
optional synthetic inline `.gitignore` op which is appended last
regardless of order; under that comparator a strict directory prefix
sorts after any longer extension of it (so `D a/b/c` precedes `D a/b`
precedes `D a` inside the sorted block). -/
theorem fileop_sort_structure :
    (∀ pre ext : Path, ext ≠ [] →
      path_deep_compare pre (pre ++ ext) = Ordering.gt) ∧
    (∀ (ab : Atom → Bloom) (rcsEpoch : Int) (ctw : Nat) (f : Forest)
      (opts0 : Opts), ∀ r ∈ (export_commits ab rcsEpoch ctw f opts0).2,
        OpsShape (opsOfRec r)) := by
  constructor
  · intro pre ext h
    exact path_deep_compare_dirchild h
  · intro ab rcsEpoch ctw f opts0
    refine export_commits_pred (fun r => OpsShape (opsOfRec r))
      ?_ ?_ ?_ ?_ ?_ ?_ ab rcsEpoch ctw f opts0
    · intro m
      exact opsShape_nil
    · intro s
      exact opsShape_nil
    · intro nm cid m
      exact opsShape_nil
    · intro s m
      exact opsShape_nil
    · exact opsShape_nil
    · intro ctx c branch report st2 r hr
      rcases export_commit_out_cases ctx c branch report st2 r hr with
        ⟨m, rfl⟩ | ⟨mk, fm, ops, rfl, hshape⟩
      · exact opsShape_nil
      · simpa [opsOfRec] using hshape

theorem fileop_sort_structure_witness :
    path_deep_compare [("a" : String), ("b" : String)]
        ([("a" : String), ("b" : String)] ++ [("c" : String)])
      = Ordering.gt ∧
    OpsShape (opsOfRec (fxRun.getD 1 Rec.done)) :=
  ⟨fileop_sort_structure.1 _ _ (by decide),
   fileop_sort_structure.2 fxAB 0 300 fxForest fxOpts
     (fxRun.getD 1 Rec.done) (List.Mem.tail _ (List.Mem.head _))⟩

theorem mmLookup_write_self (st : ExpState) (i v : Nat) :
    mmLookup (mmWrite st i v) i = v := by
  simp [mmLookup, mmWrite, List.lookup]

theorem mmLookup_write_other (st : ExpState) (i v : Nat) {j : Nat}
    (h : j ≠ i) : mmLookup (mmWrite st i v) j = mmLookup st j := by
  simp only [mmLookup, mmWrite, List.lookup]
  rw [show (j == i) = false from beq_eq_false_iff_ne.mpr h]

theorem mmLookup_congr {st st2 : ExpState} (h : st.markmap = st2.markmap) :
    ∀ i, mmLookup st i = mmLookup st2 i := by
  intro i
  simp [mmLookup, h]

theorem scLookup_congr {st st2 : ExpState} (h : st.serialC = st2.serialC) :
    ∀ cid, scLookup st cid = scLookup st2 cid := by
  intro cid
  simp [scLookup, h]

theorem lookup_append_some {l1 l2 : List (Nat × Nat)} {a : Nat} {v : Nat}
    (h : l1.lookup a = some v) : (l1 ++ l2).lookup a = some v := by
  induction l1 with
  | nil => simp [List.lookup] at h
  | cons p rest ih =>
    simp only [List.lookup, List.cons_append] at h ⊢
    cases hb : (a == p.1) with
    | true => simpa [hb] using h
    | false =>
      rw [hb] at h
      simpa [hb] using ih h

theorem lookup_append_none {l1 l2 : List (Nat × Nat)} {a : Nat}
    (h : l1.lookup a = none) : (l1 ++ l2).lookup a = l2.lookup a := by
  induction l1 with
  | nil => simp
  | cons p rest ih =>
    simp only [List.lookup, List.cons_append] at h ⊢
    cases hb : (a == p.1) with
    | true => simp [hb] at h
    | false =>
      rw [hb] at h
      simpa [hb] using ih h

theorem streamOKFrom_append (defs : List Nat) (xs ys : List Rec) :
    streamOKFrom defs (xs ++ ys)
      = (streamOKFrom defs xs && streamOKFrom (defs ++ defsOfList xs) ys) := by
  induction xs generalizing defs with
  | nil => simp [streamOKFrom, defsOfList]
  | cons r rs ih =>
    simp only [List.cons_append, streamOKFrom]
    rw [show rs.append ys = rs ++ ys from rfl, ih]
    simp [defsOfList, List.append_assoc, Bool.and_assoc]

theorem streamOKFrom_mono {defs defs2 : List Nat}
    (h : ∀ n ∈ defs, n ∈ defs2) :
    ∀ l : List Rec, streamOKFrom defs l = true → streamOKFrom defs2 l = true := by
  intro l
  induction l generalizing defs defs2 with
  | nil => intro _; rfl
  | cons r rs ih =>
    intro hl
    simp only [streamOKFrom, Bool.and_eq_true, List.all_eq_true] at hl ⊢
    refine ⟨fun n hn => ?_, ?_⟩
    · have h1 := hl.1 n hn
      exact List.elem_eq_true_of_mem (h _ (List.mem_of_elem_eq_true h1))
    · refine ih ?_ hl.2
      intro n hn
      rcases List.mem_append.mp hn with hn | hn
      · exact List.mem_append.mpr (Or.inl (h n hn))
      · exact List.mem_append.mpr (Or.inr hn)

theorem streamOKFrom_noRefs (defs : List Nat) :
    ∀ l : List Rec, (∀ r ∈ l, refsOfRec r = []) →
      streamOKFrom defs l = true := by
  intro l
  induction l generalizing defs with
  | nil => intro _; rfl
  | cons r rs ih =>
    intro h
    simp only [streamOKFrom, Bool.and_eq_true]
    refine ⟨?_, ih _ (fun r2 h2 => h r2 (by simp [h2]))⟩
    rw [h r (by simp)]
    rfl

theorem tagsPlacedFrom_append (seen : List Nat) (xs ys : List Rec) :
    tagsPlacedFrom seen (xs ++ ys)
      = (tagsPlacedFrom seen xs &&
          tagsPlacedFrom (seen ++ cidsOfRecs xs) ys) := by
  induction xs generalizing seen with
  | nil => simp [tagsPlacedFrom, cidsOfRecs]
  | cons r rs ih =>
    match r with
    | Rec.blob m => simp [tagsPlacedFrom, cidsOfRecs, ih]
    | Rec.anchor s => simp [tagsPlacedFrom, cidsOfRecs, ih]
    | Rec.branchReset s m => simp [tagsPlacedFrom, cidsOfRecs, ih]
    | Rec.done => simp [tagsPlacedFrom, cidsOfRecs, ih]
    | Rec.tagReset nm cid m =>
      simp [tagsPlacedFrom, cidsOfRecs, ih, Bool.and_assoc]
    | Rec.commitRec cid br mk fm ops =>
      simp [tagsPlacedFrom, cidsOfRecs, ih, List.append_assoc]

theorem tagsPlacedFrom_mono {seen seen2 : List Nat}
    (h : ∀ n ∈ seen, n ∈ seen2) :
    ∀ l : List Rec,
      tagsPlacedFrom seen l = true → tagsPlacedFrom seen2 l = true := by
  intro l
  induction l generalizing seen seen2 with
  | nil => intro _; rfl
  | cons r rs ih =>
    intro hl
    match r with
    | Rec.blob m => exact ih h hl
    | Rec.anchor s => exact ih h hl
    | Rec.branchReset s m => exact ih h hl
    | Rec.done => exact ih h hl
    | Rec.tagReset nm cid m =>
      simp only [tagsPlacedFrom, Bool.and_eq_true] at hl ⊢
      refine ⟨?_, ih h hl.2⟩
      have := List.mem_of_elem_eq_true hl.1
      exact List.elem_eq_true_of_mem (h _ this)
    | Rec.commitRec cid br mk fm ops =>
      simp only [tagsPlacedFrom] at hl ⊢
      refine ih ?_ hl
      intro n hn
      rcases List.mem_append.mp hn with hn | hn
      · exact List.mem_append.mpr (Or.inl (h n hn))
      · exact List.mem_append.mpr (Or.inr hn)

theorem tagsPlacedFrom_noTags (seen : List Nat) :
    ∀ l : List Rec, (∀ r ∈ l, isTagReset r = false) →
      tagsPlacedFrom seen l = true := by
  intro l
  induction l generalizing seen with
  | nil => intro _; rfl
  | cons r rs ih =>
    intro h
    match r with
    | Rec.blob m => exact ih _ (fun r2 h2 => h r2 (by simp [h2]))
    | Rec.anchor s => exact ih _ (fun r2 h2 => h r2 (by simp [h2]))
    | Rec.branchReset s m => exact ih _ (fun r2 h2 => h r2 (by simp [h2]))
    | Rec.done => exact ih _ (fun r2 h2 => h r2 (by simp [h2]))
    | Rec.commitRec cid br mk fm ops =>
      exact ih _ (fun r2 h2 => h r2 (by simp [h2]))
    | Rec.tagReset nm cid m =>
      have := h (Rec.tagReset nm cid m) (by simp)
      simp [isTagReset] at this

theorem displayDate_noforce {ctx : Ctx} (h : ctx.opts.force_dates = false)
    (c : GitCommit) (m : Nat) :
    displayDate ctx c m = c.date + ctx.rcsEpoch := by
  simp [displayDate, h]

theorem emitOps_state (ctx : Ctx) :
    ∀ (l : List BOp) (st : ExpState),
      (emitOps ctx l st).1.markmap = st.markmap ∧
      (emitOps ctx l st).1.serialC = st.serialC ∧
      (emitOps ctx l st).1.seqno = st.seqno ∧
      (emitOps ctx l st).1.mark = st.mark ∧
      (emitOps ctx l st).1.emitted = st.emitted := by
  intro l
  induction l with
  | nil =>
    intro st
    exact ⟨rfl, rfl, rfl, rfl, rfl⟩
  | cons b rest ih =>
    intro st
    match b with
    | BOp.M mode rev path =>
      simp only [emitOps]
      split
      · have h := ih
          { (mmRead st (ctx.serialOfRev rev.fid)).2 with needIgnores := false }
        simpa [mmRead] using h
      · have h := ih (mmRead st (ctx.serialOfRev rev.fid)).2
        simpa [mmRead] using h
    | BOp.D path =>
      simp only [emitOps]
      split
      · have h := ih { st with needIgnores := false }
        simpa using h
      · exact ih st

theorem commitRecordOf_state (ctx : Ctx) (c : GitCommit) (branch : String)
    (st : ExpState) :
    (commitRecordOf ctx c branch st).1.markmap = st.markmap ∧
    (commitRecordOf ctx c branch st).1.serialC = st.serialC ∧
    (commitRecordOf ctx c branch st).1.seqno = st.seqno ∧
    (commitRecordOf ctx c branch st).1.mark = st.mark ∧
    (commitRecordOf ctx c branch st).1.emitted = st.emitted := by
  cases hpc : c.parentC with
  | none =>
    simp only [commitRecordOf, hpc]
    split
    · have h := emitOps_state ctx (sortByB bopLE (opsPreOf ctx c)) st
      simp only [ExpState.mk.injEq]
      exact ⟨h.1, h.2.1, h.2.2.1, h.2.2.2.1, h.2.2.2.2⟩
    · exact emitOps_state ctx (sortByB bopLE (opsPreOf ctx c)) st
  | some p =>
    simp only [commitRecordOf, hpc]
    split
    · have h := emitOps_state ctx (sortByB bopLE (opsPreOf ctx c))
        (mmRead st (scLookup st p.cid)).2
      simp only [mmRead] at h
      exact ⟨h.1, h.2.1, h.2.2.1, h.2.2.2.1, h.2.2.2.2⟩
    · have h := emitOps_state ctx (sortByB bopLE (opsPreOf ctx c))
        (mmRead st (scLookup st p.cid)).2
      simp only [mmRead] at h
      exact ⟨h.1, h.2.1, h.2.2.1, h.2.2.2.1, h.2.2.2.2⟩

theorem accUpdate_trans {st X Z : ExpState} {a b : List (Bool × Nat)}
    (h1 : X = { st with accesses := a })
    (h2 : Z = { X with accesses := b }) :
    Z = { st with accesses := b } := by
  subst h1
  exact h2

theorem ddArg_onlyAccesses (st : ExpState) (f : Bool) (i : Nat) :
    ∃ acc, (ddArg st f i).2 = { st with accesses := acc } := by
  unfold ddArg
  split
  · exact ⟨_, rfl⟩
  · exact ⟨st.accesses, rfl⟩

theorem tagEmit_onlyAccesses (ctx : Ctx) (c : GitCommit) :
    ∀ (tags : List Tag) (st : ExpState), ∃ acc,
      (tagEmit ctx c tags st).1 = { st with accesses := acc } := by
  intro tags
  induction tags with
  | nil =>
    intro st
    exact ⟨st.accesses, rfl⟩
  | cons t rest ih =>
    intro st
    simp only [tagEmit]
    split
    · obtain ⟨a1, h1⟩ :=
        ddArg_onlyAccesses st ctx.opts.force_dates (scLookup st c.cid)
      split
      · obtain ⟨a2, h2⟩ := ih
          (mmRead (ddArg st ctx.opts.force_dates (scLookup st c.cid)).2
            (scLookup (ddArg st ctx.opts.force_dates
              (scLookup st c.cid)).2 c.cid)).2
        exact ⟨a2, accUpdate_trans (accUpdate_trans h1 rfl) h2⟩
      · obtain ⟨a2, h2⟩ := ih
          (ddArg st ctx.opts.force_dates (scLookup st c.cid)).2
        exact ⟨a2, accUpdate_trans h1 h2⟩
    · exact ih st

theorem canonDecide_onlyAccesses (ctx : Ctx) (e : CSeq) (realized : List Nat)
    (st : ExpState) :
    ∃ acc, (canonDecide ctx e realized st).2.2.2
      = { st with accesses := acc } := by
  unfold canonDecide
  split
  · split
    · exact ⟨st.accesses, rfl⟩
    · split
      · exact ⟨st.accesses, rfl⟩
      · split
        · split
          · obtain ⟨a1, h1⟩ := ddArg_onlyAccesses st ctx.opts.force_dates
              (scLookup st _)
            exact ⟨a1, h1⟩
          · obtain ⟨a1, h1⟩ := ddArg_onlyAccesses st ctx.opts.force_dates
              (scLookup st _)
            exact ⟨a1, h1⟩
        · exact ⟨st.accesses, rfl⟩
  · exact ⟨st.accesses, rfl⟩

theorem canonDecide_nocutoff {ctx : Ctx} (h : ¬ ctx.opts.fromtime > 0)
    (e : CSeq) (realized : List Nat) (st : ExpState) :
    canonDecide ctx e realized st = (true, realized, [], st) := by
  unfold canonDecide
  rw [if_neg h]

theorem canonDecide_suppressed {ctx : Ctx} (hft : ctx.opts.fromtime > 0)
    {e : CSeq} {st : ExpState}
    (hdd : ctx.opts.fromtime ≥ displayDate ctx e.commit (st.mark + 1))
    (realized : List Nat) :
    canonDecide ctx e realized st = (false, realized, [], st) := by
  unfold canonDecide
  rw [if_pos hft, if_pos hdd]

theorem canonDecide_false {ctx : Ctx} {e : CSeq} {realized : List Nat}
    {st : ExpState} (h : (canonDecide ctx e realized st).1 = false) :
    ctx.opts.fromtime > 0 ∧
    ctx.opts.fromtime ≥ displayDate ctx e.commit (st.mark + 1) := by
  by_cases hft : ctx.opts.fromtime > 0
  · refine ⟨hft, ?_⟩
    by_cases hdd :
      ctx.opts.fromtime ≥ displayDate ctx e.commit (st.mark + 1)
    · exact hdd
    · exfalso
      unfold canonDecide at h
      rw [if_pos hft, if_neg hdd] at h
      split at h
      · simp at h
      · split at h
        · split at h <;> simp at h
        · simp at h
  · rw [canonDecide_nocutoff hft] at h
    simp at h

theorem canonDecide_realized (ctx : Ctx) (e : CSeq) (realized : List Nat)
    (st : ExpState) :
    (canonDecide ctx e realized st).2.1 = realized ∨
    (canonDecide ctx e realized st).2.1 = realized ++ [e.headIdx] := by
  unfold canonDecide
  split
  · split
    · exact Or.inl rfl
    · split
      · exact Or.inl rfl
      · split
        · split
          · exact Or.inr rfl
          · exact Or.inr rfl
        · exact Or.inr rfl
  · exact Or.inl rfl

theorem export_commit_false_eq (ctx : Ctx) (c : GitCommit) (branch : String)
    (st : ExpState) :
    export_commit ctx c branch false st
      = (commitSerialize c (blobPass ctx false (opsPreOf ctx c) st).1,
         (blobPass ctx false (opsPreOf ctx c) st).2) := rfl

theorem export_commit_true_eq (ctx : Ctx) (c : GitCommit) (branch : String)
    (st : ExpState) :
    export_commit ctx c branch true st
      = ((commitRecordOf ctx c branch
            (commitSerialize c (blobPass ctx true (opsPreOf ctx c) st).1)).1,
         (blobPass ctx true (opsPreOf ctx c) st).2 ++
           [(commitRecordOf ctx c branch
              (commitSerialize c (blobPass ctx true (opsPreOf ctx c) st).1)).2]) := rfl

theorem cidsOfRecs_blobs {l : List Rec} (h : ∀ r ∈ l, ∃ m, r = Rec.blob m) :
    cidsOfRecs l = [] := by
  induction l with
  | nil => rfl
  | cons r rs ih =>
    obtain ⟨m, rfl⟩ := h r (by simp)
    simp only [cidsOfRecs, List.filterMap_cons]
    exact ih (fun r2 h2 => h r2 (by simp [h2]))

theorem export_commit_cids (ctx : Ctx) (c : GitCommit) (branch : String)
    (report : Bool) (st : ExpState) :
    cidsOfRecs (export_commit ctx c branch report st).2
      = (if report then [c.cid] else []) := by
  cases report with
  | false =>
    rw [export_commit_false_eq]
    exact cidsOfRecs_blobs (blobPass_blobs ctx false _ st)
  | true =>
    rw [export_commit_true_eq]
    simp only [cidsOfRecs, List.filterMap_append]
    rw [show (List.filterMap _ (blobPass ctx true (opsPreOf ctx c) st).2)
        = cidsOfRecs (blobPass ctx true (opsPreOf ctx c) st).2 from rfl]
    rw [cidsOfRecs_blobs (blobPass_blobs ctx true _ st)]
    obtain ⟨mk, fm, ops, heq, _⟩ := commitRecordOf_shape ctx c branch
      (commitSerialize c (blobPass ctx true (opsPreOf ctx c) st).1)
    rw [heq]
    simp

theorem export_commit_not_special (ctx : Ctx) (c : GitCommit)
    (branch : String) (report : Bool) (st : ExpState) :
    ∀ r ∈ (export_commit ctx c branch report st).2,
      isTagReset r = false ∧ isBranchReset r = false ∧
      refsOfRec r = refsOfRec r := by
  intro r hr
  rcases export_commit_out_cases ctx c branch report st r hr with
    ⟨m, rfl⟩ | ⟨mk, fm, ops, rfl, _⟩
  · exact ⟨rfl, rfl, rfl⟩
  · exact ⟨rfl, rfl, rfl⟩

theorem tagEmit_suppressed {ctx : Ctx} {c : GitCommit}
    (hforce : ctx.opts.force_dates = false)
    (hdd : displayDate ctx c 0 ≤ ctx.opts.fromtime) :
    ∀ (tags : List Tag) (st : ExpState), (tagEmit ctx c tags st).2 = [] := by
  intro tags
  induction tags with
  | nil =>
    intro st
    rfl
  | cons t rest ih =>
    intro st
    simp only [tagEmit]
    split
    · rw [if_neg ?_]
      · exact ih _
      · rw [displayDate_noforce hforce, ← displayDate_noforce hforce c 0]
        omega
    · exact ih st

theorem tagEmit_placed (ctx : Ctx) (c : GitCommit) {seen : List Nat}
    (hin : c.cid ∈ seen) :
    ∀ (tags : List Tag) (st : ExpState),
      tagsPlacedFrom seen (tagEmit ctx c tags st).2 = true := by
  intro tags
  induction tags with
  | nil =>
    intro st
    rfl
  | cons t rest ih =>
    intro st
    by_cases htc : t.cid = c.cid
    · simp only [tagEmit, htc, if_pos]
      split
      · simp only [tagsPlacedFrom, Bool.and_eq_true]
        exact ⟨List.elem_eq_true_of_mem hin, ih _⟩
      · exact ih _
    · simp only [tagEmit, htc, if_false]
      exact ih _

theorem cidsOfRecs_nil_of {l : List Rec}
    (h : ∀ r ∈ l, isCommitRec r = false) : cidsOfRecs l = [] := by
  induction l with
  | nil => rfl
  | cons r rs ih =>
    have h1 := h r (by simp)
    match r with
    | Rec.blob m =>
      simp only [cidsOfRecs, List.filterMap_cons]
      exact ih (fun r2 h2 => h r2 (by simp [h2]))
    | Rec.anchor s =>
      simp only [cidsOfRecs, List.filterMap_cons]
      exact ih (fun r2 h2 => h r2 (by simp [h2]))
    | Rec.tagReset nm cid m =>
      simp only [cidsOfRecs, List.filterMap_cons]
      exact ih (fun r2 h2 => h r2 (by simp [h2]))
    | Rec.branchReset s m =>
      simp only [cidsOfRecs, List.filterMap_cons]
      exact ih (fun r2 h2 => h r2 (by simp [h2]))
    | Rec.done =>
      simp only [cidsOfRecs, List.filterMap_cons]
      exact ih (fun r2 h2 => h r2 (by simp [h2]))
    | Rec.commitRec cid br mk fm ops => simp [isCommitRec] at h1

theorem canonLoop_tagsPlaced (ctx : Ctx) (tags : List Tag)
    (hforce : ctx.opts.force_dates = false) :
    ∀ (entries : List CSeq) (realized : List Nat) (st : ExpState)
      (seen : List Nat),
      tagsPlacedFrom seen (canonLoop ctx tags entries realized st).2
        = true := by
  intro entries
  induction entries with
  | nil =>
    intro realized st seen
    rfl
  | cons e rest ih =>
    intro realized st seen
    simp only [canonLoop, List.append_assoc]
    rw [tagsPlacedFrom_append, tagsPlacedFrom_append, tagsPlacedFrom_append]
    have hanchnotag : tagsPlacedFrom seen
        (canonDecide ctx e realized st).2.2.1 = true := by
      refine tagsPlacedFrom_noTags seen _ (fun r hr => ?_)
      rw [canonDecide_anchors ctx e realized st r hr]
      rfl
    have hecnotag : ∀ seen2, tagsPlacedFrom seen2
        (export_commit ctx e.commit e.refName
          (canonDecide ctx e realized st).1
          (canonDecide ctx e realized st).2.2.2).2 = true := by
      intro seen2
      exact tagsPlacedFrom_noTags seen2 _
        (fun r hr => (export_commit_not_special ctx _ _ _ _ r hr).1)
    rw [hanchnotag, hecnotag]
    simp only [Bool.true_and]
    rw [ih]
    simp only [Bool.and_true]
    -- the tag block
    cases hrep : (canonDecide ctx e realized st).1 with
    | true =>
      refine tagEmit_placed ctx e.commit ?_ tags _
      have hc := export_commit_cids ctx e.commit e.refName true
        (canonDecide ctx e realized st).2.2.2
      simp only [if_true] at hc
      rw [hc]
      simp
    | false =>
      obtain ⟨hft, hdd⟩ := canonDecide_false hrep
      have hsup : displayDate ctx e.commit 0 ≤ ctx.opts.fromtime := by
        rw [displayDate_noforce hforce] at hdd ⊢
        exact hdd
      rw [tagEmit_suppressed hforce hsup tags _]
      rfl

theorem fastBranchLoop_tagsPlaced (ctx : Ctx) (tags : List Tag)
    (refName : String) :
    ∀ (chain : List GitCommit) (st : ExpState) (seen : List Nat),
      tagsPlacedFrom seen
        (fastBranchLoop ctx tags refName chain st).2 = true := by
  intro chain
  induction chain with
  | nil =>
    intro st seen
    rfl
  | cons c crest ih =>
    intro st seen
    simp only [fastBranchLoop, List.append_assoc]
    rw [tagsPlacedFrom_append, tagsPlacedFrom_append]
    have hecnotag : tagsPlacedFrom seen
        (export_commit ctx c refName true st).2 = true :=
      tagsPlacedFrom_noTags seen _
        (fun r hr => (export_commit_not_special ctx _ _ _ _ r hr).1)
    rw [hecnotag]
    simp only [Bool.true_and]
    rw [ih]
    simp only [Bool.and_true]
    refine tagEmit_placed ctx c ?_ tags _
    have hc := export_commit_cids ctx c refName true st
    simp only [if_true] at hc
    rw [hc]
    simp

theorem fastLoop_tagsPlaced (ctx : Ctx) (tags : List Tag) :
    ∀ (heads : List Head) (st : ExpState) (seen : List Nat),
      tagsPlacedFrom seen (fastLoop ctx tags heads st).2 = true := by
  intro heads
  induction heads with
  | nil =>
    intro st seen
    rfl
  | cons h hrest ih =>
    intro st seen
    simp only [fastLoop]
    split
    · exact ih st seen
    · rw [tagsPlacedFrom_append, fastBranchLoop_tagsPlaced]
      simp only [Bool.true_and]
      exact ih _ _

theorem lookup_mem_pairs {l : List (Nat × Nat)} {a v : Nat}
    (h : l.lookup a = some v) : (a, v) ∈ l := by
  induction l with
  | nil => simp [List.lookup] at h
  | cons p rest ih =>
    simp only [List.lookup] at h
    cases hb : (a == p.1) with
    | true =>
      rw [hb] at h
      have ha : a = p.1 := by simpa using hb
      have hv : p.2 = v := by
        injection h
      refine List.mem_cons.mpr (Or.inl ?_)
      obtain ⟨x, y⟩ := p
      simp only at ha hv
      rw [ha, hv]
    | false =>
      rw [hb] at h
      exact List.mem_cons_of_mem _ (ih h)

theorem mem_fst_lookup_isSome {l : List (Nat × Nat)} {a : Nat}
    (h : a ∈ l.map Prod.fst) : ∃ v, l.lookup a = some v := by
  induction l with
  | nil => simp at h
  | cons p rest ih =>
    cases hb : (a == p.1) with
    | true => exact ⟨p.2, by simp [List.lookup, hb]⟩
    | false =>
      have hne : a ≠ p.1 := by
        intro he
        rw [he] at hb
        simp at hb
      simp only [List.map_cons, List.mem_cons] at h
      rcases h with h | h
      · exact absurd h hne
      · obtain ⟨v, hv⟩ := ih h
        exact ⟨v, by simp [List.lookup, hb, hv]⟩

theorem pairs_snd_nodup {l : List (Nat × Nat)}
    (h : (l.map Prod.snd).Nodup) :
    ∀ p ∈ l, ∀ q ∈ l, p.2 = q.2 → p = q := by
  induction l with
  | nil => simp
  | cons r rest ih =>
    simp only [List.map_cons, List.nodup_cons] at h
    intro p hp q hq heq
    simp only [List.mem_cons] at hp hq
    rcases hp with rfl | hp <;> rcases hq with rfl | hq
    · rfl
    · exfalso
      apply h.1
      rw [heq]
      exact List.mem_map.mpr ⟨q, hq, rfl⟩
    · exfalso
      apply h.1
      rw [← heq]
      exact List.mem_map.mpr ⟨p, hp, rfl⟩
    · exact ih h.2 p hp q hq heq

theorem mem_enumFrom_snd {α : Type} :
    ∀ (l : List α) (n : Nat) (p : Nat × α), p ∈ l.enumFrom n → p.2 ∈ l := by
  intro l
  induction l with
  | nil => simp [List.enumFrom]
  | cons x xs ih =>
    intro n p hp
    simp only [List.enumFrom, List.mem_cons] at hp
    rcases hp with rfl | hp
    · simp
    · exact List.mem_cons_of_mem _ (ih _ p hp)

theorem opsPre_M_files (ctx : Ctx) (c : GitCommit) :
    ∀ mode rev path, BOp.M mode rev path ∈ opsPreOf ctx c →
      rev ∈ c.files := by
  intro mode rev path hb
  rcases List.mem_append.mp hb with h | h
  · simp only [buildMops, List.mem_filterMap] at h
    obtain ⟨pr, hpr, hf⟩ := h
    split at hf
    · simp only [Option.some.injEq, BOp.M.injEq] at hf
      rcases hf with ⟨_, hrev, _⟩
      rw [← hrev]
      exact mem_enumFrom_snd _ _ _ hpr
    · simp at hf
  · simp only [buildDops, List.mem_filterMap] at h
    obtain ⟨pr, _, hf⟩ := h
    split at hf
    · simp at hf
    · simp at hf

theorem generatePhase_entries (mode : RMode) :
    ∀ (l : List FileRev) (st : ExpState),
      ((generatePhase mode l st).2.2.map Prod.fst
        = (l.map FileRev.fid).reverse) ∧
      (∀ pr ∈ (generatePhase mode l st).2.2,
        st.seqno + 1 ≤ pr.2 ∧ pr.2 ≤ st.seqno + l.length) ∧
      ((generatePhase mode l st).2.2.map Prod.snd).Nodup := by
  intro l
  induction l with
  | nil =>
    intro st
    exact ⟨rfl, by simp [generatePhase], by simp [generatePhase]⟩
  | cons fr rest ih =>
    intro st
    have key : ∀ (st2 : ExpState), st2.seqno = st.seqno + 1 →
        ((((generatePhase mode rest st2).2.2 ++
            [(fr.fid, st.seqno + 1)]).map Prod.fst
          = ((fr :: rest).map FileRev.fid).reverse) ∧
         (∀ pr ∈ (generatePhase mode rest st2).2.2 ++
            [(fr.fid, st.seqno + 1)],
           st.seqno + 1 ≤ pr.2 ∧ pr.2 ≤ st.seqno + (fr :: rest).length) ∧
         (((generatePhase mode rest st2).2.2 ++
            [(fr.fid, st.seqno + 1)]).map Prod.snd).Nodup) := by
      intro st2 h2
      obtain ⟨ihf, ihb, ihn⟩ := ih st2
      rw [h2] at ihb
      refine ⟨?_, ?_, ?_⟩
      · simp [ihf]
      · intro pr hpr
        rcases List.mem_append.mp hpr with hpr | hpr
        · have := ihb pr hpr
          simp only [List.length_cons]
          omega
        · simp only [List.mem_singleton] at hpr
          subst hpr
          simp only [List.length_cons]
          omega
      · rw [List.map_append, List.nodup_append]
        refine ⟨ihn, by simp, ?_⟩
        intro a ha hb
        obtain ⟨pr, hpr, rfl⟩ := List.mem_map.mp ha
        have := ihb pr hpr
        simp only [List.map_cons, List.map_nil, List.mem_singleton] at hb
        omega
    simp only [generatePhase]
    split
    · exact key _ rfl
    · exact key _ rfl

theorem generatePhase_canon_state :
    ∀ (l : List FileRev) (st : ExpState),
      (generatePhase RMode.canonical l st).1.seqno = st.seqno + l.length ∧
      (generatePhase RMode.canonical l st).1.mark = st.mark ∧
      (generatePhase RMode.canonical l st).1.markmap = st.markmap ∧
      (generatePhase RMode.canonical l st).1.serialC = st.serialC ∧
      (generatePhase RMode.canonical l st).1.emitted = st.emitted ∧
      (generatePhase RMode.canonical l st).2.1 = [] := by
  intro l
  induction l with
  | nil =>
    intro st
    exact ⟨rfl, rfl, rfl, rfl, rfl, rfl⟩
  | cons fr rest ih =>
    intro st
    simp only [generatePhase]
    rw [if_neg (by decide : ¬ (RMode.canonical = RMode.fast))]
    obtain ⟨h1, h2, h3, h4, h5, h6⟩ := ih { st with seqno := st.seqno + 1 }
    exact ⟨by rw [h1]; simp; omega, h2, h3, h4, h5, h6⟩

theorem generatePhase_fast_facts :
    ∀ (l : List FileRev) (st : ExpState), st.mark = st.seqno →
      (generatePhase RMode.fast l st).1.mark
        = (generatePhase RMode.fast l st).1.seqno ∧
      (generatePhase RMode.fast l st).1.seqno = st.seqno + l.length ∧
      (generatePhase RMode.fast l st).1.serialC = st.serialC ∧
      (generatePhase RMode.fast l st).1.emitted = st.emitted ∧
      (∀ i, st.seqno < i → i ≤ st.seqno + l.length →
        mmLookup (generatePhase RMode.fast l st).1 i = i ∧
        i ∈ defsOfList (generatePhase RMode.fast l st).2.1) ∧
      (∀ i, i ≤ st.seqno →
        mmLookup (generatePhase RMode.fast l st).1 i = mmLookup st i) := by
  intro l
  induction l with
  | nil =>
    intro st hmk
    exact ⟨hmk, rfl, rfl, rfl,
      by intro i h1 h2; exfalso; simp at h2; omega, fun i _ => rfl⟩
  | cons fr rest ih =>
    intro st hmk
    have key : ∀ (st2 : ExpState), st2.seqno = st.seqno + 1 →
        st2.mark = st.seqno + 1 → st2.serialC = st.serialC →
        st2.emitted = st.emitted →
        st2.markmap = (st.seqno + 1, st.seqno + 1) :: st.markmap →
        ((generatePhase RMode.fast rest st2).1.mark
          = (generatePhase RMode.fast rest st2).1.seqno ∧
         (generatePhase RMode.fast rest st2).1.seqno
          = st.seqno + (fr :: rest).length ∧
         (generatePhase RMode.fast rest st2).1.serialC = st.serialC ∧
         (generatePhase RMode.fast rest st2).1.emitted = st.emitted ∧
         (∀ i, st.seqno < i → i ≤ st.seqno + (fr :: rest).length →
           mmLookup (generatePhase RMode.fast rest st2).1 i = i ∧
           i ∈ defsOfList (Rec.blob st2.mark ::
             (generatePhase RMode.fast rest st2).2.1)) ∧
         (∀ i, i ≤ st.seqno →
           mmLookup (generatePhase RMode.fast rest st2).1 i
             = mmLookup st i)) := by
      intro st2 hq hmkk hsc hem hmm
      have hmk2 : st2.mark = st2.seqno := by omega
      obtain ⟨h1, h2, h3, h4, h5, h6⟩ := ih st2 hmk2
      have hlkself : mmLookup st2 (st.seqno + 1) = st.seqno + 1 := by
        simp [mmLookup, hmm, List.lookup]
      have hlkother : ∀ i, i ≠ st.seqno + 1 →
          mmLookup st2 i = mmLookup st i := by
        intro i hne
        simp only [mmLookup, hmm, List.lookup]
        rw [show (i == st.seqno + 1) = false from beq_eq_false_iff_ne.mpr hne]
      refine ⟨h1, by rw [h2]; simp; omega, by rw [h3, hsc],
        by rw [h4, hem], ?_, ?_⟩
      · intro i hlo hhi
        simp only [List.length_cons] at hhi
        by_cases hi : i = st.seqno + 1
        · subst hi
          refine ⟨?_, ?_⟩
          · rw [h6 _ (by omega), hlkself]
          · simp only [defsOfList, List.flatMap_cons, defsOfRec, hmkk]
            simp
        · have := h5 i (by omega) (by omega)
          refine ⟨this.1, ?_⟩
          simp only [defsOfList, List.flatMap_cons, defsOfRec]
          simp only [defsOfList] at this
          simp [this.2]
      · intro i hle
        rw [h6 _ (by omega)]
        exact hlkother i (by omega)
    simp only [generatePhase]
    rw [if_pos trivial]
    exact key _ (by simp [mmWrite]) (by simp [mmWrite]; omega)
      (by simp [mmWrite]) (by simp [mmWrite]) (by simp [mmWrite]; omega)

theorem generatePhase_serOK {mode : RMode} {l : List FileRev} (ctx : Ctx)
    (hs : ctx.serialOfRev = fun fid =>
      ((((generatePhase mode l initState).2.2).lookup fid).getD 0))
    (hg : ctx.genFids = l.map FileRev.fid) :
    SerOK ctx l.length := by
  obtain ⟨hf, hb, hn⟩ := generatePhase_entries mode l initState
  constructor
  · intro fid hfid
    rw [hg] at hfid
    have hfid2 : fid ∈ (generatePhase mode l initState).2.2.map Prod.fst := by
      rw [hf, List.mem_reverse]
      exact hfid
    obtain ⟨v, hv⟩ := mem_fst_lookup_isSome hfid2
    have hmem := lookup_mem_pairs hv
    have hbv := hb _ hmem
    rw [hs]
    simp only [hv, Option.getD_some]
    simpa [initState] using hbv
  · intro a ha b hbm heq
    rw [hg] at ha hbm
    have ha2 : a ∈ (generatePhase mode l initState).2.2.map Prod.fst := by
      rw [hf, List.mem_reverse]
      exact ha
    have hb2 : b ∈ (generatePhase mode l initState).2.2.map Prod.fst := by
      rw [hf, List.mem_reverse]
      exact hbm
    obtain ⟨va, hva⟩ := mem_fst_lookup_isSome ha2
    obtain ⟨vb, hvb⟩ := mem_fst_lookup_isSome hb2
    rw [hs] at heq
    simp only [hva, hvb, Option.getD_some] at heq
    have hma := lookup_mem_pairs hva
    have hmb := lookup_mem_pairs hvb
    have := pairs_snd_nodup hn _ hma _ hmb heq
    have h1 : ((a, va) : Nat × Nat).1 = ((b, vb) : Nat × Nat).1 := by
      rw [this]
    simpa using h1

theorem MInv_congr {ctx : Ctx} {R : Nat} {st st2 : ExpState}
    {defs : List Nat} (hm : st2.markmap = st.markmap)
    (hc : st2.serialC = st.serialC) (he : st2.emitted = st.emitted)
    (hq : st2.seqno = st.seqno) (h : MInv ctx R st defs) :
    MInv ctx R st2 defs := by
  obtain ⟨h1, h2, h3, h4⟩ := h
  refine ⟨by rw [hq]; exact h1, ?_, ?_, ?_⟩
  · intro fid hfid
    rw [he] at hfid
    rw [mmLookup_congr hm]
    exact h2 fid hfid
  · intro hfast fid hfid
    rw [mmLookup_congr hm]
    exact h3 hfast fid hfid
  · intro cid hcid
    rw [hc] at hcid
    rw [scLookup_congr hc, mmLookup_congr hm, hq]
    exact h4 cid hcid

theorem MInv_defs_mono {ctx : Ctx} {R : Nat} {st : ExpState}
    {defs defs2 : List Nat} (hsub : ∀ n ∈ defs, n ∈ defs2)
    (h : MInv ctx R st defs) : MInv ctx R st defs2 := by
  obtain ⟨h1, h2, h3, h4⟩ := h
  refine ⟨h1, ?_, ?_, ?_⟩
  · intro fid hfid
    exact ⟨(h2 fid hfid).1, hsub _ (h2 fid hfid).2⟩
  · intro hfast fid hfid
    exact hsub _ (h3 hfast fid hfid)
  · intro cid hcid
    exact ⟨(h4 cid hcid).1, (h4 cid hcid).2.1, hsub _ (h4 cid hcid).2.2⟩

theorem defsOfList_nil_of {l : List Rec}
    (h : ∀ r ∈ l, defsOfRec r = []) : defsOfList l = [] := by
  induction l with
  | nil => rfl
  | cons r rs ih =>
    simp only [defsOfList, List.flatMap_cons]
    rw [h r (by simp)]
    simpa [defsOfList] using ih (fun r2 h2 => h r2 (by simp [h2]))

theorem blobPass_fast {ctx : Ctx}
    (hfast : ctx.opts.reportmode = RMode.fast) (report : Bool) :
    ∀ (ops : List BOp) (st : ExpState),
      blobPass ctx report ops st = (st, []) := by
  intro ops
  induction ops with
  | nil =>
    intro st
    rfl
  | cons op rest ih =>
    intro st
    match op with
    | BOp.D p => simpa [blobPass] using ih st
    | BOp.M mode rev path =>
      simp only [blobPass, hfast]
      rw [if_neg (by decide : ¬ (RMode.fast = RMode.canonical))]
      have hnc : ¬ (report = true ∧ RMode.fast = RMode.canonical) := by
        intro hx
        exact absurd hx.2 (by decide)
      rw [if_neg hnc]
      split
      · exact ih st
      · exact ih st

theorem blobPass_invar {ctx : Ctx} {R : Nat} (hser : SerOK ctx R)
    (hcan : ctx.opts.reportmode = RMode.canonical) (report : Bool) :
    ∀ (ops : List BOp) (st : ExpState) (defs : List Nat),
      MInv ctx R st defs →
      (∀ mode rev path, BOp.M mode rev path ∈ ops →
        rev.fid ∈ ctx.genFids) →
      MInv ctx R (blobPass ctx report ops st).1
        (defs ++ defsOfList (blobPass ctx report ops st).2) ∧
      streamOKFrom defs (blobPass ctx report ops st).2 = true ∧
      (blobPass ctx report ops st).1.serialC = st.serialC ∧
      (blobPass ctx report ops st).1.seqno = st.seqno ∧
      (∀ fid ∈ st.emitted, fid ∈ (blobPass ctx report ops st).1.emitted) ∧
      (report = true → ∀ mode rev path, BOp.M mode rev path ∈ ops →
        rev.fid ∈ (blobPass ctx report ops st).1.emitted) := by
  intro ops
  induction ops with
  | nil =>
    intro st defs hinv hops
    refine ⟨by simpa [blobPass, defsOfList] using hinv, rfl, rfl, rfl,
      fun fid h => h, ?_⟩
    intro _ mode rev path h
    simp at h
  | cons op rest ih =>
    intro st defs hinv hops
    match op with
    | BOp.D p =>
      have hops2 : ∀ mode rev path, BOp.M mode rev path ∈ rest →
          rev.fid ∈ ctx.genFids := by
        intro mode rev path h
        exact hops mode rev path (by simp [h])
      have h := ih st defs hinv hops2
      refine ⟨by simpa [blobPass] using h.1, by simpa [blobPass] using h.2.1,
        by simpa [blobPass] using h.2.2.1, by simpa [blobPass] using h.2.2.2.1,
        by simpa [blobPass] using h.2.2.2.2.1, ?_⟩
      intro hrep mode rev path hmem
      have hmem2 : BOp.M mode rev path ∈ rest := by
        rcases List.mem_cons.mp hmem with h' | h'
        · exact absurd h' (by simp)
        · exact h'
      simpa [blobPass] using h.2.2.2.2.2 hrep mode rev path hmem2
    | BOp.M mode rev path =>
      have hops2 : ∀ m2 r2 p2, BOp.M m2 r2 p2 ∈ rest →
          r2.fid ∈ ctx.genFids := by
        intro m2 r2 p2 h
        exact hops m2 r2 p2 (by simp [h])
      have hrevg : rev.fid ∈ ctx.genFids := hops mode rev path (by simp)
      by_cases hmem : rev.fid ∈ st.emitted
      · have h := ih st defs hinv hops2
        refine ⟨by simpa [blobPass, hmem] using h.1,
          by simpa [blobPass, hmem] using h.2.1,
          by simpa [blobPass, hmem] using h.2.2.1,
          by simpa [blobPass, hmem] using h.2.2.2.1,
          by simpa [blobPass, hmem] using h.2.2.2.2.1, ?_⟩
        intro hrep m2 r2 p2 hm2
        rcases List.mem_cons.mp hm2 with h' | h'
        · simp only [BOp.M.injEq] at h'
          rw [h'.2.1]
          simpa [blobPass, hmem] using h.2.2.2.2.1 rev.fid hmem
        · simpa [blobPass, hmem] using h.2.2.2.2.2 hrep m2 r2 p2 h'
      · -- the revision is new: a mark is allocated
        have hinv1 : MInv ctx R
            { mmWrite st (ctx.serialOfRev rev.fid) (st.mark + 1) with
              mark := st.mark + 1 } defs := by
          obtain ⟨h1, h2, h3, h4⟩ := hinv
          refine ⟨h1, ?_, ?_, ?_⟩
          · intro fid hfid
            have hfid2 : fid ∈ st.emitted := hfid
            have hne : fid ≠ rev.fid := by
              intro he
              exact hmem (he ▸ hfid2)
            have hsne : ctx.serialOfRev fid ≠ ctx.serialOfRev rev.fid := by
              intro he
              exact hne (hser.2 fid (h2 fid hfid2).1 rev.fid hrevg he)
            refine ⟨(h2 fid hfid2).1, ?_⟩
            show mmLookup (mmWrite st (ctx.serialOfRev rev.fid) (st.mark + 1))
              (ctx.serialOfRev fid) ∈ defs
            rw [mmLookup_write_other _ _ _ hsne]
            exact (h2 fid hfid2).2
          · intro hfast
            exact absurd (hcan.symm.trans hfast) (by decide)
          · intro cid hcid
            have hcid2 : cid ∈ List.map Prod.fst st.serialC := hcid
            have hc4 := h4 cid hcid2
            have hsle : ctx.serialOfRev rev.fid ≤ R :=
              (hser.1 rev.fid hrevg).2
            have hsne : scLookup st cid ≠ ctx.serialOfRev rev.fid := by
              omega
            show R < scLookup st cid ∧ scLookup st cid ≤ st.seqno ∧
              mmLookup (mmWrite st (ctx.serialOfRev rev.fid) (st.mark + 1))
                (scLookup st cid) ∈ defs
            refine ⟨hc4.1, hc4.2.1, ?_⟩
            rw [mmLookup_write_other _ _ _ hsne]
            exact hc4.2.2
        by_cases hrep : report = true
        · -- reporting in canonical mode: the blob is streamed
          subst hrep
          have hinv2 : MInv ctx R
              { mmWrite st (ctx.serialOfRev rev.fid) (st.mark + 1) with
                mark := st.mark + 1,
                emitted := st.emitted ++ [rev.fid] }
              (defs ++ [st.mark + 1]) := by
            obtain ⟨h1, h2, h3, h4⟩ := hinv1
            refine ⟨h1, ?_, ?_, ?_⟩
            · intro fid hfid
              have hfid2 : fid ∈ st.emitted ++ [rev.fid] := hfid
              rcases List.mem_append.mp hfid2 with hfid3 | hfid3
              · have hx := h2 fid hfid3
                exact ⟨hx.1, List.mem_append.mpr (Or.inl hx.2)⟩
              · simp only [List.mem_singleton] at hfid3
                subst hfid3
                refine ⟨hrevg, ?_⟩
                show mmLookup (mmWrite st (ctx.serialOfRev rev.fid)
                  (st.mark + 1)) (ctx.serialOfRev rev.fid)
                  ∈ defs ++ [st.mark + 1]
                rw [mmLookup_write_self]
                simp
            · intro hfast
              exact absurd (hcan.symm.trans hfast) (by decide)
            · intro cid hcid
              have hcid2 : cid ∈ List.map Prod.fst st.serialC := hcid
              have hx := h4 cid hcid2
              exact ⟨hx.1, hx.2.1, List.mem_append.mpr (Or.inl hx.2.2)⟩
          have h := ih _ (defs ++ [st.mark + 1]) hinv2 hops2
          have hout : blobPass ctx true (BOp.M mode rev path :: rest) st
              = ((blobPass ctx true rest
                  { mmWrite st (ctx.serialOfRev rev.fid) (st.mark + 1) with
                    mark := st.mark + 1,
                    emitted := st.emitted ++ [rev.fid] }).1,
                 Rec.blob (st.mark + 1) ::
                  (blobPass ctx true rest
                    { mmWrite st (ctx.serialOfRev rev.fid) (st.mark + 1) with
                      mark := st.mark + 1,
                      emitted := st.emitted ++ [rev.fid] }).2) := by
            simp only [blobPass]
            rw [if_neg hmem, if_pos hcan, if_pos ⟨trivial, hcan⟩,
              if_pos hrevg]
            rfl
          rw [hout]
          refine ⟨?_, ?_, by simpa using h.2.2.1, by simpa using h.2.2.2.1,
            ?_, ?_⟩
          · have hlist : defs ++ defsOfList (Rec.blob (st.mark + 1) ::
                (blobPass ctx true rest
                  { mmWrite st (ctx.serialOfRev rev.fid) (st.mark + 1) with
                    mark := st.mark + 1,
                    emitted := st.emitted ++ [rev.fid] }).2)
                = (defs ++ [st.mark + 1]) ++ defsOfList
                  (blobPass ctx true rest
                    { mmWrite st (ctx.serialOfRev rev.fid) (st.mark + 1) with
                      mark := st.mark + 1,
                      emitted := st.emitted ++ [rev.fid] }).2 := by
              simp [defsOfList, defsOfRec, List.append_assoc]
            rw [hlist]
            exact h.1
          · simp only [streamOKFrom, refsOfRec, List.all_nil, Bool.true_and]
            exact h.2.1
          · intro fid hfid
            have hx : fid ∈ st.emitted ++ [rev.fid] :=
              List.mem_append.mpr (Or.inl hfid)
            exact h.2.2.2.2.1 fid hx
          · intro _ m2 r2 p2 hm2
            rcases List.mem_cons.mp hm2 with h' | h'
            · simp only [BOp.M.injEq] at h'
              rw [h'.2.1]
              have hx : rev.fid ∈ st.emitted ++ [rev.fid] := by simp
              exact h.2.2.2.2.1 rev.fid hx
            · exact h.2.2.2.2.2 rfl m2 r2 p2 h'
        · -- not reporting: the mark is allocated silently
          have h := ih _ defs hinv1 hops2
          have hout : blobPass ctx report (BOp.M mode rev path :: rest) st
              = blobPass ctx report rest
                  { mmWrite st (ctx.serialOfRev rev.fid) (st.mark + 1) with
                    mark := st.mark + 1 } := by
            simp only [blobPass]
            rw [if_neg hmem, if_pos hcan,
              if_neg (fun hx => hrep hx.1)]
          rw [hout]
          refine ⟨h.1, h.2.1, h.2.2.1, h.2.2.2.1, ?_, ?_⟩
          · intro fid hfid
            exact h.2.2.2.2.1 fid hfid
          · intro hx
            exact absurd hx hrep

theorem commitSerialize_invar {ctx : Ctx} {R : Nat} (hser : SerOK ctx R)
    (c : GitCommit) {st : ExpState} {defs : List Nat}
    (hinv : MInv ctx R st defs) :
    MInv ctx R (commitSerialize c st) (defs ++ [st.mark + 1]) ∧
    scLookup (commitSerialize c st) c.cid = st.seqno + 1 ∧
    mmLookup (commitSerialize c st) (st.seqno + 1) = st.mark + 1 ∧
    (commitSerialize c st).serialC = (c.cid, st.seqno + 1) :: st.serialC ∧
    (commitSerialize c st).seqno = st.seqno + 1 ∧
    (commitSerialize c st).mark = st.mark + 1 ∧
    (commitSerialize c st).emitted = st.emitted ∧
    (∀ cid, cid ≠ c.cid →
      scLookup (commitSerialize c st) cid = scLookup st cid) ∧
    (∀ i, i ≤ st.seqno →
      mmLookup (commitSerialize c st) i = mmLookup st i) := by
  obtain ⟨h1, h2, h3, h4⟩ := hinv
  have hself : scLookup (commitSerialize c st) c.cid = st.seqno + 1 := by
    simp [commitSerialize, scLookup, mmWrite, List.lookup]
  have hother : ∀ cid, cid ≠ c.cid →
      scLookup (commitSerialize c st) cid = scLookup st cid := by
    intro cid hne
    simp only [commitSerialize, scLookup, mmWrite, List.lookup]
    rw [show (cid == c.cid) = false from beq_eq_false_iff_ne.mpr hne]
  have hmself : mmLookup (commitSerialize c st) (st.seqno + 1)
      = st.mark + 1 := by
    rw [show mmLookup (commitSerialize c st) (st.seqno + 1)
        = mmLookup (mmWrite
          { st with
            seqno := st.seqno + 1,
            serialC := (c.cid, st.seqno + 1) :: st.serialC }
          (st.seqno + 1) (st.mark + 1)) (st.seqno + 1) from rfl]
    exact mmLookup_write_self _ _ _
  have hmother : ∀ i, i ≤ st.seqno →
      mmLookup (commitSerialize c st) i = mmLookup st i := by
    intro i hle
    rw [show mmLookup (commitSerialize c st) i
        = mmLookup (mmWrite
          { st with
            seqno := st.seqno + 1,
            serialC := (c.cid, st.seqno + 1) :: st.serialC }
          (st.seqno + 1) (st.mark + 1)) i from rfl]
    rw [mmLookup_write_other _ _ _ (by omega)]
    rfl
  refine ⟨⟨by simp [commitSerialize, mmWrite]; omega, ?_, ?_, ?_⟩,
    hself, hmself, rfl, by simp [commitSerialize, mmWrite],
    by simp [commitSerialize, mmWrite], rfl, hother, hmother⟩
  · intro fid hfid
    have hf := h2 fid (by simpa [commitSerialize, mmWrite] using hfid)
    refine ⟨hf.1, ?_⟩
    rw [hmother _ (by have := (hser.1 fid hf.1).2; omega)]
    exact List.mem_append.mpr (Or.inl hf.2)
  · intro hfast fid hfid
    have := h3 hfast fid hfid
    rw [hmother _ (by have := (hser.1 fid hfid).2; omega)]
    exact List.mem_append.mpr (Or.inl this)
  · intro cid hcid
    have hsq : (commitSerialize c st).seqno = st.seqno + 1 := by
      simp [commitSerialize, mmWrite]
    by_cases hce : cid = c.cid
    · subst hce
      rw [hself, hsq, hmself]
      refine ⟨by omega, by omega, by simp⟩
    · have hcid2 : cid ∈ st.serialC.map Prod.fst := by
        have : (commitSerialize c st).serialC
            = (c.cid, st.seqno + 1) :: st.serialC := rfl
        rw [this] at hcid
        simp only [List.map_cons, List.mem_cons] at hcid
        rcases hcid with h' | h'
        · exact absurd h' hce
        · exact h'
      have hc4 := h4 cid hcid2
      rw [hother cid hce, hsq, hmother _ (by omega)]
      exact ⟨hc4.1, by omega, List.mem_append.mpr (Or.inl hc4.2.2)⟩

theorem emitOps_out (ctx : Ctx) :
    ∀ (ops : List BOp) (st : ExpState),
      (emitOps ctx ops st).2 = ops.map (fun op =>
        match op with
        | BOp.M mode rev path =>
          FOp.M mode (mmLookup st (ctx.serialOfRev rev.fid)) path
        | BOp.D path => FOp.D path) := by
  intro ops
  induction ops with
  | nil =>
    intro st
    rfl
  | cons op rest ih =>
    intro st
    match op with
    | BOp.M mode rev path =>
      simp only [emitOps, List.map_cons]
      split
      · rw [ih]
        rfl
      · rw [ih]
        rfl
    | BOp.D path =>
      simp only [emitOps, List.map_cons]
      split
      · rw [ih]
        rfl
      · rw [ih]

theorem commitRecordOf_defs (ctx : Ctx) (c : GitCommit) (branch : String)
    (st : ExpState) :
    defsOfRec (commitRecordOf ctx c branch st).2 = [st.mark] := by
  cases hpc : c.parentC with
  | none =>
    simp only [commitRecordOf, hpc]
    split <;> rfl
  | some p =>
    simp only [commitRecordOf, hpc]
    split <;> rfl

theorem commitRecordOf_refs {ctx : Ctx} {c : GitCommit} (branch : String)
    {st : ExpState} {defs : List Nat}
    (hfrom : ∀ p, c.parentC = some p →
      mmLookup st (scLookup st p.cid) ∈ defs)
    (hops : ∀ mode rev path,
      BOp.M mode rev path ∈ sortByB bopLE (opsPreOf ctx c) →
      mmLookup st (ctx.serialOfRev rev.fid) ∈ defs) :
    ∀ n ∈ refsOfRec (commitRecordOf ctx c branch st).2, n ∈ defs := by
  intro n hn
  have hbody : ∀ (stX : ExpState), stX.markmap = st.markmap →
      ∀ tailI, (tailI = [] ∨ tailI = [FOp.Minline [gitignoreStr]]) →
      n ∈ ((emitOps ctx (sortByB bopLE (opsPreOf ctx c)) stX).2 ++
        tailI).filterMap (fun op =>
          match op with
          | FOp.M _ m _ => some m
          | _ => none) → n ∈ defs := by
    intro stX hmm tailI htail hn2
    rw [emitOps_out] at hn2
    obtain ⟨op, hop, hsome⟩ := List.mem_filterMap.mp hn2
    rcases List.mem_append.mp hop with hop | hop
    · obtain ⟨bop, hbop, rfl⟩ := List.mem_map.mp hop
      match bop with
      | BOp.M mode rev path =>
        simp only [Option.some.injEq] at hsome
        rw [← hsome, mmLookup_congr hmm]
        exact hops mode rev path hbop
      | BOp.D path => simp at hsome
    · rcases htail with rfl | rfl
      · simp at hop
      · simp only [List.mem_singleton] at hop
        subst hop
        simp at hsome
  cases hpc : c.parentC with
  | none =>
    simp only [commitRecordOf, hpc] at hn
    split at hn
    · simp only [refsOfRec, List.nil_append] at hn
      exact hbody st rfl [FOp.Minline [gitignoreStr]] (Or.inr rfl) hn
    · simp only [refsOfRec, List.nil_append] at hn
      exact hbody st rfl [] (Or.inl rfl) (by simpa using hn)
  | some p =>
    simp only [commitRecordOf, hpc] at hn
    split at hn
    · simp only [refsOfRec, List.cons_append, List.nil_append,
        List.mem_cons] at hn
      rcases hn with rfl | hn
      · exact hfrom p hpc
      · exact hbody (mmRead st (scLookup st p.cid)).2 rfl
          [FOp.Minline [gitignoreStr]] (Or.inr rfl) hn
    · simp only [refsOfRec, List.cons_append, List.nil_append,
        List.mem_cons] at hn
      rcases hn with rfl | hn
      · exact hfrom p hpc
      · exact hbody (mmRead st (scLookup st p.cid)).2 rfl []
          (Or.inl rfl) (by simpa using hn)

theorem export_commit_invar {ctx : Ctx} {R : Nat} (hser : SerOK ctx R)
    (hmode : ctx.opts.reportmode = RMode.canonical ∨
      ctx.opts.reportmode = RMode.fast)
    (c : GitCommit) (branch : String) {st : ExpState} {defs : List Nat}
    (hinv : MInv ctx R st defs)
    (hfiles : ∀ fr ∈ c.files, fr.fid ∈ ctx.genFids)
    (hpar : ∀ p, c.parentC = some p →
      p.cid ∈ st.serialC.map Prod.fst ∧ p.cid ≠ c.cid) :
    streamOKFrom defs (export_commit ctx c branch true st).2 = true ∧
    MInv ctx R (export_commit ctx c branch true st).1
      (defs ++ defsOfList (export_commit ctx c branch true st).2) ∧
    (export_commit ctx c branch true st).1.serialC
      = (c.cid, st.seqno + 1) :: st.serialC ∧
    (export_commit ctx c branch true st).1.seqno = st.seqno + 1 := by
  have hopsGen : ∀ mode rev path,
      BOp.M mode rev path ∈ opsPreOf ctx c → rev.fid ∈ ctx.genFids := by
    intro mode rev path h
    exact hfiles rev (opsPre_M_files ctx c mode rev path h)
  have hbp : MInv ctx R (blobPass ctx true (opsPreOf ctx c) st).1
        (defs ++ defsOfList (blobPass ctx true (opsPreOf ctx c) st).2) ∧
      streamOKFrom defs (blobPass ctx true (opsPreOf ctx c) st).2 = true ∧
      (blobPass ctx true (opsPreOf ctx c) st).1.serialC = st.serialC ∧
      (blobPass ctx true (opsPreOf ctx c) st).1.seqno = st.seqno ∧
      (∀ mode rev path, BOp.M mode rev path ∈ opsPreOf ctx c →
        mmLookup (blobPass ctx true (opsPreOf ctx c) st).1
          (ctx.serialOfRev rev.fid)
          ∈ defs ++ defsOfList (blobPass ctx true (opsPreOf ctx c) st).2) := by
    rcases hmode with hcan | hfast
    · have h := blobPass_invar hser hcan true (opsPreOf ctx c) st defs
        hinv hopsGen
      refine ⟨h.1, h.2.1, h.2.2.1, h.2.2.2.1, ?_⟩
      intro mode rev path hm
      have hem := h.2.2.2.2.2 rfl mode rev path hm
      exact (h.1.2.1 rev.fid hem).2
    · have hbpf := blobPass_fast hfast true (opsPreOf ctx c) st
      rw [hbpf]
      refine ⟨by simpa [defsOfList] using hinv, rfl, rfl, rfl, ?_⟩
      intro mode rev path hm
      have := hinv.2.2.1 hfast rev.fid (hopsGen mode rev path hm)
      simpa [defsOfList] using this
  obtain ⟨hbp1, hbp2, hbp3, hbp4, hbpM⟩ := hbp
  obtain ⟨csInv, csSelf, csMSelf, csSC, csSeq, csMark, csEm, csOther, csMM⟩ :=
    commitSerialize_invar hser c hbp1
  have hRseq : R ≤ (blobPass ctx true (opsPreOf ctx c) st).1.seqno := hbp1.1
  have hfrom : ∀ p, c.parentC = some p →
      mmLookup (commitSerialize c (blobPass ctx true (opsPreOf ctx c) st).1)
        (scLookup (commitSerialize c
          (blobPass ctx true (opsPreOf ctx c) st).1) p.cid)
        ∈ defs ++ defsOfList (blobPass ctx true (opsPreOf ctx c) st).2 := by
    intro p hp
    obtain ⟨hpmem, hpne⟩ := hpar p hp
    have hpmem2 : p.cid ∈ (blobPass ctx true
        (opsPreOf ctx c) st).1.serialC.map Prod.fst := by
      rw [hbp3]
      exact hpmem
    have hc4 := hbp1.2.2.2 p.cid hpmem2
    rw [csOther p.cid hpne, csMM _ hc4.2.1]
    exact hc4.2.2
  have hops2 : ∀ mode rev path,
      BOp.M mode rev path ∈ sortByB bopLE (opsPreOf ctx c) →
      mmLookup (commitSerialize c (blobPass ctx true (opsPreOf ctx c) st).1)
        (ctx.serialOfRev rev.fid)
        ∈ defs ++ defsOfList (blobPass ctx true (opsPreOf ctx c) st).2 := by
    intro mode rev path hm
    have hm2 : BOp.M mode rev path ∈ opsPreOf ctx c :=
      (sortByB_mem bopLE (opsPreOf ctx c) _).mp hm
    have hle : ctx.serialOfRev rev.fid ≤ R :=
      (hser.1 rev.fid (hopsGen mode rev path hm2)).2
    rw [csMM _ (by omega)]
    exact hbpM mode rev path hm2
  have hrefs := commitRecordOf_refs branch hfrom hops2
  have hcrst := commitRecordOf_state ctx c branch
    (commitSerialize c (blobPass ctx true (opsPreOf ctx c) st).1)
  rw [export_commit_true_eq]
  refine ⟨?_, ?_, ?_, ?_⟩
  · rw [streamOKFrom_append, hbp2]
    simp only [Bool.true_and, streamOKFrom, Bool.and_eq_true]
    refine ⟨?_, trivial⟩
    rw [List.all_eq_true]
    intro n hn
    exact List.elem_eq_true_of_mem (hrefs n hn)
  · have hdl : defs ++ defsOfList
        ((blobPass ctx true (opsPreOf ctx c) st).2 ++
          [(commitRecordOf ctx c branch (commitSerialize c
            (blobPass ctx true (opsPreOf ctx c) st).1)).2])
        = (defs ++ defsOfList (blobPass ctx true (opsPreOf ctx c) st).2)
          ++ [(blobPass ctx true (opsPreOf ctx c) st).1.mark + 1] := by
      rw [show defsOfList ((blobPass ctx true (opsPreOf ctx c) st).2 ++
          [(commitRecordOf ctx c branch (commitSerialize c
            (blobPass ctx true (opsPreOf ctx c) st).1)).2])
          = defsOfList (blobPass ctx true (opsPreOf ctx c) st).2 ++
            defsOfRec (commitRecordOf ctx c branch (commitSerialize c
              (blobPass ctx true (opsPreOf ctx c) st).1)).2 from by
        simp [defsOfList]]
      rw [commitRecordOf_defs]
      rw [show (commitSerialize c
          (blobPass ctx true (opsPreOf ctx c) st).1).mark
          = (blobPass ctx true (opsPreOf ctx c) st).1.mark + 1 from csMark]
      simp [List.append_assoc]
    rw [hdl]
    exact MInv_congr hcrst.1 hcrst.2.1 hcrst.2.2.2.2 hcrst.2.2.1 csInv
  · rw [hcrst.2.1, csSC, hbp3, hbp4]
  · rw [hcrst.2.2.1, csSeq, hbp4]

theorem defsOfList_append (xs ys : List Rec) :
    defsOfList (xs ++ ys) = defsOfList xs ++ defsOfList ys := by
  simp [defsOfList]

theorem topFromBG_append :
    ∀ (l1 l2 : List GitCommit) (seen : List Nat),
      topFromBG seen (l1 ++ l2)
        = (topFromBG seen l1 &&
            topFromBG (seen ++ l1.map GitCommit.cid) l2) := by
  intro l1
  induction l1 with
  | nil => intro l2 seen; simp [topFromBG]
  | cons c l1 ih =>
    intro l2 seen
    simp only [List.cons_append, topFromBG, List.append_eq, ih,
      List.map_cons, Bool.and_assoc, List.append_assoc, List.cons_append,
      List.nil_append, List.singleton_append]

theorem freshCidsG_append :
    ∀ (l1 l2 : List GitCommit) (seen : List Nat),
      freshCidsG seen (l1 ++ l2)
        = (freshCidsG seen l1 &&
            freshCidsG (seen ++ l1.map GitCommit.cid) l2) := by
  intro l1
  induction l1 with
  | nil => intro l2 seen; simp [freshCidsG]
  | cons c l1 ih =>
    intro l2 seen
    simp only [List.cons_append, freshCidsG, List.append_eq, ih,
      List.map_cons, Bool.and_assoc, List.append_assoc, List.cons_append,
      List.nil_append, List.singleton_append]

theorem tagEmit_defs (ctx : Ctx) (c : GitCommit) (tags : List Tag)
    (st : ExpState) :
    defsOfList (tagEmit ctx c tags st).2 = [] := by
  refine defsOfList_nil_of (fun r hr => ?_)
  obtain ⟨nm, m, rfl⟩ := tagEmit_tags ctx c tags st r hr
  rfl

theorem tagEmit_streamOK (ctx : Ctx) (c : GitCommit) (tags : List Tag)
    (st : ExpState) (defs : List Nat) :
    streamOKFrom defs (tagEmit ctx c tags st).2 = true := by
  refine streamOKFrom_noRefs defs _ (fun r hr => ?_)
  obtain ⟨nm, m, rfl⟩ := tagEmit_tags ctx c tags st r hr
  rfl

theorem resolveMode_cases (ft : Int) (rm : RMode) (ts : Nat) :
    resolveMode ft rm ts = RMode.canonical ∨
    resolveMode ft rm ts = RMode.fast := by
  unfold resolveMode
  split
  · exact Or.inl rfl
  · split
    · split
      · exact Or.inl rfl
      · exact Or.inr rfl
    · next h =>
      cases rm with
      | adaptive => exact absurd rfl h
      | fast => exact Or.inr rfl
      | canonical => exact Or.inl rfl

theorem canonLoop_streamOK {ctx : Ctx} {R : Nat} (hser : SerOK ctx R)
    (hcan : ctx.opts.reportmode = RMode.canonical)
    (hft : ¬ ctx.opts.fromtime > 0) (tags : List Tag) :
    ∀ (entries : List CSeq) (seen realized : List Nat)
      (st : ExpState) (defs : List Nat),
      MInv ctx R st defs →
      (∀ cid ∈ seen, cid ∈ st.serialC.map Prod.fst) →
      topFromB seen entries = true →
      freshCids seen entries = true →
      (∀ e ∈ entries, ∀ fr ∈ e.commit.files, fr.fid ∈ ctx.genFids) →
      streamOKFrom defs (canonLoop ctx tags entries realized st).2
        = true := by
  intro entries
  induction entries with
  | nil =>
    intro seen realized st defs _ _ _ _ _
    rfl
  | cons e rest ih =>
    intro seen realized st defs hinv hseen htop hfresh hfiles
    simp only [topFromB, Bool.and_eq_true] at htop
    simp only [freshCids, Bool.and_eq_true] at hfresh
    have hdec := canonDecide_nocutoff hft e realized st
    have h1 : (canonDecide ctx e realized st).1 = true := by rw [hdec]
    have h21 : (canonDecide ctx e realized st).2.1 = realized := by
      rw [hdec]
    have h221 : (canonDecide ctx e realized st).2.2.1 = [] := by rw [hdec]
    have h222 : (canonDecide ctx e realized st).2.2.2 = st := by rw [hdec]
    simp only [canonLoop, h1, h21, h221, h222, List.nil_append]
    have hpar : ∀ p, e.commit.parentC = some p →
        p.cid ∈ st.serialC.map Prod.fst ∧ p.cid ≠ e.commit.cid := by
      intro p hp
      rw [hp] at htop
      have hpm : p.cid ∈ seen :=
        List.mem_of_elem_eq_true htop.1
      refine ⟨hseen p.cid hpm, ?_⟩
      intro he
      have hx2 : seen.contains e.commit.cid = true :=
        List.elem_eq_true_of_mem (he ▸ hpm)
      rw [hx2] at hfresh
      simp at hfresh
    have hec := export_commit_invar hser (Or.inl hcan) e.commit e.refName
      hinv (fun fr hfr => hfiles e (by simp) fr hfr) hpar
    obtain ⟨acc, hte⟩ := tagEmit_onlyAccesses ctx e.commit tags
      (export_commit ctx e.commit e.refName true st).1
    rw [streamOKFrom_append, streamOKFrom_append, defsOfList_append,
      hec.1, tagEmit_streamOK, tagEmit_defs]
    simp only [Bool.true_and, List.append_nil]
    refine ih (seen ++ [e.commit.cid]) _ _ _ ?_ ?_ htop.2 hfresh.2
      (fun e2 he2 => hfiles e2 (by simp [he2]))
    · exact MInv_congr (by rw [hte]) (by rw [hte]) (by rw [hte])
        (by rw [hte]) hec.2.1
    · intro cid hcid
      have hsc : (tagEmit ctx e.commit tags
          (export_commit ctx e.commit e.refName true st).1).1.serialC
          = (e.commit.cid, st.seqno + 1) :: st.serialC := by
        rw [hte]
        exact hec.2.2.1
      rw [hsc]
      simp only [List.map_cons, List.mem_cons]
      rcases List.mem_append.mp hcid with hcid | hcid
      · exact Or.inr (hseen cid hcid)
      · simp only [List.mem_singleton] at hcid
        exact Or.inl hcid

theorem fastBranchLoop_streamOK {ctx : Ctx} {R : Nat} (hser : SerOK ctx R)
    (hfast : ctx.opts.reportmode = RMode.fast) (tags : List Tag)
    (refName : String) :
    ∀ (chain : List GitCommit) (seen : List Nat) (st : ExpState)
      (defs : List Nat),
      MInv ctx R st defs →
      (∀ cid ∈ seen, cid ∈ st.serialC.map Prod.fst) →
      topFromBG seen chain = true →
      freshCidsG seen chain = true →
      (∀ c ∈ chain, ∀ fr ∈ c.files, fr.fid ∈ ctx.genFids) →
      streamOKFrom defs
        (fastBranchLoop ctx tags refName chain st).2 = true ∧
      MInv ctx R (fastBranchLoop ctx tags refName chain st).1
        (defs ++ defsOfList (fastBranchLoop ctx tags refName chain st).2) ∧
      (∀ cid, (cid ∈ seen ∨ cid ∈ chain.map GitCommit.cid) →
        cid ∈ (fastBranchLoop ctx tags refName chain st).1.serialC.map
          Prod.fst) := by
  intro chain
  induction chain with
  | nil =>
    intro seen st defs hinv hseen _ _ _
    refine ⟨rfl, by simpa [fastBranchLoop, defsOfList] using hinv, ?_⟩
    intro cid hcid
    rcases hcid with hcid | hcid
    · exact hseen cid hcid
    · simp at hcid
  | cons c crest ih =>
    intro seen st defs hinv hseen htop hfresh hfiles
    simp only [topFromBG, Bool.and_eq_true] at htop
    simp only [freshCidsG, Bool.and_eq_true] at hfresh
    have hpar : ∀ p, c.parentC = some p →
        p.cid ∈ st.serialC.map Prod.fst ∧ p.cid ≠ c.cid := by
      intro p hp
      rw [hp] at htop
      have hpm : p.cid ∈ seen := List.mem_of_elem_eq_true htop.1
      refine ⟨hseen p.cid hpm, ?_⟩
      intro he
      have hx2 : seen.contains c.cid = true :=
        List.elem_eq_true_of_mem (he ▸ hpm)
      rw [hx2] at hfresh
      simp at hfresh
    have hec := export_commit_invar hser (Or.inr hfast) c refName
      hinv (fun fr hfr => hfiles c (by simp) fr hfr) hpar
    obtain ⟨acc, hte⟩ := tagEmit_onlyAccesses ctx c tags
      (export_commit ctx c refName true st).1
    have hinv2 : MInv ctx R (tagEmit ctx c tags
        (export_commit ctx c refName true st).1).1
        (defs ++ defsOfList (export_commit ctx c refName true st).2) :=
      MInv_congr (by rw [hte]) (by rw [hte]) (by rw [hte])
        (by rw [hte]) hec.2.1
    have hseen2 : ∀ cid ∈ seen ++ [c.cid],
        cid ∈ (tagEmit ctx c tags
          (export_commit ctx c refName true st).1).1.serialC.map
            Prod.fst := by
      intro cid hcid
      have hsc : (tagEmit ctx c tags
          (export_commit ctx c refName true st).1).1.serialC
          = (c.cid, st.seqno + 1) :: st.serialC := by
        rw [hte]
        exact hec.2.2.1
      rw [hsc]
      simp only [List.map_cons, List.mem_cons]
      rcases List.mem_append.mp hcid with hcid | hcid
      · exact Or.inr (hseen cid hcid)
      · simp only [List.mem_singleton] at hcid
        exact Or.inl hcid
    have hrest := ih (seen ++ [c.cid]) _ _ hinv2 hseen2 htop.2 hfresh.2
      (fun c2 hc2 => hfiles c2 (by simp [hc2]))
    simp only [fastBranchLoop]
    refine ⟨?_, ?_, ?_⟩
    · rw [streamOKFrom_append, streamOKFrom_append, hec.1,
        tagEmit_streamOK, defsOfList_append, tagEmit_defs]
      simp only [Bool.true_and, List.append_nil]
      exact hrest.1
    · have hdl : defs ++ defsOfList
          ((export_commit ctx c refName true st).2 ++
            (tagEmit ctx c tags
              (export_commit ctx c refName true st).1).2 ++
            (fastBranchLoop ctx tags refName crest
              (tagEmit ctx c tags
                (export_commit ctx c refName true st).1).1).2)
          = (defs ++ defsOfList (export_commit ctx c refName true st).2)
            ++ defsOfList (fastBranchLoop ctx tags refName crest
              (tagEmit ctx c tags
                (export_commit ctx c refName true st).1).1).2 := by
        simp only [defsOfList, List.flatMap_append, List.append_assoc,
          List.append_cancel_left_eq]
        rw [show (tagEmit ctx c tags
            (export_commit ctx c refName true st).1).2.flatMap defsOfRec
            = defsOfList (tagEmit ctx c tags
              (export_commit ctx c refName true st).1).2 from rfl]
        rw [tagEmit_defs]
        rfl
      rw [hdl]
      exact hrest.2.1
    · intro cid hcid
      refine hrest.2.2 cid ?_
      rcases hcid with hcid | hcid
      · exact Or.inl (List.mem_append.mpr (Or.inl hcid))
      · simp only [List.map_cons, List.mem_cons] at hcid
        rcases hcid with hcid | hcid
        · exact Or.inl (List.mem_append.mpr (Or.inr (by simp [hcid])))
        · exact Or.inr hcid

theorem fastLoop_streamOK {ctx : Ctx} {R : Nat} (hser : SerOK ctx R)
    (hfast : ctx.opts.reportmode = RMode.fast) (tags : List Tag) :
    ∀ (heads : List Head) (seen : List Nat) (st : ExpState)
      (defs : List Nat),
      MInv ctx R st defs →
      (∀ cid ∈ seen, cid ∈ st.serialC.map Prod.fst) →
      topFromBG seen (fastOrder heads) = true →
      freshCidsG seen (fastOrder heads) = true →
      (∀ c ∈ fastOrder heads, ∀ fr ∈ c.files, fr.fid ∈ ctx.genFids) →
      streamOKFrom defs (fastLoop ctx tags heads st).2 = true := by
  intro heads
  induction heads with
  | nil =>
    intro seen st defs _ _ _ _ _
    rfl
  | cons h rest ih =>
    intro seen st defs hinv hseen htop hfresh hfiles
    cases hb : h.tail with
    | true =>
      have hfo : fastOrder (h :: rest) = fastOrder rest := by
        simp [fastOrder, List.filter_cons, hb]
      rw [hfo] at htop hfresh hfiles
      simp only [fastLoop, hb, if_pos]
      exact ih seen st defs hinv hseen htop hfresh hfiles
    | false =>
      have hfo : fastOrder (h :: rest)
          = (chainOf h.commit).reverse ++ fastOrder rest := by
        simp [fastOrder, List.filter_cons, hb]
      rw [hfo] at htop hfresh hfiles
      rw [topFromBG_append] at htop
      rw [freshCidsG_append] at hfresh
      simp only [Bool.and_eq_true] at htop hfresh
      have hfb := fastBranchLoop_streamOK hser hfast tags h.refName
        (chainOf h.commit).reverse seen st defs hinv hseen
        htop.1 hfresh.1
        (fun c hc => hfiles c (List.mem_append.mpr (Or.inl hc)))
      have hrest := ih (seen ++ (chainOf h.commit).reverse.map
          GitCommit.cid) _ _ hfb.2.1
        (fun cid hcid => hfb.2.2 cid (by
          rcases List.mem_append.mp hcid with hc | hc
          · exact Or.inl hc
          · exact Or.inr hc))
        htop.2 hfresh.2
        (fun c hc => hfiles c (List.mem_append.mpr (Or.inr hc)))
      simp only [fastLoop, hb]
      rw [if_neg (by simp)]
      rw [streamOKFrom_append, hfb.1]
      simp only [Bool.true_and]
      exact hrest

theorem accessesOK_append (b : Nat) (l1 l2 : List (Bool × Nat)) :
    accessesOK b (l1 ++ l2) = (accessesOK b l1 && accessesOK b l2) := by
  simp [accessesOK, List.all_append]

theorem insertSorted_length {α : Type} (le : α → α → Bool) (x : α) :
    ∀ (l : List α), (insertSorted le x l).length = l.length + 1 := by
  intro l
  induction l with
  | nil => rfl
  | cons y ys ih =>
    simp only [insertSorted]
    split
    · rfl
    · simp [ih]

theorem sortByB_length {α : Type} (le : α → α → Bool) :
    ∀ (l : List α), (sortByB le l).length = l.length := by
  intro l
  induction l with
  | nil => rfl
  | cons x xs ih =>
    simp only [sortByB, insertSorted_length, ih, List.length_cons]

theorem canonicalize_length_aux :
    ∀ (heads : List Head) (n : Nat),
      ((((heads.enumFrom n).filter (fun p => !p.2.tail)).flatMap (fun p =>
        (chainOf p.2.commit).reverse.map
          (fun c => (⟨c, p.1, p.2.refName⟩ : CSeq)))).length)
      = export_ncommit heads := by
  intro heads
  induction heads with
  | nil =>
    intro n
    rfl
  | cons h rest ih =>
    intro n
    cases hb : h.tail with
    | true =>
      simp only [List.enumFrom]
      rw [show List.filter (fun p => !p.2.tail)
          ((n, h) :: List.enumFrom (n + 1) rest)
          = List.filter (fun p => !p.2.tail) (List.enumFrom (n + 1) rest)
        from by simp [List.filter_cons, hb]]
      rw [show export_ncommit (h :: rest) = export_ncommit rest from by
        simp [export_ncommit, List.filter_cons, hb]]
      exact ih (n + 1)
    | false =>
      simp only [List.enumFrom]
      rw [show List.filter (fun p => !p.2.tail)
          ((n, h) :: List.enumFrom (n + 1) rest)
          = (n, h) ::
            List.filter (fun p => !p.2.tail) (List.enumFrom (n + 1) rest)
        from by simp [List.filter_cons, hb]]
      rw [show export_ncommit (h :: rest)
          = (chainOf h.commit).length + export_ncommit rest from by
        simp [export_ncommit, List.filter_cons, hb]]
      simp only [List.flatMap_cons, List.length_append, List.length_map,
        List.length_reverse]
      rw [ih (n + 1)]

theorem canonHist_length (heads : List Head) :
    (canonHist heads).length = export_ncommit heads := by
  have hc : (canonicalize heads).length = export_ncommit heads :=
    canonicalize_length_aux heads 0
  unfold canonHist sortHistory
  split
  · rw [sortByB_length]
    exact hc
  · exact hc

theorem fastOrder_length (heads : List Head) :
    (fastOrder heads).length = export_ncommit heads := by
  induction heads with
  | nil => rfl
  | cons h rest ih =>
    cases hb : h.tail with
    | true =>
      rw [show fastOrder (h :: rest) = fastOrder rest from by
        simp [fastOrder, List.filter_cons, hb]]
      rw [show export_ncommit (h :: rest) = export_ncommit rest from by
        simp [export_ncommit, List.filter_cons, hb]]
      exact ih
    | false =>
      rw [show fastOrder (h :: rest)
          = (chainOf h.commit).reverse ++ fastOrder rest from by
        simp [fastOrder, List.filter_cons, hb]]
      rw [show export_ncommit (h :: rest)
          = (chainOf h.commit).length + export_ncommit rest from by
        simp [export_ncommit, List.filter_cons, hb]]
      simp [ih]

theorem generatePhase_canon_accesses :
    ∀ (l : List FileRev) (st : ExpState),
      (generatePhase RMode.canonical l st).1.accesses = st.accesses := by
  intro l
  induction l with
  | nil => intro st; rfl
  | cons fr rest ih =>
    intro st
    simp only [generatePhase]
    rw [if_neg (by decide : ¬ (RMode.canonical = RMode.fast))]
    exact ih _

theorem generatePhase_fast_accesses {bound : Nat} :
    ∀ (l : List FileRev) (st : ExpState),
      accessesOK bound st.accesses = true →
      st.seqno + l.length ≤ bound →
      accessesOK bound (generatePhase RMode.fast l st).1.accesses
        = true := by
  intro l
  induction l with
  | nil =>
    intro st hacc _
    exact hacc
  | cons fr rest ih =>
    intro st hacc hb
    simp only [generatePhase]
    rw [if_pos trivial]
    refine ih _ ?_ ?_
    · show accessesOK bound
        (st.accesses ++ [(true, st.seqno + 1)]) = true
      rw [accessesOK_append, hacc]
      simp only [Bool.true_and, accessesOK, List.all_cons, List.all_nil,
        Bool.and_true]
      simp only [List.length_cons] at hb
      simp
      omega
    · show st.seqno + 1 + rest.length ≤ bound
      simp only [List.length_cons] at hb
      omega

theorem accessesOK_push {bound : Nat} {l : List (Bool × Nat)}
    (h : accessesOK bound l = true) {w : Bool} {i : Nat}
    (h1 : 1 ≤ i) (h2 : i ≤ bound) :
    accessesOK bound (l ++ [(w, i)]) = true := by
  rw [accessesOK_append, h]
  simp [accessesOK]
  omega

theorem ddArg_accesses {bound : Nat} (st : ExpState) (f : Bool) (i : Nat)
    (h : accessesOK bound st.accesses = true) (h1 : 1 ≤ i)
    (h2 : i ≤ bound) :
    accessesOK bound (ddArg st f i).2.accesses = true := by
  unfold ddArg
  split
  · exact accessesOK_push h h1 h2
  · exact h

theorem blobPass_binv {ctx : Ctx} {R bound : Nat} (hser : SerOK ctx R)
    (hRb : R ≤ bound) (report : Bool) :
    ∀ (ops : List BOp) (st : ExpState),
      BInv bound st →
      (∀ mode rev path, BOp.M mode rev path ∈ ops →
        rev.fid ∈ ctx.genFids) →
      BInv bound (blobPass ctx report ops st).1 ∧
      (blobPass ctx report ops st).1.serialC = st.serialC ∧
      (blobPass ctx report ops st).1.seqno = st.seqno := by
  intro ops
  induction ops with
  | nil =>
    intro st h _
    exact ⟨h, rfl, rfl⟩
  | cons op rest ih =>
    intro st hinv hops
    match op with
    | BOp.D p =>
      have h := ih st hinv
        (fun m r q hm => hops m r q (List.mem_cons_of_mem _ hm))
      exact ⟨by simpa [blobPass] using h.1, by simpa [blobPass] using h.2.1,
        by simpa [blobPass] using h.2.2⟩
    | BOp.M mode rev path =>
      have hops2 : ∀ m r q, BOp.M m r q ∈ rest → r.fid ∈ ctx.genFids :=
        fun m r q hm => hops m r q (List.mem_cons_of_mem _ hm)
      have hrevg : rev.fid ∈ ctx.genFids := hops mode rev path (by simp)
      by_cases hmem : rev.fid ∈ st.emitted
      · have h := ih st hinv hops2
        exact ⟨by simpa [blobPass, hmem] using h.1,
          by simpa [blobPass, hmem] using h.2.1,
          by simpa [blobPass, hmem] using h.2.2⟩
      · by_cases hcan : ctx.opts.reportmode = RMode.canonical
        · have hinv1 : BInv bound
              { mmWrite st (ctx.serialOfRev rev.fid) (st.mark + 1) with
                mark := st.mark + 1 } := by
            obtain ⟨h1, h2, h3⟩ := hinv
            refine ⟨fun cid hcid => h1 cid hcid, h2, ?_⟩
            show accessesOK bound
              (st.accesses ++ [(true, ctx.serialOfRev rev.fid)]) = true
            have hb := hser.1 rev.fid hrevg
            exact accessesOK_push h3 hb.1 (by omega)
          by_cases hrep : report = true
          · subst hrep
            have hinv2 : BInv bound
                { mmWrite st (ctx.serialOfRev rev.fid) (st.mark + 1) with
                  mark := st.mark + 1,
                  emitted := st.emitted ++ [rev.fid] } := hinv1
            have h := ih _ hinv2 hops2
            have hout : blobPass ctx true (BOp.M mode rev path :: rest) st
                = ((blobPass ctx true rest
                    { mmWrite st (ctx.serialOfRev rev.fid) (st.mark + 1) with
                      mark := st.mark + 1,
                      emitted := st.emitted ++ [rev.fid] }).1,
                   Rec.blob (st.mark + 1) ::
                    (blobPass ctx true rest
                      { mmWrite st (ctx.serialOfRev rev.fid)
                          (st.mark + 1) with
                        mark := st.mark + 1,
                        emitted := st.emitted ++ [rev.fid] }).2) := by
              simp only [blobPass]
              rw [if_neg hmem, if_pos hcan, if_pos ⟨trivial, hcan⟩,
                if_pos hrevg]
              rfl
            rw [hout]
            exact ⟨h.1, h.2.1, h.2.2⟩
          · have h := ih _ hinv1 hops2
            have hout : blobPass ctx report (BOp.M mode rev path :: rest) st
                = blobPass ctx report rest
                    { mmWrite st (ctx.serialOfRev rev.fid) (st.mark + 1) with
                      mark := st.mark + 1 } := by
              simp only [blobPass]
              rw [if_neg hmem, if_pos hcan,
                if_neg (fun hx => hrep hx.1)]
            rw [hout]
            exact ⟨h.1, h.2.1, h.2.2⟩
        · have h := ih st hinv hops2
          have hout : blobPass ctx report (BOp.M mode rev path :: rest) st
              = blobPass ctx report rest st := by
            simp only [blobPass]
            rw [if_neg hmem, if_neg hcan, if_neg (fun hx => hcan hx.2)]
          rw [hout]
          exact ⟨h.1, h.2.1, h.2.2⟩

theorem commitSerialize_binv {bound : Nat} (c : GitCommit) {st : ExpState}
    (hinv : BInv bound st) (hb : st.seqno + 1 ≤ bound) :
    BInv bound (commitSerialize c st) ∧
    (commitSerialize c st).serialC = (c.cid, st.seqno + 1) :: st.serialC ∧
    (commitSerialize c st).seqno = st.seqno + 1 := by
  obtain ⟨h1, h2, h3⟩ := hinv
  have hself : scLookup (commitSerialize c st) c.cid = st.seqno + 1 := by
    simp [commitSerialize, scLookup, mmWrite, List.lookup]
  have hother : ∀ cid, cid ≠ c.cid →
      scLookup (commitSerialize c st) cid = scLookup st cid := by
    intro cid hne
    simp only [commitSerialize, scLookup, mmWrite, List.lookup]
    rw [show (cid == c.cid) = false from beq_eq_false_iff_ne.mpr hne]
  refine ⟨⟨?_, hb, ?_⟩, rfl, rfl⟩
  · intro cid hcid
    by_cases hce : cid = c.cid
    · subst hce
      rw [hself]
      exact ⟨by omega, le_refl _⟩
    · have hcid2 : cid ∈ st.serialC.map Prod.fst := by
        have hx : cid ∈ List.map Prod.fst
            ((c.cid, st.seqno + 1) :: st.serialC) := hcid
        simp only [List.map_cons, List.mem_cons] at hx
        rcases hx with h' | h'
        · exact absurd h' hce
        · exact h'
      have hc := h1 cid hcid2
      rw [hother cid hce]
      refine ⟨hc.1, ?_⟩
      show scLookup st cid ≤ st.seqno + 1
      omega
  · show accessesOK bound (st.accesses ++ [(true, st.seqno + 1)]) = true
    exact accessesOK_push h3 (by omega) hb

theorem emitOps_accesses {ctx : Ctx} {R bound : Nat} (hser : SerOK ctx R)
    (hRb : R ≤ bound) :
    ∀ (ops : List BOp) (st : ExpState),
      accessesOK bound st.accesses = true →
      (∀ mode rev path, BOp.M mode rev path ∈ ops →
        rev.fid ∈ ctx.genFids) →
      accessesOK bound (emitOps ctx ops st).1.accesses = true := by
  intro ops
  induction ops with
  | nil =>
    intro st h _
    exact h
  | cons op rest ih =>
    intro st hacc hops
    match op with
    | BOp.M mode rev path =>
      have hrevg : rev.fid ∈ ctx.genFids := hops mode rev path (by simp)
      have hb := hser.1 rev.fid hrevg
      have hacc2 : accessesOK bound
          (st.accesses ++ [(false, ctx.serialOfRev rev.fid)]) = true :=
        accessesOK_push hacc hb.1 (by omega)
      simp only [emitOps]
      split
      · exact ih _ hacc2
          (fun m r q hm => hops m r q (List.mem_cons_of_mem _ hm))
      · exact ih _ hacc2
          (fun m r q hm => hops m r q (List.mem_cons_of_mem _ hm))
    | BOp.D p =>
      simp only [emitOps]
      split
      · exact ih _ hacc
          (fun m r q hm => hops m r q (List.mem_cons_of_mem _ hm))
      · exact ih _ hacc
          (fun m r q hm => hops m r q (List.mem_cons_of_mem _ hm))

theorem commitRecordOf_binv {ctx : Ctx} {R bound : Nat} (hser : SerOK ctx R)
    (hRb : R ≤ bound) (c : GitCommit) (branch : String) {st : ExpState}
    (hinv : BInv bound st)
    (hfiles : ∀ fr ∈ c.files, fr.fid ∈ ctx.genFids)
    (hpar : ∀ p, c.parentC = some p → p.cid ∈ st.serialC.map Prod.fst) :
    BInv bound (commitRecordOf ctx c branch st).1 := by
  obtain ⟨h1, h2, h3⟩ := hinv
  have hst := commitRecordOf_state ctx c branch st
  have hopsS : ∀ mode rev path,
      BOp.M mode rev path ∈ sortByB bopLE (opsPreOf ctx c) →
      rev.fid ∈ ctx.genFids := by
    intro mode rev path hm
    exact hfiles rev (opsPre_M_files ctx c mode rev path
      ((sortByB_mem bopLE (opsPreOf ctx c) _).mp hm))
  refine ⟨?_, ?_, ?_⟩
  · intro cid hcid
    rw [hst.2.1] at hcid
    rw [scLookup_congr hst.2.1, hst.2.2.1]
    exact h1 cid hcid
  · rw [hst.2.2.1]
    exact h2
  · cases hpc : c.parentC with
    | none =>
      simp only [commitRecordOf, hpc]
      split
      · show accessesOK bound (emitOps ctx
          (sortByB bopLE (opsPreOf ctx c)) st).1.accesses = true
        exact emitOps_accesses hser hRb _ st h3 hopsS
      · exact emitOps_accesses hser hRb _ st h3 hopsS
    | some p =>
      have hidx := h1 p.cid (hpar p hpc)
      have hacc2 : accessesOK bound
          (st.accesses ++ [(false, scLookup st p.cid)]) = true :=
        accessesOK_push h3 hidx.1 (by omega)
      simp only [commitRecordOf, hpc]
      split
      · show accessesOK bound (emitOps ctx
          (sortByB bopLE (opsPreOf ctx c))
          (mmRead st (scLookup st p.cid)).2).1.accesses = true
        exact emitOps_accesses hser hRb _ _ hacc2 hopsS
      · exact emitOps_accesses hser hRb _ _ hacc2 hopsS

theorem tagEmit_accesses {bound : Nat} (ctx : Ctx) (c : GitCommit) :
    ∀ (tags : List Tag) (st : ExpState),
      BInv bound st → c.cid ∈ st.serialC.map Prod.fst →
      accessesOK bound (tagEmit ctx c tags st).1.accesses = true := by
  intro tags
  induction tags with
  | nil =>
    intro st hinv _
    exact hinv.2.2
  | cons t rest ih =>
    intro st hinv hc
    obtain ⟨h1, h2, h3⟩ := hinv
    have hidx := h1 c.cid hc
    simp only [tagEmit]
    split
    · obtain ⟨a1, hdr⟩ :=
        ddArg_onlyAccesses st ctx.opts.force_dates (scLookup st c.cid)

      have hdracc : accessesOK bound
          (ddArg st ctx.opts.force_dates (scLookup st c.cid)).2.accesses
          = true :=
        ddArg_accesses st _ _ h3 hidx.1 (by omega)
      have hinv2 : BInv bound
          (ddArg st ctx.opts.force_dates (scLookup st c.cid)).2 := by
        refine ⟨?_, ?_, hdracc⟩
        · intro cid hcid
          rw [hdr] at hcid ⊢
          exact h1 cid hcid
        · rw [hdr]
          exact h2
      split
      · have hsc2 : scLookup
            (ddArg st ctx.opts.force_dates (scLookup st c.cid)).2 c.cid
            = scLookup st c.cid := by
          rw [hdr]
          rfl
        have hinv3 : BInv bound
            (mmRead (ddArg st ctx.opts.force_dates (scLookup st c.cid)).2
              (scLookup (ddArg st ctx.opts.force_dates
                (scLookup st c.cid)).2 c.cid)).2 := by
          obtain ⟨g1, g2, g3⟩ := hinv2
          refine ⟨fun cid hcid => g1 cid hcid, g2, ?_⟩
          rw [hsc2]
          exact accessesOK_push g3 hidx.1 (by omega)
        refine ih _ hinv3 ?_
        rw [show (mmRead (ddArg st ctx.opts.force_dates
            (scLookup st c.cid)).2
            (scLookup (ddArg st ctx.opts.force_dates
              (scLookup st c.cid)).2 c.cid)).2.serialC
            = st.serialC from by rw [hdr]; rfl]
        exact hc
      · refine ih _ hinv2 ?_
        rw [show (ddArg st ctx.opts.force_dates
            (scLookup st c.cid)).2.serialC = st.serialC from by rw [hdr]]
        exact hc
    · exact ih st ⟨h1, h2, h3⟩ hc

theorem canonDecide_accesses {bound : Nat} (ctx : Ctx) (e : CSeq)
    (realized : List Nat) (st : ExpState) (hinv : BInv bound st)
    (hpar : ∀ p, e.commit.parentC = some p →
      p.cid ∈ st.serialC.map Prod.fst) :
    accessesOK bound (canonDecide ctx e realized st).2.2.2.accesses
      = true := by
  obtain ⟨h1, h2, h3⟩ := hinv
  unfold canonDecide
  split
  · split
    · exact h3
    · split
      · exact h3
      · split
        · next p hp =>
          have hidx := h1 p.cid (hpar p hp)
          split
          · exact ddArg_accesses st _ _ h3 hidx.1 (by omega)
          · exact ddArg_accesses st _ _ h3 hidx.1 (by omega)
        · exact h3
  · exact h3

theorem branchResets_accesses {bound : Nat} (ctx : Ctx) :
    ∀ (heads : List Head) (st : ExpState),
      BInv bound st →
      (∀ h ∈ heads, h.commit.cid ∈ st.serialC.map Prod.fst) →
      accessesOK bound (branchResets ctx heads st).1.accesses = true := by
  intro heads
  induction heads with
  | nil =>
    intro st hinv _
    exact hinv.2.2
  | cons h rest ih =>
    intro st hinv hheads
    obtain ⟨h1, h2, h3⟩ := hinv
    have hidx := h1 h.commit.cid (hheads h (by simp))
    obtain ⟨a1, hdr⟩ :=
      ddArg_onlyAccesses st ctx.opts.force_dates (scLookup st h.commit.cid)
    have hdracc : accessesOK bound
        (ddArg st ctx.opts.force_dates
          (scLookup st h.commit.cid)).2.accesses = true :=
      ddArg_accesses st _ _ h3 hidx.1 (by omega)
    have hinv2 : BInv bound
        (ddArg st ctx.opts.force_dates (scLookup st h.commit.cid)).2 := by
      refine ⟨?_, ?_, hdracc⟩
      · intro cid hcid
        rw [hdr] at hcid ⊢
        exact h1 cid hcid
      · rw [hdr]
        exact h2
    simp only [branchResets]
    split
    · have hsc2 : scLookup
          (ddArg st ctx.opts.force_dates (scLookup st h.commit.cid)).2
            h.commit.cid
          = scLookup st h.commit.cid := by
        rw [hdr]
        rfl
      have hinv3 : BInv bound
          (mmRead (ddArg st ctx.opts.force_dates
            (scLookup st h.commit.cid)).2
            (scLookup (ddArg st ctx.opts.force_dates
              (scLookup st h.commit.cid)).2 h.commit.cid)).2 := by
        obtain ⟨g1, g2, g3⟩ := hinv2
        refine ⟨fun cid hcid => g1 cid hcid, g2, ?_⟩
        rw [hsc2]
        exact accessesOK_push g3 hidx.1 (by omega)
      refine ih _ hinv3 ?_
      intro h2x hh
      rw [show (mmRead (ddArg st ctx.opts.force_dates
          (scLookup st h.commit.cid)).2
          (scLookup (ddArg st ctx.opts.force_dates
            (scLookup st h.commit.cid)).2 h.commit.cid)).2.serialC
          = st.serialC from by rw [hdr]; rfl]
      exact hheads h2x (by simp [hh])
    · refine ih _ hinv2 ?_
      intro h2x hh
      rw [show (ddArg st ctx.opts.force_dates
          (scLookup st h.commit.cid)).2.serialC = st.serialC from by
        rw [hdr]]
      exact hheads h2x (by simp [hh])

theorem export_commit_binv {ctx : Ctx} {R bound : Nat} (hser : SerOK ctx R)
    (hRb : R ≤ bound) (c : GitCommit) (branch : String) (report : Bool)
    {st : ExpState} (hinv : BInv bound st) (hb : st.seqno + 1 ≤ bound)
    (hfiles : ∀ fr ∈ c.files, fr.fid ∈ ctx.genFids)
    (hpar : ∀ p, c.parentC = some p → p.cid ∈ st.serialC.map Prod.fst) :
    BInv bound (export_commit ctx c branch report st).1 ∧
    (export_commit ctx c branch report st).1.serialC
      = (c.cid, st.seqno + 1) :: st.serialC ∧
    (export_commit ctx c branch report st).1.seqno = st.seqno + 1 := by
  have hopsGen : ∀ mode rev path,
      BOp.M mode rev path ∈ opsPreOf ctx c → rev.fid ∈ ctx.genFids :=
    fun mode rev path h =>
      hfiles rev (opsPre_M_files ctx c mode rev path h)
  have hbp := blobPass_binv hser hRb report (opsPreOf ctx c) st hinv hopsGen
  have hcs := commitSerialize_binv c hbp.1
    (by rw [hbp.2.2]; exact hb)
  cases report with
  | false =>
    rw [export_commit_false_eq]
    exact ⟨hcs.1, by rw [hcs.2.1, hbp.2.1, hbp.2.2],
      by rw [hcs.2.2, hbp.2.2]⟩
  | true =>
    rw [export_commit_true_eq]
    have hparS : ∀ p, c.parentC = some p →
        p.cid ∈ (commitSerialize c
          (blobPass ctx true (opsPreOf ctx c) st).1).serialC.map
            Prod.fst := by
      intro p hp
      rw [hcs.2.1, hbp.2.1]
      simp only [List.map_cons, List.mem_cons]
      exact Or.inr (hpar p hp)
    have hcr := commitRecordOf_binv hser hRb c branch hcs.1 hfiles hparS
    have hcrst := commitRecordOf_state ctx c branch
      (commitSerialize c (blobPass ctx true (opsPreOf ctx c) st).1)
    refine ⟨hcr, ?_, ?_⟩
    · rw [hcrst.2.1, hcs.2.1, hbp.2.1, hbp.2.2]
    · rw [hcrst.2.2.1, hcs.2.2, hbp.2.2]

theorem canonDecide_state_eq (ctx : Ctx) (e : CSeq) (realized : List Nat)
    (st : ExpState) :
    (canonDecide ctx e realized st).2.2.2.serialC = st.serialC ∧
    (canonDecide ctx e realized st).2.2.2.seqno = st.seqno := by
  obtain ⟨acc, h⟩ := canonDecide_onlyAccesses ctx e realized st
  rw [h]
  exact ⟨rfl, rfl⟩

theorem canonDecide_binv {bound : Nat} (ctx : Ctx) (e : CSeq)
    (realized : List Nat) {st : ExpState} (hinv : BInv bound st)
    (hpar : ∀ p, e.commit.parentC = some p →
      p.cid ∈ st.serialC.map Prod.fst) :
    BInv bound (canonDecide ctx e realized st).2.2.2 := by
  obtain ⟨acc, h⟩ := canonDecide_onlyAccesses ctx e realized st
  refine ⟨?_, ?_, canonDecide_accesses ctx e realized st hinv hpar⟩
  · intro cid hcid
    rw [h] at hcid ⊢
    exact hinv.1 cid hcid
  · rw [h]
    exact hinv.2.1

theorem accessesOK_nonzero {b : Nat} {l : List (Bool × Nat)}
    (h : accessesOK b l = true) : ∀ a ∈ l, a.2 ≠ 0 := by
  intro a ha
  have hx := (List.all_eq_true.mp h) a ha
  simp only [Bool.and_eq_true, decide_eq_true_eq] at hx
  omega

theorem canonLoop_binv {ctx : Ctx} {R bound : Nat} (hser : SerOK ctx R)
    (hRb : R ≤ bound) (tags : List Tag) :
    ∀ (entries : List CSeq) (seen realized : List Nat) (st : ExpState),
      BInv bound st →
      (∀ cid ∈ seen, cid ∈ st.serialC.map Prod.fst) →
      topFromB seen entries = true →
      (∀ e ∈ entries, ∀ fr ∈ e.commit.files, fr.fid ∈ ctx.genFids) →
      st.seqno + entries.length ≤ bound →
      BInv bound (canonLoop ctx tags entries realized st).1 ∧
      (∀ cid, (cid ∈ seen ∨ cid ∈ entries.map (fun e => e.commit.cid)) →
        cid ∈ (canonLoop ctx tags entries realized st).1.serialC.map
          Prod.fst) := by
  intro entries
  induction entries with
  | nil =>
    intro seen realized st hinv hseen _ _ _
    refine ⟨hinv, ?_⟩
    intro cid hcid
    rcases hcid with hcid | hcid
    · exact hseen cid hcid
    · simp at hcid
  | cons e rest ih =>
    intro seen realized st hinv hseen htop hfiles hbudget
    simp only [topFromB, Bool.and_eq_true] at htop
    simp only [List.length_cons] at hbudget
    have hpar : ∀ p, e.commit.parentC = some p →
        p.cid ∈ st.serialC.map Prod.fst := by
      intro p hp
      rw [hp] at htop
      exact hseen p.cid (List.mem_of_elem_eq_true htop.1)
    have hdinv := canonDecide_binv ctx e realized hinv hpar
    obtain ⟨dacc, hdeq⟩ := canonDecide_onlyAccesses ctx e realized st
    have hdsc : (canonDecide ctx e realized st).2.2.2.serialC
        = st.serialC := by
      rw [hdeq]
    have hdsq : (canonDecide ctx e realized st).2.2.2.seqno = st.seqno := by
      rw [hdeq]
    have hec := export_commit_binv hser hRb e.commit e.refName
      (canonDecide ctx e realized st).1 hdinv
      (by rw [hdsq]; omega)
      (fun fr hfr => hfiles e (by simp) fr hfr)
      (fun p hp => by rw [hdsc]; exact hpar p hp)
    have hecC : (export_commit ctx e.commit e.refName
        (canonDecide ctx e realized st).1
        (canonDecide ctx e realized st).2.2.2).1.serialC
        = (e.commit.cid, st.seqno + 1) :: st.serialC := by
      rw [hec.2.1, hdsc, hdsq]
    have hecQ : (export_commit ctx e.commit e.refName
        (canonDecide ctx e realized st).1
        (canonDecide ctx e realized st).2.2.2).1.seqno
        = st.seqno + 1 := by
      rw [hec.2.2, hdsq]
    have hteacc := tagEmit_accesses ctx e.commit tags
      (export_commit ctx e.commit e.refName
        (canonDecide ctx e realized st).1
        (canonDecide ctx e realized st).2.2.2).1 hec.1
      (by rw [hecC]; simp)
    obtain ⟨ta, hte⟩ := tagEmit_onlyAccesses ctx e.commit tags
      (export_commit ctx e.commit e.refName
        (canonDecide ctx e realized st).1
        (canonDecide ctx e realized st).2.2.2).1
    have hteinv : BInv bound (tagEmit ctx e.commit tags
        (export_commit ctx e.commit e.refName
          (canonDecide ctx e realized st).1
          (canonDecide ctx e realized st).2.2.2).1).1 := by
      refine ⟨?_, ?_, hteacc⟩
      · intro cid hcid
        rw [hte] at hcid ⊢
        exact hec.1.1 cid hcid
      · rw [hte]
        exact hec.1.2.1
    have hteC : (tagEmit ctx e.commit tags
        (export_commit ctx e.commit e.refName
          (canonDecide ctx e realized st).1
          (canonDecide ctx e realized st).2.2.2).1).1.serialC
        = (e.commit.cid, st.seqno + 1) :: st.serialC := by
      rw [hte]
      exact hecC
    have hteQ : (tagEmit ctx e.commit tags
        (export_commit ctx e.commit e.refName
          (canonDecide ctx e realized st).1
          (canonDecide ctx e realized st).2.2.2).1).1.seqno
        = st.seqno + 1 := by
      rw [hte]
      exact hecQ
    have hrest := ih (seen ++ [e.commit.cid])
      (canonDecide ctx e realized st).2.1 _ hteinv
      (by
        intro cid hcid
        rw [hteC]
        simp only [List.map_cons, List.mem_cons]
        rcases List.mem_append.mp hcid with hcid | hcid
        · exact Or.inr (hseen cid hcid)
        · simp only [List.mem_singleton] at hcid
          exact Or.inl hcid)
      htop.2 (fun e2 he2 => hfiles e2 (by simp [he2]))
      (by rw [hteQ]; omega)
    simp only [canonLoop]
    refine ⟨hrest.1, ?_⟩
    intro cid hcid
    refine hrest.2 cid ?_
    rcases hcid with hcid | hcid
    · exact Or.inl (List.mem_append.mpr (Or.inl hcid))
    · simp only [List.map_cons, List.mem_cons] at hcid
      rcases hcid with hcid | hcid
      · exact Or.inl (List.mem_append.mpr (Or.inr (by simp [hcid])))
      · exact Or.inr hcid

theorem fastBranchLoop_binv {ctx : Ctx} {R bound : Nat} (hser : SerOK ctx R)
    (hRb : R ≤ bound) (tags : List Tag) (refName : String) :
    ∀ (chain : List GitCommit) (seen : List Nat) (st : ExpState),
      BInv bound st →
      (∀ cid ∈ seen, cid ∈ st.serialC.map Prod.fst) →
      topFromBG seen chain = true →
      (∀ c ∈ chain, ∀ fr ∈ c.files, fr.fid ∈ ctx.genFids) →
      st.seqno + chain.length ≤ bound →
      BInv bound (fastBranchLoop ctx tags refName chain st).1 ∧
      (∀ cid, (cid ∈ seen ∨ cid ∈ chain.map GitCommit.cid) →
        cid ∈ (fastBranchLoop ctx tags refName chain st).1.serialC.map
          Prod.fst) ∧
      (fastBranchLoop ctx tags refName chain st).1.seqno
        = st.seqno + chain.length := by
  intro chain
  induction chain with
  | nil =>
    intro seen st hinv hseen _ _ _
    refine ⟨hinv, ?_, rfl⟩
    intro cid hcid
    rcases hcid with hcid | hcid
    · exact hseen cid hcid
    · simp at hcid
  | cons c crest ih =>
    intro seen st hinv hseen htop hfiles hbudget
    simp only [topFromBG, Bool.and_eq_true] at htop
    simp only [List.length_cons] at hbudget
    have hpar : ∀ p, c.parentC = some p →
        p.cid ∈ st.serialC.map Prod.fst := by
      intro p hp
      rw [hp] at htop
      exact hseen p.cid (List.mem_of_elem_eq_true htop.1)
    have hec := export_commit_binv hser hRb c refName true hinv
      (by omega) (fun fr hfr => hfiles c (by simp) fr hfr) hpar
    have hteacc := tagEmit_accesses ctx c tags
      (export_commit ctx c refName true st).1 hec.1
      (by rw [hec.2.1]; simp)
    obtain ⟨ta, hte⟩ := tagEmit_onlyAccesses ctx c tags
      (export_commit ctx c refName true st).1
    have hteinv : BInv bound (tagEmit ctx c tags
        (export_commit ctx c refName true st).1).1 := by
      refine ⟨?_, ?_, hteacc⟩
      · intro cid hcid
        rw [hte] at hcid ⊢
        exact hec.1.1 cid hcid
      · rw [hte]
        exact hec.1.2.1
    have hteC : (tagEmit ctx c tags
        (export_commit ctx c refName true st).1).1.serialC
        = (c.cid, st.seqno + 1) :: st.serialC := by
      rw [hte]
      exact hec.2.1
    have hteQ : (tagEmit ctx c tags
        (export_commit ctx c refName true st).1).1.seqno
        = st.seqno + 1 := by
      rw [hte]
      exact hec.2.2
    have hrest := ih (seen ++ [c.cid]) _ hteinv
      (by
        intro cid hcid
        rw [hteC]
        simp only [List.map_cons, List.mem_cons]
        rcases List.mem_append.mp hcid with hcid | hcid
        · exact Or.inr (hseen cid hcid)
        · simp only [List.mem_singleton] at hcid
          exact Or.inl hcid)
      htop.2 (fun c2 hc2 => hfiles c2 (by simp [hc2]))
      (by rw [hteQ]; omega)
    simp only [fastBranchLoop]
    refine ⟨hrest.1, ?_, ?_⟩
    · intro cid hcid
      refine hrest.2.1 cid ?_
      rcases hcid with hcid | hcid
      · exact Or.inl (List.mem_append.mpr (Or.inl hcid))
      · simp only [List.map_cons, List.mem_cons] at hcid
        rcases hcid with hcid | hcid
        · exact Or.inl (List.mem_append.mpr (Or.inr (by simp [hcid])))
        · exact Or.inr hcid
    · rw [hrest.2.2, hteQ]
      simp only [List.length_cons]
      omega

theorem fastLoop_binv {ctx : Ctx} {R bound : Nat} (hser : SerOK ctx R)
    (hRb : R ≤ bound) (tags : List Tag) :
    ∀ (heads : List Head) (seen : List Nat) (st : ExpState),
      BInv bound st →
      (∀ cid ∈ seen, cid ∈ st.serialC.map Prod.fst) →
      topFromBG seen (fastOrder heads) = true →
      (∀ c ∈ fastOrder heads, ∀ fr ∈ c.files, fr.fid ∈ ctx.genFids) →
      st.seqno + (fastOrder heads).length ≤ bound →
      BInv bound (fastLoop ctx tags heads st).1 ∧
      (∀ cid, (cid ∈ seen ∨ cid ∈ (fastOrder heads).map GitCommit.cid) →
        cid ∈ (fastLoop ctx tags heads st).1.serialC.map Prod.fst) := by
  intro heads
  induction heads with
  | nil =>
    intro seen st hinv hseen _ _ _
    refine ⟨hinv, ?_⟩
    intro cid hcid
    rcases hcid with hcid | hcid
    · exact hseen cid hcid
    · simp [fastOrder] at hcid
  | cons h rest ih =>
    intro seen st hinv hseen htop hfiles hbudget
    cases hb : h.tail with
    | true =>
      have hfo : fastOrder (h :: rest) = fastOrder rest := by
        simp [fastOrder, List.filter_cons, hb]
      rw [hfo] at htop hfiles hbudget ⊢
      simp only [fastLoop, hb, if_pos]
      exact ih seen st hinv hseen htop hfiles hbudget
    | false =>
      have hfo : fastOrder (h :: rest)
          = (chainOf h.commit).reverse ++ fastOrder rest := by
        simp [fastOrder, List.filter_cons, hb]
      rw [hfo] at htop hfiles hbudget ⊢
      rw [topFromBG_append] at htop
      simp only [Bool.and_eq_true] at htop
      simp only [List.length_append] at hbudget
      have hfb := fastBranchLoop_binv hser hRb tags h.refName
        (chainOf h.commit).reverse seen st hinv hseen htop.1
        (fun c hc => hfiles c (List.mem_append.mpr (Or.inl hc)))
        (by omega)
      have hrest := ih (seen ++ (chainOf h.commit).reverse.map
          GitCommit.cid) _ hfb.1
        (fun cid hcid => hfb.2.1 cid (by
          rcases List.mem_append.mp hcid with hc | hc
          · exact Or.inl hc
          · exact Or.inr hc))
        htop.2
        (fun c hc => hfiles c (List.mem_append.mpr (Or.inr hc)))
        (by rw [hfb.2.2]; simp only [List.length_reverse, List.length_map]
            simp only [List.length_reverse] at hbudget ⊢
            omega)
      simp only [fastLoop, hb]
      rw [if_neg (by simp)]
      refine ⟨hrest.1, ?_⟩
      intro cid hcid
      refine hrest.2 cid ?_
      rcases hcid with hcid | hcid
      · exact Or.inl (List.mem_append.mpr (Or.inl hcid))
      · rw [List.map_append] at hcid
        rcases List.mem_append.mp hcid with hcid | hcid
        · exact Or.inl (List.mem_append.mpr (Or.inr hcid))
        · exact Or.inr hcid

theorem canonDecide_true_display {ctx : Ctx} {e : CSeq}
    {realized : List Nat} {st : ExpState} (hft : ctx.opts.fromtime > 0)
    (h : (canonDecide ctx e realized st).1 = true) :
    ctx.opts.fromtime < displayDate ctx e.commit (st.mark + 1) := by
  by_cases hdd : ctx.opts.fromtime ≥ displayDate ctx e.commit (st.mark + 1)
  · rw [canonDecide_suppressed hft hdd] at h
    simp at h
  · exact not_le.mp hdd

theorem canonDecide_anchor_eq {ctx : Ctx}
    (hforce : ctx.opts.force_dates = false) (hft : ctx.opts.fromtime > 0)
    {e : CSeq} {p : GitCommit} (hp : e.commit.parentC = some p)
    (hdd : ctx.opts.fromtime < e.commit.date + ctx.rcsEpoch)
    (hpd : p.date + ctx.rcsEpoch < ctx.opts.fromtime)
    {realized : List Nat} (hnr : e.headIdx ∉ realized) (st : ExpState) :
    canonDecide ctx e realized st
      = (true, realized ++ [e.headIdx],
         [Rec.anchor (ctx.opts.branchPfx ++ e.refName)], st) := by
  unfold canonDecide
  rw [if_pos hft]
  have h1 : ¬ (ctx.opts.fromtime ≥ displayDate ctx e.commit (st.mark + 1)) := by
    rw [displayDate_noforce hforce]
    omega
  rw [if_neg h1, if_neg hnr]
  simp only [hp]
  have h2 : displayDate ctx p
      (ddArg st ctx.opts.force_dates (scLookup st p.cid)).1 <
        ctx.opts.fromtime := by
    rw [displayDate_noforce hforce]
    omega
  rw [if_pos h2, hforce]
  rfl

theorem canonLoop_commitRecs {ctx : Ctx}
    (hforce : ctx.opts.force_dates = false) (hft : ctx.opts.fromtime > 0)
    (tags : List Tag) :
    ∀ (entries : List CSeq) (realized : List Nat) (st : ExpState),
      ∀ r ∈ (canonLoop ctx tags entries realized st).2,
        isCommitRec r = true →
          ∃ e, e ∈ entries ∧ isCommitOf e.commit.cid r = true ∧
            ctx.opts.fromtime < e.commit.date + ctx.rcsEpoch := by
  intro entries
  induction entries with
  | nil =>
    intro realized st r hr
    simp [canonLoop] at hr
  | cons e rest ih =>
    intro realized st r hr hcr
    simp only [canonLoop, List.mem_append] at hr
    rcases hr with ((hr | hr) | hr) | hr
    · rw [canonDecide_anchors ctx e realized st r hr] at hcr
      simp [isCommitRec] at hcr
    · cases hdec : (canonDecide ctx e realized st).1 with
      | false =>
        rw [hdec] at hr
        rw [export_commit_false_eq] at hr
        obtain ⟨m, rfl⟩ := blobPass_blobs ctx false _ _ r hr
        simp [isCommitRec] at hcr
      | true =>
        rw [hdec] at hr
        rcases export_commit_out_cases ctx e.commit e.refName true _ r hr
          with ⟨m, rfl⟩ | ⟨mk, fm, ops, rfl, _⟩
        · simp [isCommitRec] at hcr
        · refine ⟨e, by simp, by simp [isCommitOf], ?_⟩
          have hd := canonDecide_true_display hft hdec
          rw [displayDate_noforce hforce] at hd
          exact hd
    · obtain ⟨nm, m, rfl⟩ := tagEmit_tags ctx e.commit tags _ r hr
      simp [isCommitRec] at hcr
    · obtain ⟨e2, he2, hco, hlt⟩ := ih _ _ r hr hcr
      exact ⟨e2, by simp [he2], hco, hlt⟩

theorem canonLoop_append (ctx : Ctx) (tags : List Tag) :
    ∀ (l1 l2 : List CSeq) (realized : List Nat) (st : ExpState),
      (canonLoop ctx tags (l1 ++ l2) realized st).2
        = (canonLoop ctx tags l1 realized st).2 ++
          (canonLoop ctx tags l2
            (canonPrefix ctx tags l1 realized st).1
            (canonPrefix ctx tags l1 realized st).2).2 := by
  intro l1
  induction l1 with
  | nil =>
    intro l2 realized st
    simp [canonLoop, canonPrefix]
  | cons x l1 ih =>
    intro l2 realized st
    simp only [List.cons_append, canonLoop, canonPrefix, List.append_eq]
    rw [ih]
    simp [List.append_assoc]

theorem canonStep_anchor {ctx : Ctx}
    (hforce : ctx.opts.force_dates = false) (hft : ctx.opts.fromtime > 0)
    (tags : List Tag) {e : CSeq} {p : GitCommit}
    (hp : e.commit.parentC = some p)
    (hdd : ctx.opts.fromtime < e.commit.date + ctx.rcsEpoch)
    (hpd : p.date + ctx.rcsEpoch < ctx.opts.fromtime)
    (l2 : List CSeq) {realized : List Nat} (st : ExpState)
    (hnr : e.headIdx ∉ realized) :
    ∃ mid mk fm ops suf,
      (canonLoop ctx tags (e :: l2) realized st).2
        = Rec.anchor (ctx.opts.branchPfx ++ e.refName) ::
            (mid ++ Rec.commitRec e.commit.cid
              (ctx.opts.branchPfx ++ e.refName) mk fm ops :: suf) ∧
      (∀ r ∈ mid, ∃ m, r = Rec.blob m) := by
  have hdec := canonDecide_anchor_eq hforce hft hp hdd hpd hnr st
  have h1 : (canonDecide ctx e realized st).1 = true := by rw [hdec]
  have h21 : (canonDecide ctx e realized st).2.1
      = realized ++ [e.headIdx] := by rw [hdec]
  have h221 : (canonDecide ctx e realized st).2.2.1
      = [Rec.anchor (ctx.opts.branchPfx ++ e.refName)] := by rw [hdec]
  have h222 : (canonDecide ctx e realized st).2.2.2 = st := by rw [hdec]
  obtain ⟨mk, fm, ops, heq, _⟩ := commitRecordOf_shape ctx e.commit e.refName
    (commitSerialize e.commit
      (blobPass ctx true (opsPreOf ctx e.commit) st).1)
  have hec2 : (export_commit ctx e.commit e.refName true st).2
      = (blobPass ctx true (opsPreOf ctx e.commit) st).2 ++
        [(commitRecordOf ctx e.commit e.refName
          (commitSerialize e.commit
            (blobPass ctx true (opsPreOf ctx e.commit) st).1)).2] := rfl
  have hsplit : (canonLoop ctx tags (e :: l2) realized st).2
      = Rec.anchor (ctx.opts.branchPfx ++ e.refName) ::
          ((blobPass ctx true (opsPreOf ctx e.commit) st).2 ++
            Rec.commitRec e.commit.cid (ctx.opts.branchPfx ++ e.refName)
              mk fm ops ::
              ((tagEmit ctx e.commit tags
                 (export_commit ctx e.commit e.refName true st).1).2 ++
               (canonLoop ctx tags l2 (realized ++ [e.headIdx])
                 (tagEmit ctx e.commit tags
                   (export_commit ctx e.commit e.refName true st).1).1).2)) := by
    simp only [canonLoop, h1, h21, h221, h222]
    rw [hec2, heq]
    simp [List.append_assoc]
  exact ⟨(blobPass ctx true (opsPreOf ctx e.commit) st).2, mk, fm, ops,
    (tagEmit ctx e.commit tags
      (export_commit ctx e.commit e.refName true st).1).2 ++
    (canonLoop ctx tags l2 (realized ++ [e.headIdx])
      (tagEmit ctx e.commit tags
        (export_commit ctx e.commit e.refName true st).1).1).2,
    hsplit, blobPass_blobs ctx true _ st⟩

theorem canonLoop_anchor {ctx : Ctx}
    (hforce : ctx.opts.force_dates = false) (hft : ctx.opts.fromtime > 0)
    (tags : List Tag) {e : CSeq} {p : GitCommit}
    (hp : e.commit.parentC = some p)
    (hdd : ctx.opts.fromtime < e.commit.date + ctx.rcsEpoch)
    (hpd : p.date + ctx.rcsEpoch < ctx.opts.fromtime)
    (l1 l2 : List CSeq) (realized : List Nat) (st : ExpState)
    (hnr : e.headIdx ∉ (canonPrefix ctx tags l1 realized st).1) :
    ∃ pre mid mk fm ops suf,
      (canonLoop ctx tags (l1 ++ e :: l2) realized st).2
        = pre ++ Rec.anchor (ctx.opts.branchPfx ++ e.refName) ::
            (mid ++ Rec.commitRec e.commit.cid
              (ctx.opts.branchPfx ++ e.refName) mk fm ops :: suf) ∧
      (∀ r ∈ mid, ∃ m, r = Rec.blob m) := by
  rw [canonLoop_append]
  obtain ⟨mid, mk, fm, ops, suf, heq, hmid⟩ :=
    canonStep_anchor hforce hft tags hp hdd hpd l2
      (canonPrefix ctx tags l1 realized st).2 hnr
  rw [heq]
  exact ⟨(canonLoop ctx tags l1 realized st).2, mid, mk, fm, ops, suf,
    rfl, hmid⟩

/-- C9: every markmap access of an export run (logged as
`(isWrite, index)` in the access trace) hits a slot between 1 and
`total_revisions + total_commits`, within the allocated extent of
`total_revisions + total_commits + 1` slots, and slot 0 is never
written; under the precondition that every file revision of an exported
commit was numbered by a generator callback (and each parent exported
before its children, and every branch head's commit exported), in both
modes and for any cutoff and date options. -/
theorem markmap_bounds_spec :
    ∀ (ab : Atom → Bloom) (rcsEpoch : Int) (ctw : Nat) (f : Forest)
      (opts0 : Opts),
      topFromB [] (canonHist f.heads) = true →
      (∀ e ∈ canonHist f.heads, ∀ fr ∈ e.commit.files,
        fr.fid ∈ f.genSeq.map FileRev.fid) →
      (∀ h ∈ f.heads, h.commit.cid ∈
        (canonHist f.heads).map (fun e => e.commit.cid)) →
      topFromBG [] (fastOrder f.heads) = true →
      (∀ c ∈ fastOrder f.heads, ∀ fr ∈ c.files,
        fr.fid ∈ f.genSeq.map FileRev.fid) →
      (∀ h ∈ f.heads, h.commit.cid ∈
        (fastOrder f.heads).map GitCommit.cid) →
      accessesOK (f.genSeq.length + export_ncommit f.heads)
        (export_commits ab rcsEpoch ctw f opts0).1.accesses = true ∧
      (∀ a ∈ (export_commits ab rcsEpoch ctw f opts0).1.accesses,
        a.2 ≠ 0) := by
  intro ab rcsEpoch ctw f opts0 htopC hfilesC hheadsC htopF hfilesF hheadsF
  have hmain : accessesOK (f.genSeq.length + export_ncommit f.heads)
      (export_commits ab rcsEpoch ctw f opts0).1.accesses = true := by
    rcases resolveMode_cases opts0.fromtime opts0.reportmode f.textsize
      with hm | hm
    · have hout : (export_commits ab rcsEpoch ctw f opts0).1
          = (branchResets (canonCtx ab rcsEpoch ctw f opts0) f.heads
              (canonLoop (canonCtx ab rcsEpoch ctw f opts0) f.tags
                (canonHist f.heads) []
                (generatePhase RMode.canonical f.genSeq
                  initState).1).1).1 := by
        simp only [export_commits, hm, canonCtx]
        rw [if_neg (by decide : ¬ (RMode.canonical = RMode.fast))]
      rw [hout]
      have hser := generatePhase_serOK
        (canonCtx ab rcsEpoch ctw f opts0) rfl rfl
      have hRb : f.genSeq.length
          ≤ f.genSeq.length + export_ncommit f.heads := by omega
      obtain ⟨gq, gmk, gmm, gsc, gem, grecs⟩ :=
        generatePhase_canon_state f.genSeq initState
      have hbinv0 : BInv (f.genSeq.length + export_ncommit f.heads)
          (generatePhase RMode.canonical f.genSeq initState).1 := by
        refine ⟨?_, ?_, ?_⟩
        · intro cid hcid
          rw [gsc] at hcid
          simp [initState] at hcid
        · rw [gq]
          simp [initState]
        · rw [generatePhase_canon_accesses]
          rfl
      have hloop := canonLoop_binv hser hRb f.tags (canonHist f.heads)
        [] [] (generatePhase RMode.canonical f.genSeq initState).1
        hbinv0 (by simp) htopC hfilesC
        (by rw [gq, canonHist_length]; simp [initState])
      exact branchResets_accesses _ f.heads _ hloop.1
        (fun h hh => hloop.2 h.commit.cid (Or.inr (hheadsC h hh)))
    · have hout : (export_commits ab rcsEpoch ctw f opts0).1
          = (branchResets (fastCtx ab rcsEpoch ctw f opts0) f.heads
              (fastLoop (fastCtx ab rcsEpoch ctw f opts0) f.tags f.heads
                (generatePhase RMode.fast f.genSeq initState).1).1).1 := by
        simp only [export_commits, hm, fastCtx]
        rw [if_pos trivial]
      rw [hout]
      have hser := generatePhase_serOK
        (fastCtx ab rcsEpoch ctw f opts0) rfl rfl
      have hRb : f.genSeq.length
          ≤ f.genSeq.length + export_ncommit f.heads := by omega
      obtain ⟨ff1, ff2, ff3, ff4, ff5, ff6⟩ :=
        generatePhase_fast_facts f.genSeq initState rfl
      have hbinv0 : BInv (f.genSeq.length + export_ncommit f.heads)
          (generatePhase RMode.fast f.genSeq initState).1 := by
        refine ⟨?_, ?_, ?_⟩
        · intro cid hcid
          rw [ff3] at hcid
          simp [initState] at hcid
        · rw [ff2]
          simp [initState]
        · exact generatePhase_fast_accesses f.genSeq initState rfl
            (by simp [initState])
      have hloop := fastLoop_binv hser hRb f.tags f.heads []
        (generatePhase RMode.fast f.genSeq initState).1 hbinv0
        (by simp) htopF hfilesF
        (by rw [ff2, fastOrder_length]; simp [initState])
      exact branchResets_accesses _ f.heads _ hloop.1
        (fun h hh => hloop.2 h.commit.cid (Or.inr (hheadsF h hh)))
  exact ⟨hmain, accessesOK_nonzero hmain⟩

theorem markmap_bounds_spec_witness :
    accessesOK (fxForest.genSeq.length + export_ncommit fxForest.heads)
      (export_commits fxAB 0 300 fxForest fxOpts).1.accesses = true ∧
    (∀ a ∈ (export_commits fxAB 0 300 fxForest fxOpts).1.accesses,
      a.2 ≠ 0) :=
  markmap_bounds_spec fxAB 0 300 fxForest fxOpts (by decide) (by decide)
    (by decide) (by decide) (by decide) (by decide)

/-- C1 counterexample: the incremental fixture run emits a commit
record whose `from :2` references the suppressed parent's mark, which
no record of the stream defines (the parent's serial and mark are
assigned even when its record is suppressed, and the child's `from`
line reads `markmap[parent->serial]` unconditionally). -/
theorem mark_undefined_cex :
    streamOK fxRunInc = false ∧
    (2 : Nat) ∈ refsOfRec (fxRunInc.getD 1 Rec.done) ∧
    (2 : Nat) ∉ defsOfList fxRunInc := by
  refine ⟨by decide, by decide, by decide⟩

/-- C1 (amended): in a full (non-incremental, `fromtime = 0`) run, in
both fast and canonical modes, every `from :N` reference of a commit
record and every `:N` mark of an `M` fileop line is preceded in the
stream by a `mark :N` definition (a blob or commit record), provided
the emission order is topologically consistent (each parent exported
before its children), no commit is exported twice, and every file
revision of an exported commit was numbered by the generation phase. -/
theorem mark_definedness_spec :
    ∀ (ab : Atom → Bloom) (rcsEpoch : Int) (ctw : Nat) (f : Forest)
      (opts0 : Opts),
      opts0.fromtime = 0 →
      topFromB [] (canonHist f.heads) = true →
      freshCids [] (canonHist f.heads) = true →
      (∀ e ∈ canonHist f.heads, ∀ fr ∈ e.commit.files,
        fr.fid ∈ f.genSeq.map FileRev.fid) →
      topFromBG [] (fastOrder f.heads) = true →
      freshCidsG [] (fastOrder f.heads) = true →
      (∀ c ∈ fastOrder f.heads, ∀ fr ∈ c.files,
        fr.fid ∈ f.genSeq.map FileRev.fid) →
      streamOK (export_commits ab rcsEpoch ctw f opts0).2 = true := by
  intro ab rcsEpoch ctw f opts0 hft htopC hfreshC hfilesC htopF hfreshF
    hfilesF
  rcases resolveMode_cases opts0.fromtime opts0.reportmode f.textsize
    with hm | hm
  · -- canonical mode
    have hout : (export_commits ab rcsEpoch ctw f opts0).2
        = (generatePhase RMode.canonical f.genSeq initState).2.1 ++
          (canonLoop (canonCtx ab rcsEpoch ctw f opts0) f.tags
            (canonHist f.heads) []
            (generatePhase RMode.canonical f.genSeq initState).1).2 ++
          (branchResets (canonCtx ab rcsEpoch ctw f opts0) f.heads
            (canonLoop (canonCtx ab rcsEpoch ctw f opts0) f.tags
              (canonHist f.heads) []
              (generatePhase RMode.canonical f.genSeq initState).1).1).2 ++
          [Rec.done] := by
      simp only [export_commits, hm, canonCtx]
      rw [if_neg (by decide : ¬ (RMode.canonical = RMode.fast))]
    rw [streamOK, hout]
    obtain ⟨gq, gmk, gmm, gsc, gem, grecs⟩ :=
      generatePhase_canon_state f.genSeq initState
    rw [grecs]
    simp only [List.nil_append]
    rw [streamOKFrom_append, streamOKFrom_append]
    have hser : SerOK (canonCtx ab rcsEpoch ctw f opts0)
        f.genSeq.length :=
      generatePhase_serOK (canonCtx ab rcsEpoch ctw f opts0) rfl rfl
    have hminv : MInv (canonCtx ab rcsEpoch ctw f opts0) f.genSeq.length
        (generatePhase RMode.canonical f.genSeq initState).1 [] := by
      refine ⟨?_, ?_, ?_, ?_⟩
      · rw [gq]
        simp [initState]
      · intro fid hfid
        rw [gem] at hfid
        simp [initState] at hfid
      · intro hfastc
        exact absurd hfastc (by simp [canonCtx])
      · intro cid hcid
        rw [gsc] at hcid
        simp [initState] at hcid
    have hmain := canonLoop_streamOK hser rfl
      (by simp [canonCtx, hft]) f.tags (canonHist f.heads) [] []
      (generatePhase RMode.canonical f.genSeq initState).1 []
      hminv (by simp) htopC hfreshC hfilesC
    rw [hmain]
    have hbr : ∀ (defs2 : List Nat), streamOKFrom defs2
        (branchResets (canonCtx ab rcsEpoch ctw f opts0) f.heads
          (canonLoop (canonCtx ab rcsEpoch ctw f opts0) f.tags
            (canonHist f.heads) []
            (generatePhase RMode.canonical f.genSeq initState).1).1).2
        = true := by
      intro defs2
      refine streamOKFrom_noRefs defs2 _ (fun r hr => ?_)
      obtain ⟨s, mk, rfl⟩ := branchResets_recs _ _ _ r hr
      rfl
    rw [hbr]
    rfl
  · -- fast mode
    have hout : (export_commits ab rcsEpoch ctw f opts0).2
        = (generatePhase RMode.fast f.genSeq initState).2.1 ++
          (fastLoop (fastCtx ab rcsEpoch ctw f opts0) f.tags f.heads
            (generatePhase RMode.fast f.genSeq initState).1).2 ++
          (branchResets (fastCtx ab rcsEpoch ctw f opts0) f.heads
            (fastLoop (fastCtx ab rcsEpoch ctw f opts0) f.tags f.heads
              (generatePhase RMode.fast f.genSeq initState).1).1).2 ++
          [Rec.done] := by
      simp only [export_commits, hm, fastCtx]
      rw [if_pos trivial]
    rw [streamOK, hout]
    rw [streamOKFrom_append, streamOKFrom_append, streamOKFrom_append]
    have hgen : streamOKFrom []
        (generatePhase RMode.fast f.genSeq initState).2.1 = true := by
      refine streamOKFrom_noRefs [] _ (fun r hr => ?_)
      obtain ⟨m, rfl⟩ := generatePhase_recs _ _ _ r hr
      rfl
    rw [hgen]
    have hser : SerOK (fastCtx ab rcsEpoch ctw f opts0)
        f.genSeq.length :=
      generatePhase_serOK (fastCtx ab rcsEpoch ctw f opts0) rfl rfl
    obtain ⟨ff1, ff2, ff3, ff4, ff5, ff6⟩ :=
      generatePhase_fast_facts f.genSeq initState rfl
    have hminv : MInv (fastCtx ab rcsEpoch ctw f opts0) f.genSeq.length
        (generatePhase RMode.fast f.genSeq initState).1
        (defsOfList (generatePhase RMode.fast f.genSeq initState).2.1) := by
      refine ⟨?_, ?_, ?_, ?_⟩
      · rw [ff2]
        simp [initState]
      · intro fid hfid
        rw [ff4] at hfid
        simp [initState] at hfid
      · intro _ fid hfid
        have hb := hser.1 fid hfid
        have := ff5 ((fastCtx ab rcsEpoch ctw f opts0).serialOfRev fid)
          (by simp [initState]; omega) (by simp [initState]; omega)
        rw [this.1]
        exact this.2
      · intro cid hcid
        rw [ff3] at hcid
        simp [initState] at hcid
    have hmain := fastLoop_streamOK hser rfl f.tags f.heads []
      (generatePhase RMode.fast f.genSeq initState).1
      (defsOfList (generatePhase RMode.fast f.genSeq initState).2.1)
      hminv (by simp) htopF hfreshF hfilesF
    rw [show ([] : List Nat) ++
        defsOfList (generatePhase RMode.fast f.genSeq initState).2.1
        = defsOfList (generatePhase RMode.fast f.genSeq initState).2.1
      from List.nil_append _]
    rw [hmain]
    have hbr : ∀ (defs2 : List Nat), streamOKFrom defs2
        (branchResets (fastCtx ab rcsEpoch ctw f opts0) f.heads
          (fastLoop (fastCtx ab rcsEpoch ctw f opts0) f.tags f.heads
            (generatePhase RMode.fast f.genSeq initState).1).1).2
        = true := by
      intro defs2
      refine streamOKFrom_noRefs defs2 _ (fun r hr => ?_)
      obtain ⟨s, mk, rfl⟩ := branchResets_recs _ _ _ r hr
      rfl
    rw [hbr]
    rfl

theorem mark_definedness_spec_witness :
    streamOK (export_commits fxAB 0 300 fxForest fxOpts).2 = true :=
  mark_definedness_spec fxAB 0 300 fxForest fxOpts rfl (by decide)
    (by decide) (by decide) (by decide) (by decide) (by decide)

/-- C4 counterexample: with the cutoff equal to the root commit's
display date, the root is suppressed (the code suppresses at
`fromtime >= display_date`), the child is reported, yet no synthetic
`from <prefix><branch>^0` anchor appears in the stream, because the
anchor condition `display_date(parent) < fromtime` is strict and fails
at equality. -/
theorem incremental_anchor_cex :
    (fxP.date + 0 ≤ fxOptsInc.fromtime) ∧
    (∀ r ∈ fxRunInc, isCommitOf 1 r = false) ∧
    (∃ r, r ∈ fxRunInc ∧ isCommitOf 2 r = true) ∧
    (∀ r ∈ fxRunInc, isAnchor r = false) := by
  refine ⟨by decide, by decide, ?_, by decide⟩
  refine ⟨fxRunInc.getD 1 Rec.done, ?_, by decide⟩
  have h : fxRunInc.getD 1 Rec.done = fxRunInc.get ⟨1, by decide⟩ := by decide
  rw [h]
  exact fxRunInc.get_mem _ _

/-- C4 (amended): with an incremental cutoff `fromtime = T > 0` (which
forces canonical mode) and no forced dates, every commit record in the
stream belongs to a history entry whose display date is strictly above
the cutoff (commits at or below the cutoff are suppressed), and for the
first entry of a branch not yet realized whose own display date clears
the cutoff but whose parent's display date is strictly below the cutoff
(not merely at or below it), a synthetic `from <prefix><branch>^0`
anchor record is written before that entry's commit record, with only
that entry's blob records between the two. -/
theorem incremental_cutoff_spec :
    ∀ (ab : Atom → Bloom) (rcsEpoch : Int) (ctw : Nat) (f : Forest)
      (opts0 : Opts), opts0.force_dates = false → 0 < opts0.fromtime →
      (∀ r ∈ (export_commits ab rcsEpoch ctw f opts0).2,
        isCommitRec r = true →
          ∃ e, e ∈ canonHist f.heads ∧ isCommitOf e.commit.cid r = true ∧
            opts0.fromtime < e.commit.date + rcsEpoch) ∧
      (∀ (l1 : List CSeq) (e : CSeq) (l2 : List CSeq) (p : GitCommit),
        canonHist f.heads = l1 ++ e :: l2 →
        e.commit.parentC = some p →
        opts0.fromtime < e.commit.date + rcsEpoch →
        p.date + rcsEpoch < opts0.fromtime →
        e.headIdx ∉ (canonPrefix (canonCtx ab rcsEpoch ctw f opts0) f.tags
          l1 [] (generatePhase RMode.canonical f.genSeq initState).1).1 →
        ∃ pre mid mk fm ops suf,
          (export_commits ab rcsEpoch ctw f opts0).2
            = pre ++ Rec.anchor (opts0.branchPfx ++ e.refName) ::
                (mid ++ Rec.commitRec e.commit.cid
                  (opts0.branchPfx ++ e.refName) mk fm ops :: suf) ∧
          (∀ r ∈ mid, ∃ m, r = Rec.blob m)) := by
  intro ab rcsEpoch ctw f opts0 hforce hft
  have hres : resolveMode opts0.fromtime opts0.reportmode f.textsize
      = RMode.canonical := by
    unfold resolveMode
    rw [if_pos hft]
  have hout : (export_commits ab rcsEpoch ctw f opts0).2
      = (generatePhase RMode.canonical f.genSeq initState).2.1 ++
        (canonLoop (canonCtx ab rcsEpoch ctw f opts0) f.tags
          (canonHist f.heads) []
          (generatePhase RMode.canonical f.genSeq initState).1).2 ++
        (branchResets (canonCtx ab rcsEpoch ctw f opts0) f.heads
          (canonLoop (canonCtx ab rcsEpoch ctw f opts0) f.tags
            (canonHist f.heads) []
            (generatePhase RMode.canonical f.genSeq initState).1).1).2 ++
        [Rec.done] := by
    simp only [export_commits, hres, canonCtx]
    rw [if_neg (by decide : ¬ (RMode.canonical = RMode.fast))]
  constructor
  · intro r hr hcr
    rw [hout] at hr
    simp only [List.mem_append] at hr
    rcases hr with ((hr | hr) | hr) | hr
    · obtain ⟨m, rfl⟩ := generatePhase_recs _ _ _ r hr
      simp [isCommitRec] at hcr
    · exact canonLoop_commitRecs hforce hft f.tags _ _ _ r hr hcr
    · obtain ⟨s, m, rfl⟩ := branchResets_recs _ _ _ r hr
      simp [isCommitRec] at hcr
    · simp only [List.mem_singleton] at hr
      subst hr
      simp [isCommitRec] at hcr
  · intro l1 e l2 p hdecomp hp hdd hpd hnr
    obtain ⟨pre, mid, mk, fm, ops, suf, heq, hmid⟩ :=
      canonLoop_anchor hforce hft f.tags hp hdd hpd l1 l2 []
        (generatePhase RMode.canonical f.genSeq initState).1 hnr
    refine ⟨(generatePhase RMode.canonical f.genSeq initState).2.1 ++ pre,
      mid, mk, fm, ops,
      suf ++ (branchResets (canonCtx ab rcsEpoch ctw f opts0) f.heads
        (canonLoop (canonCtx ab rcsEpoch ctw f opts0) f.tags
          (l1 ++ e :: l2) []
          (generatePhase RMode.canonical f.genSeq initState).1).1).2 ++
      [Rec.done], ?_, hmid⟩
    rw [hout, hdecomp, heq]
    simp [List.append_assoc, canonCtx]

theorem incremental_cutoff_spec_witness :
    ∃ pre mid mk fm ops suf,
      (export_commits fxAB 0 300 fxForest fxOptsInc2).2
        = pre ++ Rec.anchor (("refs/heads/" : String) ++ ("master" : String)) ::
            (mid ++ Rec.commitRec 2
              (("refs/heads/" : String) ++ ("master" : String))
              mk fm ops :: suf) ∧
      (∀ r ∈ mid, ∃ m, r = Rec.blob m) :=
  (incremental_cutoff_spec fxAB 0 300 fxForest fxOptsInc2 rfl
      (by decide)).2
    [⟨fxP, 0, ("master" : String)⟩] ⟨fxC, 0, ("master" : String)⟩ [] fxP
    rfl rfl (by decide) (by decide) (by decide)

/-- C8 counterexample: in the fixture run the tag reset targeting the
root commit is written at position 2, before the second commit record
at position 4, so the tag resets are not all after the commit
records. -/
theorem reset_order_cex :
    fxRun.getD 2 Rec.done = Rec.tagReset ("v1") 1 2 ∧
    isCommitRec (fxRun.getD 4 Rec.done) = true ∧
    (2 : Nat) < 4 := by
  refine ⟨?_, ?_, ?_⟩ <;> decide

/-- C8 (amended): tag resets are interleaved with the commit records:
each tag reset is written after the commit record of its target (not
after all commit records); the branch resets (one per head clearing the
cutoff) follow every commit record; and the stream closes with the
literal `done` as its final record.  Stated for runs without forced
dates. -/
theorem stream_tail_structure :
    ∀ (ab : Atom → Bloom) (rcsEpoch : Int) (ctw : Nat) (f : Forest)
      (opts0 : Opts), opts0.force_dates = false →
      ∃ front resets,
        (export_commits ab rcsEpoch ctw f opts0).2
          = front ++ resets ++ [Rec.done] ∧
        (∀ r ∈ resets, isBranchReset r = true) ∧
        (∀ r ∈ front, isBranchReset r = false) ∧
        tagsPlacedFrom [] (export_commits ab rcsEpoch ctw f opts0).2 = true ∧
        ((export_commits ab rcsEpoch ctw f opts0).2).getLast?
          = some Rec.done := by
  intro ab rcsEpoch ctw f opts0 hforce
  simp only [export_commits]
  refine ⟨_, _, rfl, ?_, ?_, ?_, ?_⟩
  · intro r hr
    obtain ⟨s, m, rfl⟩ := branchResets_recs _ _ _ r hr
    rfl
  · intro r hr
    rcases List.mem_append.mp hr with hr | hr
    · obtain ⟨m, rfl⟩ := generatePhase_recs _ _ _ r hr
      rfl
    · by_cases hm :
        resolveMode opts0.fromtime opts0.reportmode f.textsize = RMode.fast
      · simp only [hm, if_pos] at hr
        refine fastLoop_pred _ _ (fun r => isBranchReset r = false)
          ?_ ?_ _ _ r hr
        · intro nm cid m
          rfl
        · intro c branch report st2 r2 hr2
          exact (export_commit_not_special _ _ _ _ _ r2 hr2).2.1
      · simp only [hm, if_false] at hr
        refine canonLoop_pred _ _ (fun r => isBranchReset r = false)
          ?_ ?_ ?_ _ _ _ r hr
        · intro s
          rfl
        · intro nm cid m
          rfl
        · intro c branch report st2 r2 hr2
          exact (export_commit_not_special _ _ _ _ _ r2 hr2).2.1
  · rw [tagsPlacedFrom_append, tagsPlacedFrom_append, tagsPlacedFrom_append]
    simp only [Bool.and_eq_true]
    refine ⟨⟨⟨?_, ?_⟩, ?_⟩, ?_⟩
    · refine tagsPlacedFrom_noTags _ _ (fun r hr => ?_)
      obtain ⟨m, rfl⟩ := generatePhase_recs _ _ _ r hr
      rfl
    · by_cases hm :
        resolveMode opts0.fromtime opts0.reportmode f.textsize = RMode.fast
      · rw [if_pos hm]
        exact fastLoop_tagsPlaced _ _ _ _ _
      · rw [if_neg hm]
        exact canonLoop_tagsPlaced _ _ hforce _ _ _ _
    · refine tagsPlacedFrom_noTags _ _ (fun r hr => ?_)
      obtain ⟨s, m, rfl⟩ := branchResets_recs _ _ _ r hr
      rfl
    · rfl
  · exact List.getLast?_concat _

theorem stream_tail_structure_witness :
    ∃ front resets,
      (export_commits fxAB 0 300 fxForest fxOpts).2
        = front ++ resets ++ [Rec.done] ∧
      (∀ r ∈ resets, isBranchReset r = true) ∧
      (∀ r ∈ front, isBranchReset r = false) ∧
      tagsPlacedFrom [] (export_commits fxAB 0 300 fxForest fxOpts).2
        = true ∧
      ((export_commits fxAB 0 300 fxForest fxOpts).2).getLast?
        = some Rec.done :=
  stream_tail_structure fxAB 0 300 fxForest fxOpts rfl

/-- C10: `compare_commit` computes its timestamp step as the `time_t`
difference `ac->date - bc->date` truncated to `int` (`Int.bmod` at
width `2 ^ 32`); when the difference fits the `int` range the returned
value is the exact difference, so its sign agrees with the true date
order; and for distinct dates whose difference is a multiple of
`2 ^ 32` the function returns 0, treating the commits as equal. -/
theorem compare_commit_timestamp_truncation :
    (∀ ac bc : GitCommit, ac.date ≠ bc.date →
        compare_commit ac bc = Int.bmod (ac.date - bc.date) (2 ^ 32)) ∧
    (∀ ac bc : GitCommit, ac.date ≠ bc.date →
        -(2 ^ 31) ≤ ac.date - bc.date → ac.date - bc.date < 2 ^ 31 →
        compare_commit ac bc = ac.date - bc.date) ∧
    (∀ ac bc : GitCommit, ac.date ≠ bc.date →
        (ac.date - bc.date) % (2 ^ 32) = 0 →
        compare_commit ac bc = 0) := by
  have hbase : ∀ ac bc : GitCommit, ac.date ≠ bc.date →
      compare_commit ac bc = Int.bmod (ac.date - bc.date) (2 ^ 32) := by
    intro ac bc h
    have hne : ac.date - bc.date ≠ 0 := sub_ne_zero.mpr h
    simp [compare_commit, hne, truncToInt, INT_WIDTH]
  refine ⟨hbase, ?_, ?_⟩
  · intro ac bc h h1 h2
    rw [hbase ac bc h]
    have e : ((2 : Nat) ^ 32 : Int) = 4294967296 := by norm_num
    simp only [Int.bmod]
    norm_num
    omega
  · intro ac bc h h0
    rw [hbase ac bc h]
    simp only [Int.bmod]
    norm_num
    omega

/-- Fixture commits dated exactly `2 ^ 32` apart. -/
def fxT1 : GitCommit :=
  GitCommit.node 1 none (2 ^ 32) ("a" : String) ("l" : String) ⟨[]⟩ [] false

def fxT2 : GitCommit :=
  GitCommit.node 2 none 0 ("b" : String) ("m" : String) ⟨[]⟩ [] false

theorem compare_commit_timestamp_truncation_witness :
    compare_commit fxT1 fxT2 = 0 :=
  compare_commit_timestamp_truncation.2.2 fxT1 fxT2 (by decide) (by decide)

/-- C6: the canonical path sorts the Phase-A history with the
`sort_by_date` comparator exactly when every commit with a parent has
parent timestamp at most its own; otherwise one warning is announced
and the Phase-A order is kept unchanged. -/
theorem sortHistory_spec :
    ∀ hist : List CSeq,
      (sortableB hist = true ↔
        ∀ e ∈ hist, ∀ p, e.commit.parentC = some p →
          p.date ≤ e.commit.date) ∧
      (sortableB hist = true →
        sortHistory hist = (sortByB sort_by_date_le hist, 0)) ∧
      (sortableB hist = false → sortHistory hist = (hist, 1)) := by
  intro hist
  refine ⟨?_, ?_, ?_⟩
  · simp only [sortableB, List.all_eq_true]
    constructor
    · intro h e he p hp
      have h2 := h e he
      rw [hp] at h2
      simpa using h2
    · intro h e he
      cases hpc : e.commit.parentC with
      | none => simp
      | some p => simpa using h e he p hpc
  · intro h
    simp [sortHistory, h]
  · intro h
    simp [sortHistory, h]

theorem sortHistory_spec_witness :
    sortHistory (canonicalize fxForest.heads)
      = (sortByB sort_by_date_le (canonicalize fxForest.heads), 0) :=
  (sortHistory_spec (canonicalize fxForest.heads)).2.1 (by decide)

/-- C7 counterexample: with no cutoff and adaptive mode, at a source
volume of exactly 1000000 bytes the driver selects canonical, while the
claim ("canonical exactly when below the threshold") predicts fast. -/
theorem resolveMode_boundary_cex :
    ¬ (resolveMode 0 RMode.adaptive SMALL_REPOSITORY = RMode.canonical ↔
        SMALL_REPOSITORY < SMALL_REPOSITORY) := by decide

/-- C7 (amended): the driver selects canonical whenever `fromtime > 0`;
otherwise, in adaptive mode, it selects canonical exactly when the
source volume is at most (not strictly below) the 1000000-byte
threshold; an explicit non-adaptive mode is kept. -/
theorem resolveMode_spec :
    ∀ (ft : Int) (rm : RMode) (ts : Nat),
      (ft > 0 → resolveMode ft rm ts = RMode.canonical) ∧
      (¬ ft > 0 → rm = RMode.adaptive →
        (resolveMode ft rm ts = RMode.canonical ↔ ts ≤ SMALL_REPOSITORY)) ∧
      (¬ ft > 0 → rm ≠ RMode.adaptive → resolveMode ft rm ts = rm) := by
  intro ft rm ts
  refine ⟨?_, ?_, ?_⟩
  · intro h
    simp [resolveMode, h]
  · intro h hrm
    subst hrm
    by_cases hts : ts ≤ SMALL_REPOSITORY
    · simp [resolveMode, h, hts]
    · simp [resolveMode, h, hts]
  · intro h hrm
    simp [resolveMode, h, hrm]

theorem resolveMode_spec_witness :
    resolveMode 0 RMode.adaptive 5 = RMode.canonical :=
  ((resolveMode_spec 0 RMode.adaptive 5).2.1 (by decide) rfl).mpr (by decide)

/-- C2: the code inverts the Bloom membership test.  At the failing
input both commits hold the same interned file name and the name's
fingerprint intersects the parent's filter (as it must when the name is
present in the parent), yet `compute_parent_links` skips the scan and
leaves both sides unlinked; with word-disjoint fingerprints (where the
spec says the scan may be skipped) the scan runs and links the pair. -/
theorem compute_parent_links_bloom_inverted :
    bloomOverlap (fxAB 1) fxP.bloom = true ∧
    fxC.files.map FileRev.name = fxP.files.map FileRev.name ∧
    compute_parent_links fxAB fxC fxP = ⟨[none], [none]⟩ ∧
    compute_parent_links (fun _ => ⟨[0]⟩) fxC fxP
      = ⟨[some 0], [some 0]⟩ := by
  refine ⟨rfl, rfl, ?_, ?_⟩ <;> decide

end CFE
